import Mathlib

/-!
# Cypsa: bytecode chunk ("nugget"), constant pool and stack VM

A shallow embedding of `memory.h`, `memory.c`, `values.c`, `nugget.c`, `debug.c`,
`vm.c`, `scanner.h`, `scanner.c` and `compiler.c`.

Conventions of the embedding.

* A heap block is a list of cells; a cell is `none` while it has never been
  written (fresh `realloc` memory) and `some x` afterwards.  A `NULL` pointer is
  the empty block.
* A pointer into a block is the offset from the block's base (`iptr`,
  `stack_ptr`, `stack_top`).
* An operation whose C behaviour is undefined (a store or load outside the
  block, a load of a never-written cell, moving the stack pointer below the
  stack base) yields `none`.
* `int` and `size_t` quantities are natural numbers; a `uint8_t` is a natural
  number reduced modulo 256 where the C code converts to `uint8_t`.  The capacities
  (`int capacity`, `int stack_capacity`) are the one place where the width of an `int`
  matters: `GROW_CAPACITY` on natural numbers is the macro of the source for capacities
  below `2^30`, and `GROW_CAPACITY_int32` is the macro on a 32-bit `int`, whose doubling
  overflows at `2^30`.  The statements whose subject is growth or a run of appends of
  any length carry that bound.
* `Value` is `double` in the source.  The embedding is generic in the type of
  values and its arithmetic, which is all the stores, loads and the four
  operators of the VM need.
* Output (`printf`, `print_value`) is not part of the state; the value printed by
  the return instruction is carried by the result of the step.  The diagnostics of
  the compiler on `stderr` are kept as a list.
* A pointer to `char` (`Token.start`, the pointers of the scanner) is the text from
  the pointer to the terminating NUL; a pointer to a chunk is an address into a
  memory of chunks.
* Functions that the sources call but do not define are parameters (`next_token`,
  `expression`); the parser of the spec that stands in for `expression`, and
  `scan_token` standing in for `next_token`, are marked as modelled from the spec.
* A loop is cut off by a fuel argument; `Outcome.out_of_fuel` tells the cut from a
  result and from undefined behaviour.
-/

namespace Cypsa

/-! ## memory.h / memory.c -/

/-- The macro `GROW_CAPACITY(capacity)`: `((capacity) < 8 ? 8 : (capacity) * 2)`, on
natural numbers.  In the source the argument is an `int`; this is the value of the macro
as long as the product fits an `int`, that is for capacities below `2^30`
(`GROW_CAPACITY_int32` is the macro on a 32-bit `int`). -/
def GROW_CAPACITY (capacity : Nat) : Nat :=
  if capacity < 8 then 8 else capacity * 2

/-- The function `reallocate(pointer, old_size, new_size)`, sizes counted in elements:
a new size of 0 frees the block; otherwise `realloc` keeps the cells that fit in
the new size and the added cells are uninitialised.  As in the source,
`old_size` is not used. -/
def reallocate {α : Type} (pointer : List (Option α)) (_old_size new_size : Nat) :
    List (Option α) :=
  if new_size = 0 then []
  else pointer.take new_size ++ List.replicate (new_size - pointer.length) none

/-- The macro `GROW_ARRAY(type, pointer, old_capacity, new_capacity)`. -/
def GROW_ARRAY {α : Type} (pointer : List (Option α)) (old_capacity new_capacity : Nat) :
    List (Option α) :=
  reallocate pointer old_capacity new_capacity

/-- The macro `FREE_ARRAY(type, pointer, old_capacity)`. -/
def FREE_ARRAY {α : Type} (pointer : List (Option α)) (old_capacity : Nat) :
    List (Option α) :=
  reallocate pointer old_capacity 0

/-- The assignment `block[i] = v`; undefined outside the block. -/
def store {α : Type} (block : List (Option α)) (i : Nat) (v : α) :
    Option (List (Option α)) :=
  if i < block.length then some (block.set i (some v)) else none

/-- The read `block[i]`; undefined outside the block and on a cell never written. -/
def load {α : Type} (block : List (Option α)) (i : Nat) : Option α :=
  (block.get? i).join

/-! ## values.h / values.c -/

/-- The struct `ValuePool`. -/
structure ValuePool (Value : Type) where
  capacity : Nat
  occupied : Nat
  values : List (Option Value)
deriving DecidableEq

/-- The function `init_valuepool`. -/
def init_valuepool {Value : Type} (_pool : ValuePool Value) : ValuePool Value :=
  { capacity := 0, occupied := 0, values := [] }

/-- The function `write_valuepool`. -/
def write_valuepool {Value : Type} (pool : ValuePool Value) (value : Value) :
    Option (ValuePool Value) :=
  let pool :=
    if pool.capacity < pool.occupied + 1 then
      let prev_capacity := pool.capacity
      let capacity := GROW_CAPACITY prev_capacity
      { pool with
        capacity := capacity
        values := GROW_ARRAY pool.values prev_capacity capacity }
    else pool
  (store pool.values pool.occupied value).map fun values =>
    { pool with values := values, occupied := pool.occupied + 1 }

/-! ## nugget.h / nugget.c -/

/-- The enum `OpCode`. -/
abbrev OPCODE_CONSTANT : Nat := 0
/-- The enum `OpCode`. -/
abbrev OPCODE_CONSTANT_LONG : Nat := 1
/-- The enum `OpCode`. -/
abbrev OPCODE_NEGATE : Nat := 2
/-- The enum `OpCode`. -/
abbrev OPCODE_ADD : Nat := 3
/-- The enum `OpCode`. -/
abbrev OPCODE_SUBTRACT : Nat := 4
/-- The enum `OpCode`. -/
abbrev OPCODE_MULTIPLY : Nat := 5
/-- The enum `OpCode`. -/
abbrev OPCODE_DIVIDE : Nat := 6
/-- The enum `OpCode`. -/
abbrev OPCODE_RETURN : Nat := 7

/-- The struct `Nugget`. -/
structure Nugget (Value : Type) where
  occupied : Nat
  capacity : Nat
  code : List (Option Nat)
  lines : List (Option Nat)
  constants : ValuePool Value
deriving DecidableEq

/-- The macro `HIGH_BYTE(x)`. -/
def HIGH_BYTE (x : Nat) : Nat := (x &&& 0xFF000000) >>> 24
/-- The macro `HMID_BYTE(x)`. -/
def HMID_BYTE (x : Nat) : Nat := (x &&& 0x00FF0000) >>> 16
/-- The macro `LMID_BYTE(x)`. -/
def LMID_BYTE (x : Nat) : Nat := (x &&& 0x0000FF00) >>> 8
/-- The macro `LOW_BYTE(x)`. -/
def LOW_BYTE (x : Nat) : Nat := x &&& 0x000000FF

/-- The function `init_nugget`. -/
def init_nugget {Value : Type} (nugget : Nugget Value) : Nugget Value :=
  { occupied := 0, capacity := 0, code := [], lines := [],
    constants := init_valuepool nugget.constants }

/-- The function `write_nugget`; the parameter `byte` is a `uint8_t`. -/
def write_nugget {Value : Type} (nugget : Nugget Value) (byte line : Nat) :
    Option (Nugget Value) :=
  let nugget :=
    if nugget.capacity < nugget.occupied + 1 then
      let prev_capacity := nugget.capacity
      let capacity := GROW_CAPACITY nugget.capacity
      { nugget with
        capacity := capacity
        code := GROW_ARRAY nugget.code prev_capacity capacity
        lines := GROW_ARRAY nugget.lines prev_capacity capacity }
    else nugget
  (store nugget.code nugget.occupied (byte % 256)).bind fun code =>
  (store nugget.lines nugget.occupied line).map fun lines =>
    { nugget with code := code, lines := lines, occupied := nugget.occupied + 1 }

/-- The function `add_constant`: the chunk afterwards and the returned index. -/
def add_constant {Value : Type} (nugget : Nugget Value) (value : Value) :
    Option (Nugget Value × Nat) :=
  (write_valuepool nugget.constants value).map fun constants =>
    ({ nugget with constants := constants }, constants.occupied - 1)

/-- The function `write_constant` (its `printf` left out). -/
def write_constant {Value : Type} (nugget : Nugget Value) (value : Value) (line : Nat) :
    Option (Nugget Value) :=
  (add_constant nugget value).bind fun (nugget, at_index) =>
    if at_index ≤ 255 then
      let operand := LOW_BYTE at_index
      (write_nugget nugget OPCODE_CONSTANT line).bind fun nugget =>
      write_nugget nugget operand line
    else
      let high_byte := HMID_BYTE at_index
      let mid_byte := LMID_BYTE at_index
      let low_byte := LOW_BYTE at_index
      (write_nugget nugget OPCODE_CONSTANT_LONG line).bind fun nugget =>
      (write_nugget nugget high_byte line).bind fun nugget =>
      (write_nugget nugget mid_byte line).bind fun nugget =>
      write_nugget nugget low_byte line

/-! ## debug.c -/

/-- The function `reconstruct_long_location`; its parameters are `uint8_t`. -/
def reconstruct_long_location (high mid low : Nat) : Nat :=
  (((high % 256) <<< 16) ||| ((mid % 256) <<< 8)) ||| (low % 256)

/-- The function `simple_instruction`: the offset of the next instruction. -/
def simple_instruction (offset : Nat) : Nat :=
  offset + 1

/-- The function `constant_instruction`: the location and value it prints, and the
offset of the next instruction. -/
def constant_instruction {Value : Type} (nugget : Nugget Value) (offset : Nat) :
    Option (Nat × Value × Nat) :=
  (load nugget.code (offset + 1)).bind fun constant_location =>
  (load nugget.constants.values constant_location).map fun constant_value =>
    (constant_location, constant_value, offset + 2)

/-- The function `constant_long_instruction`: the location and value it prints, and
the offset of the next instruction. -/
def constant_long_instruction {Value : Type} (nugget : Nugget Value) (offset : Nat) :
    Option (Nat × Value × Nat) :=
  (load nugget.code (offset + 1)).bind fun high_byte =>
  (load nugget.code (offset + 2)).bind fun mid_byte =>
  (load nugget.code (offset + 3)).bind fun low_byte =>
  let constant_location := reconstruct_long_location high_byte mid_byte low_byte
  (load nugget.constants.values constant_location).map fun constant_value =>
    (constant_location, constant_value, offset + 4)

/-- The function `disassemble_instruction`: the offset of the next instruction.  What it
prints is left out; the reads that it makes for printing are kept: the line of the
instruction, the line before it when the offset is positive, the opcode, and in the two
load instructions the operands and the constant. -/
def disassemble_instruction {Value : Type} (nugget : Nugget Value) (offset : Nat) :
    Option Nat :=
  (if offset > 0 then
      (load nugget.lines offset).bind fun line =>
      (load nugget.lines (offset - 1)).map fun previous => decide (line = previous)
    else (load nugget.lines offset).map fun _ => false).bind fun _same_line =>
  (load nugget.code offset).bind fun instruction =>
    if instruction = OPCODE_CONSTANT then
      (constant_instruction nugget offset).map fun printed => printed.2.2
    else if instruction = OPCODE_CONSTANT_LONG then
      (constant_long_instruction nugget offset).map fun printed => printed.2.2
    else if instruction = OPCODE_NEGATE then some (simple_instruction offset)
    else if instruction = OPCODE_ADD then some (simple_instruction offset)
    else if instruction = OPCODE_SUBTRACT then some (simple_instruction offset)
    else if instruction = OPCODE_MULTIPLY then some (simple_instruction offset)
    else if instruction = OPCODE_DIVIDE then some (simple_instruction offset)
    else if instruction = OPCODE_RETURN then some (simple_instruction offset)
    else some (offset + 1)

/-! ## vm.h / vm.c -/

/-- The struct `VM`; the three stack pointers are offsets from the stack base and
the chunk is held by value. -/
structure VM (Value : Type) where
  nugget : Nugget Value
  iptr : Nat
  stack : List (Option Value)
  stack_ptr : Nat
  stack_top : Nat
  stack_capacity : Nat
deriving DecidableEq

/-- The enum `InterpretationResult`. -/
inductive InterpretationResult where
  | INTERPRETER_OK
  | INTERPRETER_COMPILE_ERROR
  | INTERPRETER_RUNTIME_ERROR
deriving DecidableEq

/-- The function `rewind_stack`. -/
def rewind_stack {Value : Type} (vm : VM Value) : VM Value :=
  { vm with stack_ptr := 0 }

/-- The function `init_VM`. -/
def init_VM {Value : Type} (vm : VM Value) : VM Value :=
  { vm with stack_capacity := 0, stack := [], stack_ptr := 0, stack_top := 0 }

/-- The function `stack_offset`. -/
def stack_offset {Value : Type} (vm : VM Value) : Nat :=
  vm.stack_ptr

/-- The function `push`. -/
def push {Value : Type} (vm : VM Value) (value : Value) : Option (VM Value) :=
  let vm :=
    if vm.stack_ptr = vm.stack_top then
      let stack_current := stack_offset vm
      let prev_capacity := vm.stack_capacity
      let capacity := GROW_CAPACITY vm.stack_capacity
      { vm with
        stack_capacity := capacity
        stack := GROW_ARRAY vm.stack prev_capacity capacity
        stack_top := capacity
        stack_ptr := stack_current }
    else vm
  (store vm.stack vm.stack_ptr value).map fun stack =>
    { vm with stack := stack, stack_ptr := vm.stack_ptr + 1 }

/-- The function `pop`: the machine afterwards and the value returned. -/
def pop {Value : Type} (vm : VM Value) : Option (VM Value × Value) :=
  if vm.stack_ptr = 0 then none
  else
    let vm := { vm with stack_ptr := vm.stack_ptr - 1 }
    (load vm.stack vm.stack_ptr).map fun value => (vm, value)

/-- The macro `FETCH_BYTE()`: `(*vm.iptr++)`. -/
def FETCH_BYTE {Value : Type} (vm : VM Value) : Option (VM Value × Nat) :=
  (load vm.nugget.code vm.iptr).map fun byte => ({ vm with iptr := vm.iptr + 1 }, byte)

/-- The macro `FETCH_CONSTANT()`: `(vm.nugget->constants.values[FETCH_BYTE()])`. -/
def FETCH_CONSTANT {Value : Type} (vm : VM Value) : Option (VM Value × Value) :=
  (FETCH_BYTE vm).bind fun (vm, byte) =>
  (load vm.nugget.constants.values byte).map fun constant => (vm, constant)

/-- The macro `BINARY_OPERATION(operation)`. -/
def BINARY_OPERATION {Value : Type} (operation : Value → Value → Value) (vm : VM Value) :
    Option (VM Value) :=
  (pop vm).bind fun (vm, r) =>
  (pop vm).bind fun (vm, l) =>
  push vm (operation l r)

/-- What one iteration of the loop of `run` does: go on to the next iteration, or
return from `run` with a result after printing a value. -/
inductive Step (Value : Type) where
  | next (vm : VM Value)
  | ret (result : InterpretationResult) (printed : Value) (vm : VM Value)
deriving DecidableEq

/-- One iteration of the loop of `run`: the fetch of the opcode and the `switch`, its
cases in the order of the source.  The `switch` has no `default` case and no case
for `OPCODE_CONSTANT_LONG`.  The trace under `DEBUG_TRACE_EXECUTION` only prints and
is left out. -/
def step {Value : Type} [Zero Value] [Add Value] [Sub Value] [Mul Value] [Div Value]
    (vm : VM Value) : Option (Step Value) :=
  (FETCH_BYTE vm).bind fun (vm, instruction) =>
    if instruction = OPCODE_RETURN then
      (pop vm).map fun (vm, value) => Step.ret InterpretationResult.INTERPRETER_OK value vm
    else if instruction = OPCODE_NEGATE then
      if vm.stack_ptr = 0 then none
      else
        (load vm.stack (vm.stack_ptr - 1)).bind fun top =>
        (store vm.stack (vm.stack_ptr - 1) (0 - top)).map fun stack =>
          Step.next { vm with stack := stack }
    else if instruction = OPCODE_ADD then
      (BINARY_OPERATION (fun l r => l + r) vm).map Step.next
    else if instruction = OPCODE_SUBTRACT then
      (BINARY_OPERATION (fun l r => l - r) vm).map Step.next
    else if instruction = OPCODE_DIVIDE then
      (BINARY_OPERATION (fun l r => l / r) vm).map Step.next
    else if instruction = OPCODE_MULTIPLY then
      (BINARY_OPERATION (fun l r => l * r) vm).map Step.next
    else if instruction = OPCODE_CONSTANT then
      (FETCH_CONSTANT vm).bind fun (vm, constant) =>
      (push vm constant).map Step.next
    else
      some (Step.next vm)

/-- How a call of `run` ends. -/
inductive RunResult (Value : Type) where
  | returned (result : InterpretationResult) (printed : Value) (vm : VM Value)
  | undefined
  | out_of_fuel
deriving DecidableEq

/-- The function `run`: the loop, cut off after `fuel` iterations.  The macro `LOOP` comes
from `common.h`, which is not among the sources; it is read as the endless loop
(`for (;;)`) of the fetch-decode-execute cycle. -/
def run {Value : Type} [Zero Value] [Add Value] [Sub Value] [Mul Value] [Div Value] :
    Nat → VM Value → RunResult Value
  | 0, _ => RunResult.out_of_fuel
  | fuel + 1, vm =>
    match step vm with
    | none => RunResult.undefined
    | some (Step.ret result printed vm) => RunResult.returned result printed vm
    | some (Step.next vm) => run fuel vm

/-! ## scanner.h / scanner.c: the types and `init_scanner` -/

/-- The enum `TokenType`. -/
inductive TokenType where
  | TOKEN_LEFTPAREN | TOKEN_RIGHTPAREN | TOKEN_LEFTCURLY | TOKEN_RIGHTCURLY
  | TOKEN_COMMA | TOKEN_DOT | TOKEN_MINUS | TOKEN_PLUS | TOKEN_SEMICOLON | TOKEN_SLASH
  | TOKEN_STAR
  | TOKEN_EXCLAMATION | TOKEN_NOTEQUAL | TOKEN_EQUAL | TOKEN_EXACTEQUAL | TOKEN_GREATER
  | TOKEN_GREATEREQUAL
  | TOKEN_LESS | TOKEN_LESSEQUAL
  | TOKEN_IDENTIFIER | TOKEN_STRING | TOKEN_NUMBER
  | TOKEN_AND | TOKEN_CLASS | TOKEN_ELSE | TOKEN_FALSE | TOKEN_FOR | TOKEN_FUNC | TOKEN_IF
  | TOKEN_NIL | TOKEN_OR
  | TOKEN_PRINT | TOKEN_RETURN | TOKEN_SUPER | TOKEN_THIS | TOKEN_TRUE | TOKEN_VAR
  | TOKEN_WHILE
  | TOKEN_ERROR | TOKEN_EOF
deriving DecidableEq

/-- The struct `Token`.  The pointer `start` is held as the text that begins there and
runs to the terminating NUL: a tail of the source, or a whole message for an error
token. -/
structure Token where
  type : TokenType
  start : List Char
  length : Nat
  line : Nat
deriving DecidableEq

/-- The struct `Scanner`; its two pointers are held like `Token.start`, as the tail of
the source that begins at the pointer. -/
structure Scanner where
  start : List Char
  current : List Char
  line : Nat
deriving DecidableEq

/-- The function `init_scanner`. -/
def init_scanner (source : List Char) : Scanner :=
  { start := source, current := source, line := 1 }

/-! ## compiler.c -/

/-- How a call that may loop ends: with a result, with undefined behaviour, or cut off
by the fuel of the embedding. -/
inductive Outcome (α : Type) where
  | ok (a : α)
  | undefined
  | out_of_fuel
deriving DecidableEq

/-- Sequencing of calls: the second call runs on the result of the first. -/
def Outcome.bind {α β : Type} : Outcome α → (α → Outcome β) → Outcome β
  | Outcome.ok a, f => f a
  | Outcome.undefined, _ => Outcome.undefined
  | Outcome.out_of_fuel, _ => Outcome.out_of_fuel

/-- The result of a call seen through `f`. -/
def Outcome.map {α β : Type} (f : α → β) : Outcome α → Outcome β
  | Outcome.ok a => Outcome.ok (f a)
  | Outcome.undefined => Outcome.undefined
  | Outcome.out_of_fuel => Outcome.out_of_fuel

/-- The struct `Parser`. -/
structure Parser where
  current : Token
  previous : Token
  hiterror : Bool
  panicking : Bool
deriving DecidableEq

/-- What `error_at` prints between `Error:` and the message: ` at end of input.`,
nothing, or ` at '<lexeme>'`. -/
inductive ErrorPlace where
  | at_end
  | nowhere
  | at_lexeme (text : List Char)
deriving DecidableEq

/-- One diagnostic printed by `error_at` on `stderr`: the line, the place and the
message. -/
structure Diagnostic where
  line : Nat
  place : ErrorPlace
  message : List Char
deriving DecidableEq

/-- The global variables of `scanner.c` and `compiler.c` (`scanner`, `parser`,
`compiling_nugget`), the chunk objects in memory by address, and what was printed on
`stderr`.  A pointer to a chunk is its address; `none` is the `NULL` pointer, which is
the value of `compiling_nugget` when the program starts. -/
structure Compiler (Value : Type) where
  scanner : Scanner
  parser : Parser
  compiling_nugget : Option Nat
  chunks : Nat → Option (Nugget Value)
  stderr : List Diagnostic

/-- The function `current_nugget`. -/
def current_nugget {Value : Type} (c : Compiler Value) : Option Nat :=
  c.compiling_nugget

/-- The function `error_at`; the token is passed by value. -/
def error_at {Value : Type} (c : Compiler Value) (token : Token) (message : List Char) :
    Compiler Value :=
  if c.parser.panicking then c
  else
    let c := { c with parser := { c.parser with panicking := true } }
    let place :=
      if token.type = TokenType.TOKEN_EOF then ErrorPlace.at_end
      else if token.type = TokenType.TOKEN_ERROR then ErrorPlace.nowhere
      else ErrorPlace.at_lexeme (token.start.take token.length)
    let printed : Diagnostic := { line := token.line, place := place, message := message }
    let c := { c with stderr := c.stderr ++ [printed] }
    { c with parser := { c.parser with hiterror := true } }

/-- The function `error_current_token`. -/
def error_current_token {Value : Type} (c : Compiler Value) (message : List Char) :
    Compiler Value :=
  error_at c c.parser.current message

/-- The function `error`. -/
def error {Value : Type} (c : Compiler Value) (message : List Char) : Compiler Value :=
  error_at c c.parser.previous message

/-- The loop of `advance`, cut off after `fuel` iterations.  The function `next_token`
that it calls is neither defined nor declared in the sources (`scanner.h` declares
`scan_token`); it is a parameter: from the scanner's state to the token returned and the
scanner's state afterwards. -/
def advance_loop {Value : Type} (next_token : Scanner → Token × Scanner) :
    Nat → Compiler Value → Outcome (Compiler Value)
  | 0, _ => Outcome.out_of_fuel
  | fuel + 1, c =>
    let scanned := next_token c.scanner
    let c := { c with scanner := scanned.2, parser := { c.parser with current := scanned.1 } }
    if c.parser.current.type ≠ TokenType.TOKEN_ERROR then Outcome.ok c
    else advance_loop next_token fuel (error_current_token c c.parser.current.start)

/-- The function `advance` of `compiler.c`. -/
def advance {Value : Type} (next_token : Scanner → Token × Scanner) (fuel : Nat)
    (c : Compiler Value) : Outcome (Compiler Value) :=
  advance_loop next_token fuel { c with parser := { c.parser with previous := c.parser.current } }

/-- The function `consume`. -/
def consume {Value : Type} (next_token : Scanner → Token × Scanner) (fuel : Nat)
    (type : TokenType) (message : List Char) (c : Compiler Value) :
    Outcome (Compiler Value) :=
  if c.parser.current.type = type then advance next_token fuel c
  else Outcome.ok (error_current_token c message)

/-- A write through the pointer `current_nugget()`: undefined when the pointer is `NULL`
or refers to no chunk, or when the write itself is undefined. -/
def through_current_nugget {Value : Type} (c : Compiler Value)
    (write : Nugget Value → Option (Nugget Value)) : Outcome (Compiler Value) :=
  match current_nugget c with
  | none => Outcome.undefined
  | some address =>
    match (c.chunks address).bind write with
    | none => Outcome.undefined
    | some nugget =>
      Outcome.ok { c with chunks := fun a => if a = address then some nugget else c.chunks a }

/-- The function `emit_byte`: `write_nugget(current_nugget(), byte, parser.previous.line)`. -/
def emit_byte {Value : Type} (c : Compiler Value) (byte : Nat) : Outcome (Compiler Value) :=
  through_current_nugget c fun nugget => write_nugget nugget byte c.parser.previous.line

/-- The function `compile`.  Its parameter `nugget` (the address of the chunk) is not
used by the body, and the body has no `return` statement, so the call yields no value:
`none`.  The function `expression` that it calls is not defined in the sources and is a
parameter. -/
def compile {Value : Type} (next_token : Scanner → Token × Scanner)
    (expression : Compiler Value → Outcome (Compiler Value)) (fuel : Nat)
    (_nugget : Nat) (source : List Char) (c : Compiler Value) :
    Outcome (Compiler Value × Option Bool) :=
  let c := { c with scanner := init_scanner source }
  let c := { c with parser := { c.parser with hiterror := false } }
  let c := { c with parser := { c.parser with panicking := false } }
  (advance next_token fuel c).bind fun c =>
  (expression c).bind fun c =>
  (consume next_token fuel TokenType.TOKEN_EOF "Expected end of expression!".toList c).map
    fun c => (c, none)

/-! ## debug.c: `disassemble_nugget` -/

/-- The loop of `disassemble_nugget`, cut off after `fuel` iterations: the offsets at
which it called `disassemble_instruction`, in order, and the offset at which it
stopped. -/
def disassemble_loop {Value : Type} : Nat → Nugget Value → Nat → Outcome (List Nat × Nat)
  | 0, _, _ => Outcome.out_of_fuel
  | fuel + 1, nugget, offset =>
    if offset < nugget.occupied then
      match disassemble_instruction nugget offset with
      | none => Outcome.undefined
      | some next =>
        (disassemble_loop fuel nugget next).map fun r => (offset :: r.1, r.2)
    else Outcome.ok ([], offset)

/-- The function `disassemble_nugget` (the header it prints left out). -/
def disassemble_nugget {Value : Type} (fuel : Nat) (nugget : Nugget Value) :
    Outcome (List Nat × Nat) :=
  disassemble_loop fuel nugget 0

/-! ## scanner.c -/

/-- The function `char_digit`. -/
def char_digit (ch : Char) : Bool :=
  decide ('0' ≤ ch) && decide (ch ≤ '9')

/-- The function `char_alpha`. -/
def char_alpha (ch : Char) : Bool :=
  (decide ('a' ≤ ch) && decide (ch ≤ 'z')) || (decide ('A' ≤ ch) && decide (ch ≤ 'Z')) ||
    ch == '_'

/-- The function `peek`: `*scanner.current`, which is the terminating NUL at the end of
the text. -/
def Scanner.peek (s : Scanner) : Char :=
  s.current.headD '\x00'

/-- The function `at_file_end`. -/
def Scanner.at_file_end (s : Scanner) : Bool :=
  s.peek == '\x00'

/-- The function `advance` of `scanner.c`: `scanner.current++; return scanner.current[-1];`.
A step of the cursor beyond the terminating NUL is taken as undefined. -/
def Scanner.advance (s : Scanner) : Outcome (Char × Scanner) :=
  match s.current with
  | [] => Outcome.undefined
  | ch :: rest => Outcome.ok (ch, { s with current := rest })

/-- The function `peek_ahead`. -/
def Scanner.peek_ahead (s : Scanner) : Char :=
  if s.at_file_end then '\x00' else (s.current.drop 1).headD '\x00'

/-- The function `match` (a keyword of Lean, hence the longer name): whether the
character was matched, and the scanner afterwards. -/
def Scanner.match_char (s : Scanner) (expected : Char) : Bool × Scanner :=
  if s.at_file_end then (false, s)
  else if s.peek ≠ expected then (false, s)
  else (true, { s with current := s.current.drop 1 })

/-- The function `create_token`; the length `scanner.current - scanner.start` is the
difference of the lengths of the two tails. -/
def create_token (s : Scanner) (of_type : TokenType) : Token :=
  { type := of_type, start := s.start, length := s.start.length - s.current.length,
    line := s.line }

/-- The function `error_token`. -/
def error_token (s : Scanner) (error_message : List Char) : Token :=
  { type := TokenType.TOKEN_ERROR, start := error_message, length := error_message.length,
    line := s.line }

/-- A loop `while (cond) { advance(); }`, cut off after `fuel` iterations. -/
def Scanner.advance_while (cond : Scanner → Bool) : Nat → Scanner → Outcome Scanner
  | 0, _ => Outcome.out_of_fuel
  | fuel + 1, s =>
    if cond s then s.advance.bind fun r => Scanner.advance_while cond fuel r.2
    else Outcome.ok s

/-- The function `skip_whitespace`, its loop cut off after `fuel` iterations.  In the
source the case for `/` has no `break`: after the loop over a comment, control falls
through to `default: return;`. -/
def skip_whitespace : Nat → Scanner → Outcome Scanner
  | 0, _ => Outcome.out_of_fuel
  | fuel + 1, s =>
    let ch := s.peek
    if ch = ' ' ∨ ch = '\r' ∨ ch = '\t' then
      s.advance.bind fun r => skip_whitespace fuel r.2
    else if ch = '\n' then
      ({ s with line := s.line + 1 } : Scanner).advance.bind fun r => skip_whitespace fuel r.2
    else if ch = '/' then
      if s.peek_ahead = '/' then
        Scanner.advance_while (fun s => s.peek != '\n' && !s.at_file_end) (fuel + 1) s
      else Outcome.ok s
    else Outcome.ok s

/-- The library function `memcmp(a, b, n)` as far as `check_keyword` uses it: 0 when the
first `n` characters agree, and 1 for any other result.  A text that ends (at its NUL)
before `n` characters differs from a tail of `n` characters at that NUL at the latest;
the bytes behind the NUL, which an implementation of `memcmp` is free to read, are not
part of the embedding. -/
def memcmp (a b : List Char) (n : Nat) : Int :=
  if a.take n = b.take n then 0 else 1

/-- The function `check_keyword`. -/
def check_keyword (s : Scanner) (start length : Nat) (tail : List Char)
    (of_type : TokenType) : TokenType :=
  let lexeme_length := s.start.length - s.current.length
  let keyword_length := start + length
  let match_result := memcmp (s.start.drop start) tail length
  if lexeme_length = keyword_length ∧ match_result = 0 then of_type
  else TokenType.TOKEN_IDENTIFIER

/-- The function `typeof_identifier`. -/
def typeof_identifier (s : Scanner) : TokenType :=
  let first := s.start.headD '\x00'
  if first = 'a' then check_keyword s 1 2 "nd".toList TokenType.TOKEN_AND
  else if first = 'c' then check_keyword s 1 4 "lass".toList TokenType.TOKEN_CLASS
  else if first = 'e' then check_keyword s 1 3 "lse".toList TokenType.TOKEN_ELSE
  else if first = 'i' then check_keyword s 1 1 "f".toList TokenType.TOKEN_IF
  else if first = 'n' then check_keyword s 1 2 "il".toList TokenType.TOKEN_NIL
  else if first = 'o' then check_keyword s 1 1 "r".toList TokenType.TOKEN_OR
  else if first = 'p' then check_keyword s 1 4 "rint".toList TokenType.TOKEN_PRINT
  else if first = 'r' then check_keyword s 1 5 "eturn".toList TokenType.TOKEN_RETURN
  else if first = 's' then check_keyword s 1 4 "uper".toList TokenType.TOKEN_SUPER
  else if first = 'v' then check_keyword s 1 2 "ar".toList TokenType.TOKEN_VAR
  else if first = 'w' then check_keyword s 1 4 "hile".toList TokenType.TOKEN_WHILE
  else if first = 'f' then
    if s.start.length - s.current.length > 1 then
      let second := (s.start.drop 1).headD '\x00'
      if second = 'a' then check_keyword s 2 3 "lse".toList TokenType.TOKEN_FALSE
      else if second = 'o' then check_keyword s 2 1 "r".toList TokenType.TOKEN_FOR
      else if second = 'u' then check_keyword s 2 2 "nc".toList TokenType.TOKEN_FUNC
      else TokenType.TOKEN_IDENTIFIER
    else TokenType.TOKEN_IDENTIFIER
  else if first = 't' then
    if s.start.length - s.current.length > 1 then
      let second := (s.start.drop 1).headD '\x00'
      if second = 'h' then check_keyword s 2 2 "is".toList TokenType.TOKEN_THIS
      else if second = 'r' then check_keyword s 2 2 "ue".toList TokenType.TOKEN_TRUE
      else TokenType.TOKEN_IDENTIFIER
    else TokenType.TOKEN_IDENTIFIER
  else TokenType.TOKEN_IDENTIFIER

/-- The function `identifier`: the token and the scanner afterwards. -/
def identifier (fuel : Nat) (s : Scanner) : Outcome (Token × Scanner) :=
  (Scanner.advance_while (fun s => char_alpha s.peek || char_digit s.peek) fuel s).map
    fun s => (create_token s (typeof_identifier s), s)

/-- The function `number`. -/
def number (fuel : Nat) (s : Scanner) : Outcome (Token × Scanner) :=
  (Scanner.advance_while (fun s => char_digit s.peek) fuel s).bind fun s =>
  (if s.peek = '.' ∧ char_digit s.peek_ahead = true then s.advance.map Prod.snd
    else Outcome.ok s).bind fun s =>
  (Scanner.advance_while (fun s => char_digit s.peek) fuel s).map fun s =>
    (create_token s TokenType.TOKEN_NUMBER, s)

/-- The loop of the function `string`, cut off after `fuel` iterations. -/
def string_loop : Nat → Scanner → Outcome Scanner
  | 0, _ => Outcome.out_of_fuel
  | fuel + 1, s =>
    if s.peek != '"' && !s.at_file_end then
      let s : Scanner := if s.peek = '\n' then { s with line := s.line + 1 } else s
      s.advance.bind fun r => string_loop fuel r.2
    else Outcome.ok s

/-- The function `string`. -/
def string (fuel : Nat) (s : Scanner) : Outcome (Token × Scanner) :=
  (string_loop fuel s).bind fun s =>
    if s.at_file_end then
      Outcome.ok (error_token s "Error: Unterminated string-literal!".toList, s)
    else
      s.advance.map fun r => (create_token r.2 TokenType.TOKEN_STRING, r.2)

/-- The function `scan_token`: the token returned and the scanner afterwards; `fuel`
bounds each loop. -/
def scan_token (fuel : Nat) (s : Scanner) : Outcome (Token × Scanner) :=
  (skip_whitespace fuel s).bind fun s =>
  let s : Scanner := { s with start := s.current }
  if s.at_file_end then Outcome.ok (create_token s TokenType.TOKEN_EOF, s)
  else
    s.advance.bind fun r =>
    let ch := r.1
    let s := r.2
    if char_alpha ch then identifier fuel s
    else if char_digit ch then number fuel s
    else if ch = '(' then Outcome.ok (create_token s TokenType.TOKEN_LEFTPAREN, s)
    else if ch = ')' then Outcome.ok (create_token s TokenType.TOKEN_RIGHTPAREN, s)
    else if ch = '{' then Outcome.ok (create_token s TokenType.TOKEN_LEFTCURLY, s)
    else if ch = '}' then Outcome.ok (create_token s TokenType.TOKEN_RIGHTCURLY, s)
    else if ch = ';' then Outcome.ok (create_token s TokenType.TOKEN_SEMICOLON, s)
    else if ch = ',' then Outcome.ok (create_token s TokenType.TOKEN_COMMA, s)
    else if ch = '.' then Outcome.ok (create_token s TokenType.TOKEN_DOT, s)
    else if ch = '-' then Outcome.ok (create_token s TokenType.TOKEN_MINUS, s)
    else if ch = '+' then Outcome.ok (create_token s TokenType.TOKEN_PLUS, s)
    else if ch = '/' then Outcome.ok (create_token s TokenType.TOKEN_SLASH, s)
    else if ch = '*' then Outcome.ok (create_token s TokenType.TOKEN_STAR, s)
    else if ch = '!' then
      let matched := s.match_char '='
      Outcome.ok (create_token matched.2
        (if matched.1 then TokenType.TOKEN_NOTEQUAL else TokenType.TOKEN_EXCLAMATION),
        matched.2)
    else if ch = '=' then
      let matched := s.match_char '='
      Outcome.ok (create_token matched.2
        (if matched.1 then TokenType.TOKEN_EXACTEQUAL else TokenType.TOKEN_EQUAL),
        matched.2)
    else if ch = '<' then
      let matched := s.match_char '='
      Outcome.ok (create_token matched.2
        (if matched.1 then TokenType.TOKEN_LESSEQUAL else TokenType.TOKEN_LESS),
        matched.2)
    else if ch = '>' then
      let matched := s.match_char '='
      Outcome.ok (create_token matched.2
        (if matched.1 then TokenType.TOKEN_GREATEREQUAL else TokenType.TOKEN_GREATER),
        matched.2)
    else if ch = '"' then string fuel s
    else Outcome.ok (error_token s "\nUnknown character found.".toList, s)

/-- Repeated calls of `scan_token` up to and including the end-of-input token, as in the
loop of `compile_debug`: at most `count` calls, each with the fuel `fuel`. -/
def scan_tokens : Nat → Nat → Scanner → Outcome (List Token)
  | 0, _, _ => Outcome.out_of_fuel
  | count + 1, fuel, s =>
    (scan_token fuel s).bind fun r =>
      if r.1.type = TokenType.TOKEN_EOF then Outcome.ok [r.1]
      else (scan_tokens count fuel r.2).map fun tokens => r.1 :: tokens

/-- The text of a token: the first `length` characters at `start`. -/
def Token.lexeme (token : Token) : List Char :=
  token.start.take token.length

/-! ## The function `next_token` of the compiler -/

/-- Modelled from the spec: the function `next_token` that `advance` calls.  No source
defines or declares it; the compiler of the spec pulls its tokens from the scanner, and
`scan_token` is the one function that `scanner.h` offers for that.  It is `scan_token`
on the global scanner, with the fuel that the text at the cursor needs.  The second case
is never taken; it returns an error token and leaves the scanner as it is. -/
def next_token (s : Scanner) : Token × Scanner :=
  match scan_token (s.current.length + 1) s with
  | Outcome.ok r => r
  | _ => (error_token s [], s)

/-! ## The expression parser, which the sources call but do not contain -/

/-- Modelled from the spec: the binary operators of §4.2 that have an instruction in
the opcode set, each with its precedence level and its opcode.  The levels are, low to
high, equality 1, comparison 2, addition 3, multiplication 4, unary 5, grouping and
literal 6.  Equality and comparison tokens have no instruction and are no operators
here.  No such table is in the sources. -/
def binary_operator : TokenType → Option (Nat × Nat)
  | TokenType.TOKEN_PLUS => some (3, OPCODE_ADD)
  | TokenType.TOKEN_MINUS => some (3, OPCODE_SUBTRACT)
  | TokenType.TOKEN_STAR => some (4, OPCODE_MULTIPLY)
  | TokenType.TOKEN_SLASH => some (4, OPCODE_DIVIDE)
  | _ => none

/-- Modelled from the spec: constant emission of §4.2, missing from `compiler.c`: the
literal value goes through `write_constant` into the chunk of `current_nugget()`,
stamped with the line of the previous token as `emit_byte` does. -/
def emit_constant {Value : Type} (c : Compiler Value) (value : Value) :
    Outcome (Compiler Value) :=
  through_current_nugget c fun nugget => write_constant nugget value c.parser.previous.line

mutual

/-- Modelled from the spec: the precedence-climbing parser of §4.2, missing from
`compiler.c`.  It takes the next token as prefix construct (a number pushes a constant
with the value `number_value` gives its lexeme; a left parenthesis parses an inner
expression and requires the right parenthesis; a minus parses its operand at unary
precedence and then emits the negate instruction; any other token is a syntax error)
and then goes on with the binary operators of at least the `threshold`. -/
def parse_precedence {Value : Type} (next_token : Scanner → Token × Scanner)
    (number_value : List Char → Value) :
    Nat → Nat → Compiler Value → Outcome (Compiler Value)
  | 0, _, _ => Outcome.out_of_fuel
  | fuel + 1, threshold, c =>
    (advance next_token (fuel + 1) c).bind fun c =>
    let first_parsed : Outcome (Compiler Value) :=
      match c.parser.previous.type with
      | TokenType.TOKEN_NUMBER =>
        emit_constant c (number_value (c.parser.previous.start.take c.parser.previous.length))
      | TokenType.TOKEN_LEFTPAREN =>
        (parse_precedence next_token number_value fuel 1 c).bind fun c =>
        consume next_token (fuel + 1) TokenType.TOKEN_RIGHTPAREN
          "Expected ')' after expression.".toList c
      | TokenType.TOKEN_MINUS =>
        (parse_precedence next_token number_value fuel 5 c).bind fun c =>
        emit_byte c OPCODE_NEGATE
      | _ => Outcome.ok (error c "Expected expression.".toList)
    first_parsed.bind fun c => parse_operators next_token number_value fuel threshold c

/-- Modelled from the spec: the loop over binary operators of §4.2: while the current
token is a binary operator of at least the `threshold`, it is consumed, the right-hand
operand is parsed one level higher and the operator's instruction is emitted. -/
def parse_operators {Value : Type} (next_token : Scanner → Token × Scanner)
    (number_value : List Char → Value) :
    Nat → Nat → Compiler Value → Outcome (Compiler Value)
  | 0, _, _ => Outcome.out_of_fuel
  | fuel + 1, threshold, c =>
    match binary_operator c.parser.current.type with
    | none => Outcome.ok c
    | some (level, opcode) =>
      if level < threshold then Outcome.ok c
      else
        (advance next_token (fuel + 1) c).bind fun c =>
        (parse_precedence next_token number_value fuel (level + 1) c).bind fun c =>
        (emit_byte c opcode).bind fun c =>
        parse_operators next_token number_value fuel threshold c

end

/-- Modelled from the spec: the function `expression` that `compile` calls and the
sources do not define: expression parsing starts at the lowest precedence level. -/
def expression {Value : Type} (next_token : Scanner → Token × Scanner)
    (number_value : List Char → Value) (fuel : Nat) (c : Compiler Value) :
    Outcome (Compiler Value) :=
  parse_precedence next_token number_value fuel 1 c

/-! ## nugget.c and vm.c: `free_nugget` and `interpret` -/

/-- The function `free_valuepool`. -/
def free_valuepool {Value : Type} (pool : ValuePool Value) : ValuePool Value :=
  let _freed := FREE_ARRAY pool.values pool.capacity
  init_valuepool pool

/-- The function `free_nugget`. -/
def free_nugget {Value : Type} (nugget : Nugget Value) : Nugget Value :=
  let _code := FREE_ARRAY nugget.code nugget.capacity
  let _lines := FREE_ARRAY nugget.lines nugget.capacity
  init_nugget { nugget with constants := free_valuepool nugget.constants }

/-- The global state that `interpret` works on: the machine `vm` and the state of the
compiler. -/
structure World (Value : Type) where
  vm : VM Value
  compiler : Compiler Value

/-- The chunk memory with the chunk at `address` replaced. -/
def set_chunk {Value : Type} (c : Compiler Value) (address : Nat)
    (nugget : Option (Nugget Value)) : Compiler Value :=
  { c with chunks := fun a => if a = address then nugget else c.chunks a }

/-- The function `interpret`: the result, the value printed by `run` if it ran, and
the state afterwards.  The local variable `nugget` lives at `address` and is gone when
the function returns.  `compile` yields no value, and the use of the value of such a call
in `if (!compile(...))` is undefined in C: a compiled program reads whatever the return
register holds.  The embedding does not pick that value: it is the parameter
`indeterminate`, so the branch taken is no consequence of what `compile` did, and a
statement about the program has to account for both values of the parameter.  The
machine holds its chunk by value, so the assignment `vm.nugget = &nugget` copies the
chunk and `free_nugget` is applied to the copy as well. -/
def interpret {Value : Type} [Zero Value] [Add Value] [Sub Value] [Mul Value] [Div Value]
    (next_token : Scanner → Token × Scanner)
    (expression : Compiler Value → Outcome (Compiler Value)) (indeterminate : Bool)
    (fuel : Nat) (address : Nat) (source : List Char) (w : World Value) :
    Outcome (InterpretationResult × Option Value × World Value) :=
  let nugget : Nugget Value := init_nugget ⟨0, 0, [], [], ⟨0, 0, []⟩⟩
  let c := set_chunk w.compiler address (some nugget)
  (compile next_token expression fuel address source c).bind fun (c, compiled) =>
    if !(compiled.getD indeterminate) then
      Outcome.ok (InterpretationResult.INTERPRETER_COMPILE_ERROR, none,
        { vm := w.vm, compiler := set_chunk c address none })
    else
      match c.chunks address with
      | none => Outcome.undefined
      | some nugget =>
        let vm := { w.vm with nugget := nugget, iptr := 0 }
        match run fuel vm with
        | RunResult.returned interp_result printed vm =>
          Outcome.ok (interp_result, some printed,
            { vm := { vm with nugget := free_nugget nugget },
              compiler := set_chunk c address none })
        | RunResult.undefined => Outcome.undefined
        | RunResult.out_of_fuel => Outcome.out_of_fuel

/-! ## Abstraction: what a block, a pool, a chunk and the stack hold -/

/-- The first `occupied` cells of a block of `capacity` cells hold exactly `xs`. -/
def Holds {α : Type} (block : List (Option α)) (capacity occupied : Nat) (xs : List α) :
    Prop :=
  block.length = capacity ∧ xs.length = occupied ∧ block.take occupied = xs.map some

/-- The constant pool holds the values `vs`, in this order. -/
def ValuePool.Rep {Value : Type} (pool : ValuePool Value) (vs : List Value) : Prop :=
  Holds pool.values pool.capacity pool.occupied vs

/-- The chunk holds the code bytes `bytes`, their lines `lines` and the constants
`consts`. -/
def Nugget.Rep {Value : Type} (nugget : Nugget Value) (bytes lines : List Nat)
    (consts : List Value) : Prop :=
  Holds nugget.code nugget.capacity nugget.occupied bytes ∧
  Holds nugget.lines nugget.capacity nugget.occupied lines ∧
  nugget.constants.Rep consts

/-- The operand stack holds `s`, bottom first, and `stack_top` is the end of the
stack block. -/
def VM.StackRep {Value : Type} (vm : VM Value) (s : List Value) : Prop :=
  Holds vm.stack vm.stack_capacity vm.stack_ptr s ∧ vm.stack_top = vm.stack_capacity

/-- A run of `write_constant` calls, one per (value, line) pair, as in `main`. -/
def write_constants {Value : Type} (nugget : Nugget Value) :
    List (Value × Nat) → Option (Nugget Value)
  | [] => some nugget
  | (value, line) :: rest =>
    (write_constant nugget value line).bind fun nugget => write_constants nugget rest

/-- A run of `push` calls, one per value. -/
def push_all {Value : Type} (vm : VM Value) : List Value → Option (VM Value)
  | [] => some vm
  | value :: rest => (push vm value).bind fun vm => push_all vm rest

/-- A run of `write_valuepool` calls, one per value. -/
def write_values {Value : Type} (pool : ValuePool Value) :
    List Value → Option (ValuePool Value)
  | [] => some pool
  | value :: rest => (write_valuepool pool value).bind fun pool => write_values pool rest

/-- The capacity reached by `n` appends to a fresh container: 0 before the first
append, afterwards `8 * 2^k` for the least `k` with `n ≤ 8 * 2^k`. -/
def GrownTo (capacity n : Nat) : Prop :=
  (n = 0 ∧ capacity = 0) ∨
  (1 ≤ n ∧ ∃ k, capacity = 8 * 2 ^ k ∧ n ≤ 8 * 2 ^ k ∧ ∀ j, j < k → 8 * 2 ^ j < n)

/-- The machine that an iteration of the loop of `run` leaves behind. -/
def Step.machine {Value : Type} : Step Value → VM Value
  | Step.next vm => vm
  | Step.ret _ _ vm => vm

/-- The chunk memory and the pointer `compiling_nugget` are the same in `c2` as in
`c1`. -/
def SameMemory {Value : Type} (c1 c2 : Compiler Value) : Prop :=
  c2.compiling_nugget = c1.compiling_nugget ∧ c2.chunks = c1.chunks

/-! ## What the scanner is compared with -/

/-- A run of spaces, carriage returns, tabs and newlines. -/
def Blank (ws : List Char) : Prop :=
  ∀ ch ∈ ws, ch = ' ' ∨ ch = '\r' ∨ ch = '\t' ∨ ch = '\n'

/-- The number of newline characters of a text. -/
def newlines (text : List Char) : Nat :=
  text.count '\n'

/-- A character of `[A-Za-z0-9_]`. -/
def char_word (ch : Char) : Bool :=
  char_alpha ch || char_digit ch

/-- The kind of a word by the list of keywords of the spec: the kind of the keyword that
the word is, and `TOKEN_IDENTIFIER` for every other word. -/
def keyword_kind (w : List Char) : TokenType :=
  if w = "and".toList then TokenType.TOKEN_AND
  else if w = "class".toList then TokenType.TOKEN_CLASS
  else if w = "else".toList then TokenType.TOKEN_ELSE
  else if w = "false".toList then TokenType.TOKEN_FALSE
  else if w = "for".toList then TokenType.TOKEN_FOR
  else if w = "func".toList then TokenType.TOKEN_FUNC
  else if w = "if".toList then TokenType.TOKEN_IF
  else if w = "nil".toList then TokenType.TOKEN_NIL
  else if w = "or".toList then TokenType.TOKEN_OR
  else if w = "print".toList then TokenType.TOKEN_PRINT
  else if w = "return".toList then TokenType.TOKEN_RETURN
  else if w = "super".toList then TokenType.TOKEN_SUPER
  else if w = "this".toList then TokenType.TOKEN_THIS
  else if w = "true".toList then TokenType.TOKEN_TRUE
  else if w = "var".toList then TokenType.TOKEN_VAR
  else if w = "while".toList then TokenType.TOKEN_WHILE
  else TokenType.TOKEN_IDENTIFIER

/-- A text that matches `[0-9]+(\.[0-9]+)?`: digits, optionally followed by a dot and
digits. -/
def NumberLexeme (w : List Char) : Prop :=
  ∃ ds fs : List Char, ds ≠ [] ∧ (∀ ch ∈ ds, char_digit ch = true) ∧
    (w = ds ∨ (fs ≠ [] ∧ (∀ ch ∈ fs, char_digit ch = true) ∧ w = ds ++ '.' :: fs))

/-- A character that is inside a string literal for the loop of `string`: neither the
double quote nor the terminating NUL. -/
def char_in_string (ch : Char) : Bool :=
  ch != '"' && !(ch == '\x00')

/-- A character at which `skip_whitespace` returns without looking further: none of
space, carriage return, tab, newline and slash. -/
def stops_skipping (ch : Char) : Bool :=
  !(ch == ' ' || ch == '\r' || ch == '\t' || ch == '\n' || ch == '/')

/-- A character inside a `//` comment for the loop of `skip_whitespace`: neither the
newline nor the terminating NUL. -/
def char_in_comment (ch : Char) : Bool :=
  ch != '\n' && !(ch == '\x00')

/-- A character with which a token starts: a letter or underscore, a digit, one of the
punctuation and operator characters, or the double quote. -/
def starts_token (ch : Char) : Bool :=
  char_alpha ch || char_digit ch ||
    ['(', ')', '{', '}', ';', ',', '.', '-', '+', '/', '*', '!', '=', '<', '>', '"'].contains ch

/-- What a call of `scan_token` with the cursor at `text` has to deliver, as token and
scanner afterwards: the cursor has moved forward inside the text, by at least one
character unless the token is the end-of-input token; the end-of-input token has an
empty lexeme; an error token holds a whole message; every other token is the slice of
the text between the scanner's `start` and its cursor. -/
def WellScanned (text : List Char) (token : Token) (s : Scanner) : Prop :=
  (∃ consumed, text = consumed ++ s.current) ∧
  (token.type ≠ TokenType.TOKEN_EOF → s.current.length < text.length) ∧
  (token.type = TokenType.TOKEN_EOF → token.lexeme = []) ∧
  (token.type = TokenType.TOKEN_ERROR → token.lexeme = token.start) ∧
  (token.type ≠ TokenType.TOKEN_ERROR →
    token.start = s.start ∧ token.start = token.lexeme ++ s.current ∧
      ∃ skipped, text = skipped ++ token.start)

/-! ## What the disassembler, the compiler and the loop of `run` are compared with -/

/-- A call that appends to a chunk. -/
inductive ChunkOp (Value : Type) where
  | write_nugget (byte line : Nat)
  | add_constant (value : Value)
  | write_constant (value : Value) (line : Nat)

/-- The chunk after one `ChunkOp`, where that is defined. -/
def apply_chunk_op {Value : Type} (nugget : Nugget Value) :
    ChunkOp Value → Option (Nugget Value)
  | ChunkOp.write_nugget byte line => write_nugget nugget byte line
  | ChunkOp.add_constant value => (add_constant nugget value).map Prod.fst
  | ChunkOp.write_constant value line => write_constant nugget value line

/-- The chunk after a sequence of `ChunkOp`s. -/
def apply_chunk_ops {Value : Type} (nugget : Nugget Value) :
    List (ChunkOp Value) → Option (Nugget Value)
  | [] => some nugget
  | op :: rest => (apply_chunk_op nugget op).bind fun nugget => apply_chunk_ops nugget rest

/-- The blocks of the chunk and of its pool have as many cells as the capacity says, and
no more cells are occupied than that. -/
def Nugget.InBounds {Value : Type} (nugget : Nugget Value) : Prop :=
  nugget.occupied ≤ nugget.capacity ∧ nugget.code.length = nugget.capacity ∧
  nugget.lines.length = nugget.capacity ∧
  nugget.constants.occupied ≤ nugget.constants.capacity ∧
  nugget.constants.values.length = nugget.constants.capacity

/-- A call that writes one whole instruction: `write_constant`, or `write_nugget` of an
opcode without operand (`OPCODE_NEGATE` to `OPCODE_RETURN`). -/
def ChunkOp.whole_instruction {Value : Type} : ChunkOp Value → Bool
  | ChunkOp.write_nugget byte _ => decide (OPCODE_NEGATE ≤ byte ∧ byte ≤ OPCODE_RETURN)
  | ChunkOp.add_constant _ => false
  | ChunkOp.write_constant _ _ => true

/-- The offsets at which the instructions written by a sequence of calls start, when
the pool holds `pool` constants and the chunk `offset` bytes before the first call: a
load of a constant with an index up to 255 takes 2 bytes, one with a larger index 4
bytes, an opcode without operand 1 byte. -/
def instruction_starts {Value : Type} : Nat → Nat → List (ChunkOp Value) → List Nat
  | _, _, [] => []
  | pool, offset, ChunkOp.write_nugget _ _ :: rest =>
    offset :: instruction_starts pool (offset + 1) rest
  | pool, offset, ChunkOp.add_constant _ :: rest => instruction_starts (pool + 1) offset rest
  | pool, offset, ChunkOp.write_constant _ _ :: rest =>
    offset :: instruction_starts (pool + 1) (offset + (if pool ≤ 255 then 2 else 4)) rest

/-- The code bytes that a sequence of calls writes when the pool holds `pool` constants
before the first call. -/
def written_bytes {Value : Type} : Nat → List (ChunkOp Value) → List Nat
  | _, [] => []
  | pool, ChunkOp.write_nugget byte _ :: rest => byte % 256 :: written_bytes pool rest
  | pool, ChunkOp.add_constant _ :: rest => written_bytes (pool + 1) rest
  | pool, ChunkOp.write_constant _ _ :: rest =>
    (if pool ≤ 255 then [OPCODE_CONSTANT, pool]
      else [OPCODE_CONSTANT_LONG, (pool >>> 16) &&& 0xFF, (pool >>> 8) &&& 0xFF,
        pool &&& 0xFF]) ++ written_bytes (pool + 1) rest

/-- The number of constants that a sequence of calls adds to the pool. -/
def written_constants {Value : Type} : List (ChunkOp Value) → Nat
  | [] => 0
  | ChunkOp.write_nugget _ _ :: rest => written_constants rest
  | ChunkOp.add_constant _ :: rest => written_constants rest + 1
  | ChunkOp.write_constant _ _ :: rest => written_constants rest + 1

/-- The state `c2` comes after `c1` under panic-mode suppression: a had-error flag that
was set is still set; if the parser was panicking it still is and nothing was printed;
and at most one diagnostic was printed, after which the parser is panicking and the
had-error flag is set. -/
def Suppressed {Value : Type} (c1 c2 : Compiler Value) : Prop :=
  (c1.parser.hiterror = true → c2.parser.hiterror = true) ∧
  (c1.parser.panicking = true → c2.parser.panicking = true ∧ c2.stderr = c1.stderr) ∧
  (c2.stderr = c1.stderr ∨
    (c2.parser.panicking = true ∧ c2.parser.hiterror = true ∧
      ∃ printed, c2.stderr = c1.stderr ++ [printed]))

/-- From the scanner state `s`, the scanner delivers the error tokens `skipped`, then the
token `token`, which is no error token, and is in the state `s2` afterwards. -/
inductive Delivers (next_token : Scanner → Token × Scanner) :
    Scanner → List Token → Token → Scanner → Prop where
  | proper (s : Scanner) (h : (next_token s).1.type ≠ TokenType.TOKEN_ERROR) :
    Delivers next_token s [] (next_token s).1 (next_token s).2
  | skip (s : Scanner) (skipped : List Token) (token : Token) (s2 : Scanner)
    (h : (next_token s).1.type = TokenType.TOKEN_ERROR)
    (rest : Delivers next_token (next_token s).2 skipped token s2) :
    Delivers next_token s ((next_token s).1 :: skipped) token s2

/-- The machine after `k` iterations of the loop of `run` none of which returns or is
undefined. -/
def iterations {Value : Type} [Zero Value] [Add Value] [Sub Value] [Mul Value] [Div Value] :
    Nat → VM Value → Option (VM Value)
  | 0, vm => some vm
  | k + 1, vm =>
    match step vm with
    | some (Step.next vm) => iterations k vm
    | _ => none

/-! ## Sample inputs -/

/-- A chunk with no code whose pool holds `n` copies of the constant `v`. -/
def pool_of {Value : Type} (n : Nat) (v : Value) : Nugget Value :=
  ⟨0, 0, [], [], ⟨n, n, List.replicate n (some v)⟩⟩

/-- A machine at offset 0 of a chunk with the given code bytes (all of line 1) and
constants, whose stack block is full and holds `stack`. -/
def sample_VM (code : List Nat) (consts : List Int) (stack : List Int) : VM Int :=
  ⟨⟨code.length, code.length, code.map some, code.map fun _ => some 1,
      ⟨consts.length, consts.length, consts.map some⟩⟩,
    0, stack.map some, stack.length, stack.length, stack.length⟩

/-- The result and the printed value of a call of `run` that returned. -/
def RunResult.output {Value : Type} :
    RunResult Value → Option (InterpretationResult × Value)
  | RunResult.returned result printed _ => some (result, printed)
  | RunResult.undefined => none
  | RunResult.out_of_fuel => none

/-- The chunk obtained from a pool of 256 constants 0 by `write_constant` of 41 and of
42 (pool indices 256 and 257) followed by a return instruction. -/
def wide_chunk : Option (Nugget Int) :=
  (write_constant (pool_of 256 0) 41 1).bind fun nugget =>
  (write_constant nugget 42 1).bind fun nugget =>
  write_nugget nugget OPCODE_RETURN 2

/-- The call of `run` on a chunk at offset 0 with an empty stack, as `interpret` sets
it up after `init_VM`. -/
def run_chunk (fuel : Nat) (nugget : Nugget Int) : RunResult Int :=
  run fuel (init_VM ⟨nugget, 0, [], 0, 0, 0⟩)

/-- The state of the compiler when the program starts: every global variable is zero
(the first `TokenType` is `TOKEN_LEFTPAREN`), `compiling_nugget` is `NULL`, no chunk
exists and nothing has been printed. -/
def program_start : Compiler Int :=
  { scanner := ⟨[], [], 0⟩,
    parser := ⟨⟨TokenType.TOKEN_LEFTPAREN, [], 0, 0⟩, ⟨TokenType.TOKEN_LEFTPAREN, [], 0, 0⟩,
      false, false⟩,
    compiling_nugget := none,
    chunks := fun _ => none,
    stderr := [] }

/-- A stand-in for the missing `next_token`: it delivers the rest of the source as one
number literal, and the end-of-input token once the source is used up. -/
def one_number (scanner : Scanner) : Token × Scanner :=
  match scanner.current with
  | [] => (⟨TokenType.TOKEN_EOF, [], 0, scanner.line⟩, { scanner with start := [] })
  | rest =>
    (⟨TokenType.TOKEN_NUMBER, rest, rest.length, scanner.line⟩,
      { scanner with start := rest, current := [] })

/-- A stand-in for `strtod` on the lexemes used below: the number of characters. -/
def lexeme_value (lexeme : List Char) : Int :=
  lexeme.length

/-- A stand-in for the missing `expression` that emits the return instruction only. -/
def emit_return (c : Compiler Int) : Outcome (Compiler Int) :=
  emit_byte c OPCODE_RETURN

/-- The state `program_start` except that `compiling_nugget` points to `target`, and
with fresh chunks at the addresses 0 and 1. -/
def pointed_start (target : Nat) : Compiler Int :=
  { program_start with
    compiling_nugget := some target
    chunks := fun a => if a = 0 ∨ a = 1 then some (init_nugget (pool_of 0 0)) else none }

/-- The code bytes written so far to the chunk at `address`, if there is one. -/
def code_at {Value : Type} (c : Compiler Value) (address : Nat) : Option (List (Option Nat)) :=
  (c.chunks address).map fun nugget => nugget.code.take nugget.occupied

/-- The result and the printed value that `interpret` passes on from a call of
`run`. -/
def interpreted {Value : Type} :
    RunResult Value → Outcome (InterpretationResult × Option Value)
  | RunResult.returned result printed _ => Outcome.ok (result, some printed)
  | RunResult.undefined => Outcome.undefined
  | RunResult.out_of_fuel => Outcome.out_of_fuel

/-- The machine after `init_VM` and the pushes of 8 and 9: an execution has left two
values on the stack, whose capacity is 8. -/
def used_VM : VM Int :=
  ⟨(sample_VM [] [] []).nugget, 0, [some 8, some 9, none, none, none, none, none, none],
    2, 8, 8⟩

/-! ## Blocks -/

theorem take_set_succ {α : Type} (l : List α) (i : Nat) (a : α) (h : i < l.length) :
    (l.set i a).take (i + 1) = l.take i ++ [a] := by
  induction l generalizing i with
  | nil => simp at h
  | cons x xs ih =>
    cases i with
    | zero => simp
    | succ j =>
      simp only [List.length_cons, Nat.add_lt_add_iff_right] at h
      simp [ih j h]

theorem Holds.le {α : Type} {block : List (Option α)} {capacity occupied : Nat}
    {xs : List α} (h : Holds block capacity occupied xs) : occupied ≤ capacity := by
  obtain ⟨h1, h2, h3⟩ := h
  have := congrArg List.length h3
  simp only [List.length_take, List.length_map] at this
  omega

theorem Holds.load_eq {α : Type} {block : List (Option α)} {capacity occupied : Nat}
    {xs : List α} (h : Holds block capacity occupied xs) (i : Nat) (hi : i < occupied) :
    load block i = xs.get? i := by
  obtain ⟨h1, h2, h3⟩ := h
  have h4 : (block.take occupied).get? i = block.get? i := by
    simp [List.getElem?_take, hi]
  have h5 : load block i = ((block.take occupied).get? i).join := by
    rw [h4]; rfl
  rw [h5, h3]
  simp only [List.get?_eq_getElem?, List.getElem?_map]
  cases xs[i]? <;> rfl

theorem Holds.load_append {α : Type} {block : List (Option α)} {capacity occupied : Nat}
    {xs ys : List α} (h : Holds block capacity occupied (xs ++ ys)) (i : Nat)
    (hi : i < ys.length) : load block (xs.length + i) = ys.get? i := by
  have hlen : (xs ++ ys).length = occupied := h.2.1
  rw [List.length_append] at hlen
  rw [h.load_eq (xs.length + i) (by omega)]
  simp [List.getElem?_append_right]

theorem Holds.grow_store {α : Type} {block : List (Option α)} {capacity occupied : Nat}
    {xs : List α} (h : Holds block capacity occupied xs) (v : α) :
    ∃ block', store (if capacity < occupied + 1
        then GROW_ARRAY block capacity (GROW_CAPACITY capacity) else block) occupied v
        = some block' ∧
      Holds block' (if capacity < occupied + 1 then GROW_CAPACITY capacity else capacity)
        (occupied + 1) (xs ++ [v]) := by
  have hle := h.le
  obtain ⟨h1, h2, h3⟩ := h
  by_cases hc : capacity < occupied + 1
  · have hocc : occupied = capacity := by omega
    have hg : capacity < GROW_CAPACITY capacity := by
      unfold GROW_CAPACITY; split <;> omega
    have hne : GROW_CAPACITY capacity ≠ 0 := by omega
    have hlen : (GROW_ARRAY block capacity (GROW_CAPACITY capacity)).length
        = GROW_CAPACITY capacity := by
      simp [GROW_ARRAY, reallocate, hne, h1]; omega
    have htake : (GROW_ARRAY block capacity (GROW_CAPACITY capacity)).take occupied
        = block.take occupied := by
      simp only [GROW_ARRAY, reallocate, hne, if_false]
      rw [List.take_of_length_le (by omega : block.length ≤ GROW_CAPACITY capacity)]
      rw [List.take_append_of_le_length (by omega)]
    simp only [hc, if_true, store, hlen]
    rw [if_pos (by omega)]
    refine ⟨_, rfl, ?_, ?_, ?_⟩
    · simp [hlen]
    · simp [h2]
    · rw [take_set_succ _ _ _ (by omega), htake, h3]; simp
  · simp only [hc, if_false, store]
    rw [if_pos (by omega)]
    refine ⟨_, rfl, ?_, ?_, ?_⟩
    · simp [h1]
    · simp [h2]
    · rw [take_set_succ _ _ _ (by omega), h3]; simp

theorem Holds.set_last {α : Type} {block : List (Option α)} {capacity occupied : Nat}
    {xs : List α} {x : α} (h : Holds block capacity (occupied + 1) (xs ++ [x])) (y : α) :
    ∃ block', store block occupied y = some block' ∧
      Holds block' capacity (occupied + 1) (xs ++ [y]) := by
  have hle := h.le
  obtain ⟨h1, h2, h3⟩ := h
  have hx : xs.length = occupied := by simpa using h2
  have h4 : block.take occupied = xs.map some := by
    have := congrArg (List.take occupied) h3
    rw [List.take_take] at this
    simpa [hx, List.take_append_of_le_length] using this
  simp only [store]
  rw [if_pos (by omega)]
  refine ⟨_, rfl, ?_, ?_, ?_⟩
  · simp [h1]
  · simp [hx]
  · rw [take_set_succ _ _ _ (by omega), h4]; simp

theorem Holds.drop_last {α : Type} {block : List (Option α)} {capacity occupied : Nat}
    {xs : List α} {x : α} (h : Holds block capacity (occupied + 1) (xs ++ [x])) :
    Holds block capacity occupied xs ∧ load block occupied = some x := by
  have hl := h.load_eq occupied (by omega)
  obtain ⟨h1, h2, h3⟩ := h
  have hx : xs.length = occupied := by simpa using h2
  refine ⟨⟨h1, hx, ?_⟩, ?_⟩
  · have := congrArg (List.take occupied) h3
    rw [List.take_take] at this
    simpa [hx, List.take_append_of_le_length] using this
  · rw [hl]; simp [← hx]

/-! ## Appending to the pool and to the chunk -/

theorem write_valuepool_rep {Value : Type} {pool : ValuePool Value} {vs : List Value}
    (h : pool.Rep vs) (v : Value) :
    ∃ pool', write_valuepool pool v = some pool' ∧ pool'.Rep (vs ++ [v]) ∧
      pool'.occupied = vs.length + 1 := by
  obtain ⟨block', hs, hh⟩ := Holds.grow_store h v
  have hocc : vs.length = pool.occupied := h.2.1
  by_cases hc : pool.capacity < pool.occupied + 1
  · simp only [hc, if_true] at hs hh
    simp only [write_valuepool, hc, if_true, hs, Option.map_some']
    exact ⟨_, rfl, hh, by simp [hocc]⟩
  · simp only [hc, if_false] at hs hh
    simp only [write_valuepool, hc, if_false, hs, Option.map_some']
    exact ⟨_, rfl, hh, by simp [hocc]⟩

theorem write_nugget_rep {Value : Type} {nugget : Nugget Value} {bs ls : List Nat}
    {cs : List Value} (h : nugget.Rep bs ls cs) (byte line : Nat) :
    ∃ nugget', write_nugget nugget byte line = some nugget' ∧
      nugget'.Rep (bs ++ [byte % 256]) (ls ++ [line]) cs := by
  obtain ⟨hcode, hlines, hconst⟩ := h
  obtain ⟨code', hs1, hh1⟩ := Holds.grow_store hcode (byte % 256)
  obtain ⟨lines', hs2, hh2⟩ := Holds.grow_store hlines line
  by_cases hc : nugget.capacity < nugget.occupied + 1
  · simp only [hc, if_true] at hs1 hh1 hs2 hh2
    simp only [write_nugget, hc, if_true, hs1, hs2, Option.some_bind, Option.map_some']
    exact ⟨_, rfl, hh1, hh2, hconst⟩
  · simp only [hc, if_false] at hs1 hh1 hs2 hh2
    simp only [write_nugget, hc, if_false, hs1, hs2, Option.some_bind, Option.map_some']
    exact ⟨_, rfl, hh1, hh2, hconst⟩

theorem add_constant_rep {Value : Type} {nugget : Nugget Value} {bs ls : List Nat}
    {cs : List Value} (h : nugget.Rep bs ls cs) (v : Value) :
    ∃ nugget', add_constant nugget v = some (nugget', cs.length) ∧
      nugget'.Rep bs ls (cs ++ [v]) := by
  obtain ⟨hcode, hlines, hconst⟩ := h
  obtain ⟨pool', hw, hrep, hocc⟩ := write_valuepool_rep hconst v
  refine ⟨{ nugget with constants := pool' }, ?_, hcode, hlines, hrep⟩
  simp [add_constant, hw, hocc]

theorem init_nugget_rep {Value : Type} (nugget : Nugget Value) :
    (init_nugget nugget).Rep [] [] [] := by
  simp [Nugget.Rep, ValuePool.Rep, Holds, init_nugget, init_valuepool]

theorem pool_of_rep {Value : Type} (n : Nat) (v : Value) :
    (pool_of n v).Rep [] [] (List.replicate n v) := by
  simp [pool_of, Nugget.Rep, ValuePool.Rep, Holds]

/-! ## The index bytes -/

theorem LOW_BYTE_eq_mod (x : Nat) : LOW_BYTE x = x % 256 := by
  have := Nat.and_pow_two_sub_one_eq_mod x 8
  simpa [LOW_BYTE] using this

theorem and_mask_shift (x n : Nat) : (x &&& (0xFF <<< n)) >>> n = (x >>> n) &&& 0xFF := by
  apply Nat.eq_of_testBit_eq
  intro i
  simp [Nat.testBit_and, Nat.testBit_shiftRight, Nat.testBit_shiftLeft]

theorem shift_and_eq_mod (x n : Nat) : (x >>> n) &&& 0xFF = x / 2 ^ n % 256 := by
  have := Nat.and_pow_two_sub_one_eq_mod (x >>> n) 8
  rw [Nat.shiftRight_eq_div_pow] at this
  rw [Nat.shiftRight_eq_div_pow]
  simpa using this

theorem LMID_BYTE_eq (x : Nat) : LMID_BYTE x = (x >>> 8) &&& 0xFF := by
  have h : (0x0000FF00 : Nat) = 0xFF <<< 8 := by decide
  unfold LMID_BYTE
  rw [h, and_mask_shift]

theorem HMID_BYTE_eq (x : Nat) : HMID_BYTE x = (x >>> 16) &&& 0xFF := by
  have h : (0x00FF0000 : Nat) = 0xFF <<< 16 := by decide
  unfold HMID_BYTE
  rw [h, and_mask_shift]

theorem LMID_BYTE_eq_mod (x : Nat) : LMID_BYTE x = x / 256 % 256 := by
  rw [LMID_BYTE_eq, shift_and_eq_mod]; norm_num

theorem HMID_BYTE_eq_mod (x : Nat) : HMID_BYTE x = x / 65536 % 256 := by
  rw [HMID_BYTE_eq, shift_and_eq_mod]; norm_num

theorem reconstruct_eq (high mid low : Nat) :
    reconstruct_long_location high mid low
      = (high % 256) * 65536 + (mid % 256) * 256 + low % 256 := by
  have hl : low % 256 < 2 ^ 8 := Nat.mod_lt _ (by norm_num)
  have hm : mid % 256 < 256 := Nat.mod_lt _ (by norm_num)
  have hm2 : 2 ^ 8 * (mid % 256) < 2 ^ 16 := by norm_num; omega
  have h1 : (high % 256) <<< 16 ||| (mid % 256) <<< 8
      = 2 ^ 8 * (2 ^ 8 * (high % 256) + mid % 256) := by
    rw [Nat.shiftLeft_eq, Nat.shiftLeft_eq, Nat.mul_comm (high % 256), Nat.mul_comm (mid % 256),
      ← Nat.mul_add_lt_is_or hm2]
    ring
  unfold reconstruct_long_location
  rw [h1, ← Nat.mul_add_lt_is_or hl]
  ring

/-! ## write_constant -/

theorem write_constant_small_index {Value : Type} {nugget : Nugget Value} {bs ls : List Nat}
    {cs : List Value} (h : nugget.Rep bs ls cs) (hk : cs.length ≤ 255) (v : Value)
    (line : Nat) :
    ∃ nugget', write_constant nugget v line = some nugget' ∧
      nugget'.Rep (bs ++ [OPCODE_CONSTANT, cs.length]) (ls ++ [line, line]) (cs ++ [v]) := by
  obtain ⟨n1, h1, r1⟩ := add_constant_rep h v
  obtain ⟨n2, h2, r2⟩ := write_nugget_rep r1 OPCODE_CONSTANT line
  obtain ⟨n3, h3, r3⟩ := write_nugget_rep r2 (LOW_BYTE cs.length) line
  refine ⟨n3, ?_, ?_⟩
  · simp only [write_constant, h1, Option.some_bind, hk, if_true, h2, h3]
  · have e : LOW_BYTE cs.length % 256 = cs.length := by
      rw [LOW_BYTE_eq_mod]; omega
    simpa [e] using r3

theorem write_constant_large_index {Value : Type} {nugget : Nugget Value} {bs ls : List Nat}
    {cs : List Value} (h : nugget.Rep bs ls cs) (hk : 256 ≤ cs.length) (v : Value)
    (line : Nat) :
    ∃ nugget', write_constant nugget v line = some nugget' ∧
      nugget'.Rep
        (bs ++ [OPCODE_CONSTANT_LONG, (cs.length >>> 16) &&& 0xFF,
          (cs.length >>> 8) &&& 0xFF, cs.length &&& 0xFF])
        (ls ++ [line, line, line, line]) (cs ++ [v]) := by
  obtain ⟨n1, h1, r1⟩ := add_constant_rep h v
  obtain ⟨n2, h2, r2⟩ := write_nugget_rep r1 OPCODE_CONSTANT_LONG line
  obtain ⟨n3, h3, r3⟩ := write_nugget_rep r2 (HMID_BYTE cs.length) line
  obtain ⟨n4, h4, r4⟩ := write_nugget_rep r3 (LMID_BYTE cs.length) line
  obtain ⟨n5, h5, r5⟩ := write_nugget_rep r4 (LOW_BYTE cs.length) line
  have hk' : ¬ cs.length ≤ 255 := by omega
  refine ⟨n5, ?_, ?_⟩
  · simp only [write_constant, h1, Option.some_bind, hk', if_false, h2, h3, h4, h5]
  · have e1 : HMID_BYTE cs.length % 256 = (cs.length >>> 16) &&& 0xFF := by
      rw [HMID_BYTE_eq_mod, shift_and_eq_mod]; norm_num
    have e2 : LMID_BYTE cs.length % 256 = (cs.length >>> 8) &&& 0xFF := by
      rw [LMID_BYTE_eq_mod, shift_and_eq_mod]; norm_num
    have e3 : LOW_BYTE cs.length % 256 = cs.length &&& 0xFF := by
      have e := LOW_BYTE_eq_mod cs.length
      unfold LOW_BYTE at e ⊢
      rw [e]; omega
    rw [e1, e2, e3] at r5
    simpa using r5

theorem write_constant_rep {Value : Type} {nugget : Nugget Value} {bs ls : List Nat}
    {cs : List Value} (h : nugget.Rep bs ls cs) (v : Value) (line : Nat) :
    ∃ nugget' bs' ls', write_constant nugget v line = some nugget' ∧
      nugget'.Rep (bs ++ bs') (ls ++ ls') (cs ++ [v]) := by
  by_cases hk : cs.length ≤ 255
  · obtain ⟨n, h1, h2⟩ := write_constant_small_index h hk v line
    exact ⟨n, _, _, h1, h2⟩
  · obtain ⟨n, h1, h2⟩ := write_constant_large_index h (by omega) v line
    exact ⟨n, _, _, h1, h2⟩

theorem write_constants_rep {Value : Type} (written : List (Value × Nat)) :
    ∀ {nugget : Nugget Value} {bs ls : List Nat} {cs : List Value}, nugget.Rep bs ls cs →
    ∃ nugget' bs' ls', write_constants nugget written = some nugget' ∧
      nugget'.Rep (bs ++ bs') (ls ++ ls') (cs ++ written.map Prod.fst) := by
  induction written with
  | nil =>
    intro nugget bs ls cs h
    exact ⟨nugget, [], [], rfl, by simpa using h⟩
  | cons p rest ih =>
    intro nugget bs ls cs h
    obtain ⟨n1, b1, l1, h1, r1⟩ := write_constant_rep h p.1 p.2
    obtain ⟨n2, b2, l2, h2, r2⟩ := ih r1
    refine ⟨n2, b1 ++ b2, l1 ++ l2, ?_, ?_⟩
    · obtain ⟨v, line⟩ := p
      simp only [write_constants, h1, Option.some_bind, h2]
    · simpa [List.append_assoc] using r2

theorem write_constants_fresh {Value : Type} (nugget : Nugget Value)
    (written : List (Value × Nat)) :
    ∃ nugget' bs ls, write_constants (init_nugget nugget) written = some nugget' ∧
      nugget'.Rep bs ls (written.map Prod.fst) := by
  obtain ⟨n, bs, ls, h1, h2⟩ := write_constants_rep written (init_nugget_rep nugget)
  exact ⟨n, bs, ls, h1, by simpa using h2⟩

/-! ## The operand stack -/

theorem push_rep {Value : Type} {vm : VM Value} {s : List Value} (h : vm.StackRep s)
    (v : Value) :
    ∃ vm', push vm v = some vm' ∧ vm'.StackRep (s ++ [v]) ∧ vm'.nugget = vm.nugget ∧
      vm'.iptr = vm.iptr ∧
      vm'.stack_capacity = (if s.length = vm.stack_capacity
        then GROW_CAPACITY vm.stack_capacity else vm.stack_capacity) := by
  obtain ⟨hh, htop⟩ := h
  have hle := hh.le
  have hlen : s.length = vm.stack_ptr := hh.2.1
  obtain ⟨block', hs, hb⟩ := Holds.grow_store hh v
  by_cases hc : vm.stack_ptr = vm.stack_top
  · have hc' : vm.stack_capacity < vm.stack_ptr + 1 := by omega
    have hcs : s.length = vm.stack_capacity := by omega
    simp only [hc', if_true] at hs hb
    have hpush : push vm v = some
        { vm with
          stack_capacity := GROW_CAPACITY vm.stack_capacity
          stack := block'
          stack_top := GROW_CAPACITY vm.stack_capacity
          stack_ptr := vm.stack_ptr + 1 } := by
      unfold push
      rw [if_pos hc]
      simp only [stack_offset, hs, Option.map_some']
    rw [hpush, if_pos hcs]
    exact ⟨_, rfl, ⟨hb, rfl⟩, rfl, rfl, rfl⟩
  · have hc' : ¬ vm.stack_capacity < vm.stack_ptr + 1 := by omega
    have hcs : ¬ s.length = vm.stack_capacity := by omega
    simp only [hc', if_false] at hs hb
    have hpush : push vm v = some { vm with stack := block', stack_ptr := vm.stack_ptr + 1 } := by
      unfold push
      rw [if_neg hc]
      simp only [hs, Option.map_some']
    rw [hpush, if_neg hcs]
    exact ⟨_, rfl, ⟨hb, htop⟩, rfl, rfl, rfl⟩

theorem pop_rep {Value : Type} {vm : VM Value} {s : List Value} {x : Value}
    (h : vm.StackRep (s ++ [x])) :
    ∃ vm', pop vm = some (vm', x) ∧ vm'.StackRep s ∧ vm'.nugget = vm.nugget ∧
      vm'.iptr = vm.iptr ∧ vm'.stack_capacity = vm.stack_capacity := by
  obtain ⟨hh, htop⟩ := h
  have hlen : s.length + 1 = vm.stack_ptr := by simpa using hh.2.1
  have hne : vm.stack_ptr ≠ 0 := by omega
  have hh' : Holds vm.stack vm.stack_capacity ((vm.stack_ptr - 1) + 1) (s ++ [x]) := by
    rwa [Nat.sub_add_cancel (by omega)]
  obtain ⟨hd, hl⟩ := hh'.drop_last
  simp only [pop, hne, if_false, hl, Option.map_some']
  exact ⟨_, rfl, ⟨hd, htop⟩, rfl, rfl, rfl⟩

theorem push_all_rep {Value : Type} (vs : List Value) :
    ∀ {vm : VM Value} {s : List Value}, vm.StackRep s →
    ∃ vm', push_all vm vs = some vm' ∧ vm'.StackRep (s ++ vs) := by
  induction vs with
  | nil =>
    intro vm s h
    exact ⟨vm, rfl, by simpa using h⟩
  | cons v rest ih =>
    intro vm s h
    obtain ⟨vm1, h1, r1, -⟩ := push_rep h v
    obtain ⟨vm2, h2, r2⟩ := ih r1
    refine ⟨vm2, ?_, ?_⟩
    · simp only [push_all, h1, Option.some_bind, h2]
    · simpa [List.append_assoc] using r2

theorem FETCH_BYTE_eq {Value : Type} {vm : VM Value} {b : Nat}
    (h : load vm.nugget.code vm.iptr = some b) :
    FETCH_BYTE vm = some ({ vm with iptr := vm.iptr + 1 }, b) := by
  simp only [FETCH_BYTE, h, Option.map_some']

theorem fetched_StackRep {Value : Type} {vm : VM Value} {s : List Value}
    (h : vm.StackRep s) (n : Nat) : ({ vm with iptr := n } : VM Value).StackRep s := h

theorem BINARY_OPERATION_rep {Value : Type} (operation : Value → Value → Value)
    {vm : VM Value} {s : List Value} {l r : Value} (h : vm.StackRep (s ++ [l, r])) :
    ∃ vm', BINARY_OPERATION operation vm = some vm' ∧ vm'.StackRep (s ++ [operation l r]) ∧
      vm'.nugget = vm.nugget ∧ vm'.iptr = vm.iptr ∧
      vm'.stack_capacity = vm.stack_capacity := by
  have h0 : vm.StackRep ((s ++ [l]) ++ [r]) := by simpa using h
  obtain ⟨vm1, h1, r1, n1, i1, c1⟩ := pop_rep h0
  obtain ⟨vm2, h2, r2, n2, i2, c2⟩ := pop_rep r1
  obtain ⟨vm3, h3, r3, n3, i3, c3⟩ := push_rep r2 (operation l r)
  have hcap : s.length ≠ vm2.stack_capacity := by
    have := r1.1.le
    have : (s ++ [l]).length = vm1.stack_ptr := r1.1.2.1
    simp only [List.length_append, List.length_singleton] at this
    omega
  refine ⟨vm3, ?_, r3, ?_, ?_, ?_⟩
  · simp only [BINARY_OPERATION, h1, Option.some_bind, h2, h3]
  · rw [n3, n2, n1]
  · rw [i3, i2, i1]
  · rw [c3, if_neg hcap, c2, c1]

/-! ## Constant emission: the compact and the wide form -/

/-- C1: on a chunk whose pool holds `k < 256` constants, `write_constant` appends the
value to the pool at index `k` and appends exactly the two bytes `OPCODE_CONSTANT`,
`k` to the code (both stamped with the line), and the instruction decodes to the
value written; in particular this holds for each of the first 256 calls on a fresh
chunk. -/
theorem write_constant_compact {Value : Type} (nugget : Nugget Value) (bs ls : List Nat)
    (cs : List Value) (v : Value) (line : Nat) (h : nugget.Rep bs ls cs)
    (hk : cs.length < 256) :
    (∃ nugget', write_constant nugget v line = some nugget' ∧
      nugget'.Rep (bs ++ [OPCODE_CONSTANT, cs.length]) (ls ++ [line, line]) (cs ++ [v]) ∧
      nugget'.occupied = nugget.occupied + 2 ∧
      load nugget'.code (bs.length + 1) = some cs.length ∧
      load nugget'.constants.values cs.length = some v ∧
      constant_instruction nugget' bs.length = some (cs.length, v, bs.length + 2)) ∧
    (∀ (fresh : Nugget Value) (written : List (Value × Nat)), written.length < 256 →
      ∃ n0 bs0 ls0 n1, write_constants (init_nugget fresh) written = some n0 ∧
        n0.Rep bs0 ls0 (written.map Prod.fst) ∧
        write_constant n0 v line = some n1 ∧
        n1.Rep (bs0 ++ [OPCODE_CONSTANT, written.length]) (ls0 ++ [line, line])
          (written.map Prod.fst ++ [v]) ∧
        constant_instruction n1 bs0.length = some (written.length, v, bs0.length + 2)) := by
  have key : ∀ (n : Nugget Value) (b l : List Nat) (c : List Value), n.Rep b l c →
      c.length < 256 →
      ∃ n', write_constant n v line = some n' ∧
        n'.Rep (b ++ [OPCODE_CONSTANT, c.length]) (l ++ [line, line]) (c ++ [v]) ∧
        n'.occupied = n.occupied + 2 ∧
        load n'.code (b.length + 1) = some c.length ∧
        load n'.constants.values c.length = some v ∧
        constant_instruction n' b.length = some (c.length, v, b.length + 2) := by
    intro n b l c hn hc
    obtain ⟨n', h1, h2⟩ := write_constant_small_index hn (by omega) v line
    have hcode := h2.1
    have hpool : Holds n'.constants.values n'.constants.capacity n'.constants.occupied
        (c ++ [v]) := h2.2.2
    have e1 : load n'.code (b.length + 1) = some c.length := by
      rw [hcode.load_append 1 (by simp)]; rfl
    have e2 : load n'.constants.values c.length = some v := by
      have := hpool.load_append 0 (by simp)
      simpa using this
    have e3 : n'.occupied = n.occupied + 2 := by
      have a1 : (b ++ [OPCODE_CONSTANT, c.length]).length = n'.occupied := hcode.2.1
      have a2 : b.length = n.occupied := hn.1.2.1
      simp only [List.length_append, List.length_cons, List.length_nil] at a1
      omega
    refine ⟨n', h1, h2, e3, e1, e2, ?_⟩
    simp only [constant_instruction, e1, Option.some_bind, e2, Option.map_some']
  refine ⟨key nugget bs ls cs h hk, ?_⟩
  intro fresh written hw
  obtain ⟨n0, bs0, ls0, h0, r0⟩ := write_constants_fresh fresh written
  obtain ⟨n1, h1, r1, -, -, -, d1⟩ := key n0 bs0 ls0 _ r0 (by simpa using hw)
  refine ⟨n0, bs0, ls0, n1, h0, r0, h1, ?_, ?_⟩
  · simpa using r1
  · simpa using d1

/-- A witness of `write_constant_compact`: the first constant of a fresh chunk. -/
theorem write_constant_compact_witness :
    (init_nugget (⟨0, 0, [], [], ⟨0, 0, []⟩⟩ : Nugget Int)).Rep [] [] [] ∧
    ([] : List Int).length < 256 ∧
    ∃ nugget', write_constant (init_nugget (⟨0, 0, [], [], ⟨0, 0, []⟩⟩ : Nugget Int)) 7 1
        = some nugget' ∧
      nugget'.Rep ([] ++ [OPCODE_CONSTANT, 0]) ([] ++ [1, 1]) ([] ++ [7]) :=
  ⟨init_nugget_rep _, by decide,
    let ⟨n, h1, h2, _⟩ := (write_constant_compact (init_nugget ⟨0, 0, [], [], ⟨0, 0, []⟩⟩)
      [] [] [] (7 : Int) 1 (init_nugget_rep _) (by decide)).1
    ⟨n, h1, h2⟩⟩

/-- C2: on a chunk whose pool holds `k` constants with `256 ≤ k < 2^24`,
`write_constant` appends exactly the four bytes `OPCODE_CONSTANT_LONG`,
`(k >> 16) & 0xFF`, `(k >> 8) & 0xFF`, `k & 0xFF` to the code; in particular this holds
for the 257th and every later call on a fresh chunk. -/
theorem write_constant_wide {Value : Type} (nugget : Nugget Value) (bs ls : List Nat)
    (cs : List Value) (v : Value) (line : Nat) (h : nugget.Rep bs ls cs)
    (hlo : 256 ≤ cs.length) (_hhi : cs.length < 2 ^ 24) :
    (∃ nugget', write_constant nugget v line = some nugget' ∧
      nugget'.Rep
        (bs ++ [OPCODE_CONSTANT_LONG, (cs.length >>> 16) &&& 0xFF,
          (cs.length >>> 8) &&& 0xFF, cs.length &&& 0xFF])
        (ls ++ [line, line, line, line]) (cs ++ [v]) ∧
      nugget'.occupied = nugget.occupied + 4) ∧
    (∀ (fresh : Nugget Value) (written : List (Value × Nat)), 256 ≤ written.length →
      written.length < 2 ^ 24 →
      ∃ n0 bs0 ls0 n1, write_constants (init_nugget fresh) written = some n0 ∧
        n0.Rep bs0 ls0 (written.map Prod.fst) ∧
        write_constant n0 v line = some n1 ∧
        n1.Rep
          (bs0 ++ [OPCODE_CONSTANT_LONG, (written.length >>> 16) &&& 0xFF,
            (written.length >>> 8) &&& 0xFF, written.length &&& 0xFF])
          (ls0 ++ [line, line, line, line]) (written.map Prod.fst ++ [v])) := by
  constructor
  · obtain ⟨n', h1, h2⟩ := write_constant_large_index h hlo v line
    refine ⟨n', h1, h2, ?_⟩
    have a1 := h2.1.2.1
    have a2 : bs.length = nugget.occupied := h.1.2.1
    simp only [List.length_append, List.length_cons, List.length_nil] at a1
    omega
  · intro fresh written hw _
    obtain ⟨n0, bs0, ls0, h0, r0⟩ := write_constants_fresh fresh written
    obtain ⟨n1, h1, r1⟩ := write_constant_large_index r0 (by simpa using hw) v line
    refine ⟨n0, bs0, ls0, n1, h0, r0, h1, ?_⟩
    simpa using r1

/-- A witness of `write_constant_wide`: a chunk whose pool already holds 256 constants. -/
theorem write_constant_wide_witness :
    (pool_of 256 (0 : Int)).Rep [] [] (List.replicate 256 0) ∧
    ∃ nugget', write_constant (pool_of 256 (0 : Int)) 7 1 = some nugget' ∧
      nugget'.occupied = (pool_of 256 (0 : Int)).occupied + 4 :=
  ⟨pool_of_rep 256 0,
    let ⟨n, h1, _, h3⟩ := (write_constant_wide (pool_of 256 (0 : Int)) [] []
      (List.replicate 256 0) 7 1 (pool_of_rep 256 0)
      (by rw [List.length_replicate]) (by rw [List.length_replicate]; norm_num)).1
    ⟨n, h1, h3⟩⟩

/-- C3: decoding inverts the encoding of the wide index: for every `i < 2^24`,
`reconstruct_long_location (HMID_BYTE i) (LMID_BYTE i) (LOW_BYTE i) = i`; and the wide
instruction that `write_constant` writes for the pool index `i` is decoded by
`constant_long_instruction` to the location `i` and to the value stored there. -/
theorem reconstruct_inverts_encoding (i : Nat) (hi : i < 2 ^ 24) :
    reconstruct_long_location (HMID_BYTE i) (LMID_BYTE i) (LOW_BYTE i) = i ∧
    ∀ {Value : Type} (nugget : Nugget Value) (bs ls : List Nat) (cs : List Value)
      (v : Value) (line : Nat), nugget.Rep bs ls cs → cs.length = i → 256 ≤ i →
      ∃ nugget', write_constant nugget v line = some nugget' ∧
        load nugget'.constants.values i = some v ∧
        constant_long_instruction nugget' bs.length = some (i, v, bs.length + 4) := by
  have hrec : ∀ j, j < 2 ^ 24 →
      reconstruct_long_location (HMID_BYTE j) (LMID_BYTE j) (LOW_BYTE j) = j := by
    intro j hj
    rw [reconstruct_eq, HMID_BYTE_eq_mod, LMID_BYTE_eq_mod, LOW_BYTE_eq_mod]
    norm_num at hj
    omega
  refine ⟨hrec i hi, ?_⟩
  intro Value nugget bs ls cs v line h hlen hlo
  subst hlen
  obtain ⟨n', h1, h2⟩ := write_constant_large_index h hlo v line
  have hcode := h2.1
  have hpool : Holds n'.constants.values n'.constants.capacity n'.constants.occupied
      (cs ++ [v]) := h2.2.2
  have e1 : load n'.code (bs.length + 1) = some ((cs.length >>> 16) &&& 0xFF) := by
    rw [hcode.load_append 1 (by simp)]; rfl
  have e2 : load n'.code (bs.length + 2) = some ((cs.length >>> 8) &&& 0xFF) := by
    rw [hcode.load_append 2 (by simp)]; rfl
  have e3 : load n'.code (bs.length + 3) = some (cs.length &&& 0xFF) := by
    rw [hcode.load_append 3 (by simp)]; rfl
  have e4 : load n'.constants.values cs.length = some v := by
    have := hpool.load_append 0 (by simp)
    simpa using this
  have e5 : reconstruct_long_location ((cs.length >>> 16) &&& 0xFF)
      ((cs.length >>> 8) &&& 0xFF) (cs.length &&& 0xFF) = cs.length := by
    have := hrec cs.length hi
    rwa [HMID_BYTE_eq, LMID_BYTE_eq] at this
  refine ⟨n', h1, e4, ?_⟩
  simp only [constant_long_instruction, e1, e2, e3, Option.some_bind, e5, e4,
    Option.map_some']

/-- A witness of `reconstruct_inverts_encoding`: the index 70000. -/
theorem reconstruct_inverts_encoding_witness :
    70000 < 2 ^ 24 ∧
    reconstruct_long_location (HMID_BYTE 70000) (LMID_BYTE 70000) (LOW_BYTE 70000) = 70000 :=
  ⟨by decide, (reconstruct_inverts_encoding 70000 (by decide)).1⟩

/-! ## The instructions of run -/

theorem sample_VM_rep (code : List Nat) (consts stack : List Int) :
    (sample_VM code consts stack).StackRep stack := by
  simp [sample_VM, VM.StackRep, Holds]

theorem step_RETURN {Value : Type} [Zero Value] [Add Value] [Sub Value] [Mul Value]
    [Div Value] {vm : VM Value} {s : List Value} {x : Value}
    (hop : load vm.nugget.code vm.iptr = some OPCODE_RETURN) (h : vm.StackRep (s ++ [x])) :
    ∃ vm', step vm = some (Step.ret InterpretationResult.INTERPRETER_OK x vm') ∧
      vm'.StackRep s ∧ vm'.iptr = vm.iptr + 1 ∧ vm'.nugget = vm.nugget ∧
      vm'.stack_capacity = vm.stack_capacity := by
  obtain ⟨vm', hp, hr, hn, hi, hc⟩ := pop_rep (fetched_StackRep h (vm.iptr + 1))
  refine ⟨vm', ?_, hr, hi, hn, hc⟩
  simp only [step, FETCH_BYTE_eq hop, Option.some_bind, if_true, hp, Option.map_some']

theorem step_NEGATE {Value : Type} [Zero Value] [Add Value] [Sub Value] [Mul Value]
    [Div Value] {vm : VM Value} {s : List Value} {x : Value}
    (hop : load vm.nugget.code vm.iptr = some OPCODE_NEGATE) (h : vm.StackRep (s ++ [x])) :
    ∃ vm', step vm = some (Step.next vm') ∧ vm'.StackRep (s ++ [0 - x]) ∧
      vm'.iptr = vm.iptr + 1 ∧ vm'.nugget = vm.nugget ∧
      vm'.stack_capacity = vm.stack_capacity ∧ vm'.stack_ptr = vm.stack_ptr := by
  obtain ⟨hh, htop⟩ := h
  have hlen : s.length + 1 = vm.stack_ptr := by simpa using hh.2.1
  have hne : vm.stack_ptr ≠ 0 := by omega
  have hh' : Holds vm.stack vm.stack_capacity ((vm.stack_ptr - 1) + 1) (s ++ [x]) := by
    rwa [Nat.sub_add_cancel (by omega)]
  obtain ⟨-, hl⟩ := hh'.drop_last
  obtain ⟨block', hs, hb⟩ := hh'.set_last (0 - x)
  rw [Nat.sub_add_cancel (by omega)] at hb
  have e : (OPCODE_NEGATE = OPCODE_RETURN) = False := by decide
  refine ⟨{ vm with iptr := vm.iptr + 1, stack := block' }, ?_, ⟨hb, htop⟩, rfl, rfl, rfl, rfl⟩
  simp only [step, FETCH_BYTE_eq hop, Option.some_bind, e, if_false, if_true, hne, hl, hs,
    Option.map_some']

theorem step_BINARY {Value : Type} [Zero Value] [Add Value] [Sub Value] [Mul Value]
    [Div Value] {vm : VM Value} {s : List Value} {l r : Value}
    (h : vm.StackRep (s ++ [l, r]))
    (operation : Value → Value → Value)
    (hstep : step vm = (BINARY_OPERATION operation { vm with iptr := vm.iptr + 1 }).map
      Step.next) :
    ∃ vm', step vm = some (Step.next vm') ∧ vm'.StackRep (s ++ [operation l r]) ∧
      vm'.iptr = vm.iptr + 1 ∧ vm'.nugget = vm.nugget ∧
      vm'.stack_capacity = vm.stack_capacity ∧ vm'.stack_ptr + 1 = vm.stack_ptr := by
  obtain ⟨vm', hp, hr, hn, hi, hc⟩ :=
    BINARY_OPERATION_rep operation (fetched_StackRep h (vm.iptr + 1))
  refine ⟨vm', ?_, hr, hi, hn, hc, ?_⟩
  · rw [hstep, hp]; rfl
  · have a1 : (s ++ [operation l r]).length = vm'.stack_ptr := hr.1.2.1
    have a2 : (s ++ [l, r]).length = vm.stack_ptr := h.1.2.1
    simp only [List.length_append, List.length_cons, List.length_nil] at a1 a2
    omega

theorem step_dispatch {Value : Type} [Zero Value] [Add Value] [Sub Value] [Mul Value]
    [Div Value] {vm : VM Value} {b : Nat} (hop : load vm.nugget.code vm.iptr = some b) :
    (b = OPCODE_ADD → step vm =
      (BINARY_OPERATION (fun l r => l + r) { vm with iptr := vm.iptr + 1 }).map Step.next) ∧
    (b = OPCODE_SUBTRACT → step vm =
      (BINARY_OPERATION (fun l r => l - r) { vm with iptr := vm.iptr + 1 }).map Step.next) ∧
    (b = OPCODE_MULTIPLY → step vm =
      (BINARY_OPERATION (fun l r => l * r) { vm with iptr := vm.iptr + 1 }).map Step.next) ∧
    (b = OPCODE_DIVIDE → step vm =
      (BINARY_OPERATION (fun l r => l / r) { vm with iptr := vm.iptr + 1 }).map Step.next) ∧
    (b = OPCODE_CONSTANT_LONG ∨ 8 ≤ b →
      step vm = some (Step.next { vm with iptr := vm.iptr + 1 })) := by
  refine ⟨?_, ?_, ?_, ?_, ?_⟩
  · intro hb; subst hb
    simp [step, FETCH_BYTE_eq hop]
  · intro hb; subst hb
    simp [step, FETCH_BYTE_eq hop]
  · intro hb; subst hb
    simp [step, FETCH_BYTE_eq hop]
  · intro hb; subst hb
    simp [step, FETCH_BYTE_eq hop]
  · intro hb
    have hb' : b = 1 ∨ 8 ≤ b := hb
    have h1 : b ≠ 7 := by omega
    have h2 : b ≠ 2 := by omega
    have h3 : b ≠ 3 := by omega
    have h4 : b ≠ 4 := by omega
    have h5 : b ≠ 6 := by omega
    have h6 : b ≠ 5 := by omega
    have h7 : b ≠ 0 := by omega
    simp [step, FETCH_BYTE_eq hop, h1, h2, h3, h4, h5, h6, h7]

theorem step_CONSTANT {Value : Type} [Zero Value] [Add Value] [Sub Value] [Mul Value]
    [Div Value] {vm : VM Value} {s : List Value} {b : Nat} {c : Value}
    (hop : load vm.nugget.code vm.iptr = some OPCODE_CONSTANT)
    (hb : load vm.nugget.code (vm.iptr + 1) = some b)
    (hc : load vm.nugget.constants.values b = some c) (h : vm.StackRep s) :
    ∃ vm', step vm = some (Step.next vm') ∧ vm'.StackRep (s ++ [c]) ∧
      vm'.iptr = vm.iptr + 2 ∧ vm'.nugget = vm.nugget := by
  obtain ⟨vm', hp, hr, hn, hi, -⟩ := push_rep (fetched_StackRep h (vm.iptr + 1 + 1)) c
  refine ⟨vm', ?_, hr, hi, hn⟩
  have hf2 : FETCH_BYTE ({ vm with iptr := vm.iptr + 1 } : VM Value)
      = some ({ vm with iptr := vm.iptr + 1 + 1 }, b) := by
    simp only [FETCH_BYTE, hb, Option.map_some']
  have hfc : FETCH_CONSTANT ({ vm with iptr := vm.iptr + 1 } : VM Value)
      = some ({ vm with iptr := vm.iptr + 1 + 1 }, c) := by
    simp only [FETCH_CONSTANT, hf2, Option.some_bind, hc, Option.map_some']
  simp [step, FETCH_BYTE_eq hop, hfc, hp]

theorem returns_only_at_RETURN {Value : Type} [Zero Value] [Add Value] [Sub Value] [Mul Value]
    [Div Value] (fuel : Nat) :
    ∀ (vm : VM Value) (result : InterpretationResult) (printed : Value) (vm' : VM Value),
    run fuel vm = RunResult.returned result printed vm' →
    result = InterpretationResult.INTERPRETER_OK ∧
    ∃ last : VM Value, load last.nugget.code last.iptr = some OPCODE_RETURN ∧
      step last = some (Step.ret InterpretationResult.INTERPRETER_OK printed vm') := by
  induction fuel with
  | zero => intro vm result printed vm' h; simp [run] at h
  | succ n ih =>
    intro vm result printed vm' h
    unfold run at h
    cases hs : step vm with
    | none => rw [hs] at h; simp at h
    | some st =>
      rw [hs] at h
      cases st with
      | next vm1 => exact ih vm1 result printed vm' h
      | ret res out vm1 =>
        simp only [RunResult.returned.injEq] at h
        obtain ⟨h1, h2, h3⟩ := h
        subst h1 h2 h3
        cases hl : load vm.nugget.code vm.iptr with
        | none => simp [step, FETCH_BYTE, hl] at hs
        | some b =>
          have hf := FETCH_BYTE_eq hl
          by_cases hb : b = OPCODE_RETURN
          · subst hb
            simp only [step, hf, Option.some_bind, if_true] at hs
            cases hp : pop ({ vm with iptr := vm.iptr + 1 } : VM Value) with
            | none => rw [hp] at hs; simp at hs
            | some pr =>
              rw [hp] at hs
              simp only [Option.map_some', Option.some.injEq, Step.ret.injEq] at hs
              obtain ⟨h1, h2, h3⟩ := hs
              refine ⟨h1.symm, vm, hl, ?_⟩
              simp only [step, hf, Option.some_bind, if_true, hp, Option.map_some', h1, h2, h3]
          · exfalso
            simp only [step, hf, Option.some_bind, hb, if_false] at hs
            split at hs
            · split at hs
              · simp at hs
              · cases h1 : load vm.stack (vm.stack_ptr - 1) <;> simp [h1] at hs
            · split at hs
              · cases h1 : BINARY_OPERATION (fun l r => l + r)
                  ({ vm with iptr := vm.iptr + 1 } : VM Value) <;> simp [h1] at hs
              · split at hs
                · cases h1 : BINARY_OPERATION (fun l r => l - r)
                    ({ vm with iptr := vm.iptr + 1 } : VM Value) <;> simp [h1] at hs
                · split at hs
                  · cases h1 : BINARY_OPERATION (fun l r => l / r)
                      ({ vm with iptr := vm.iptr + 1 } : VM Value) <;> simp [h1] at hs
                  · split at hs
                    · cases h1 : BINARY_OPERATION (fun l r => l * r)
                        ({ vm with iptr := vm.iptr + 1 } : VM Value) <;> simp [h1] at hs
                    · split at hs
                      · cases h1 : FETCH_CONSTANT
                          ({ vm with iptr := vm.iptr + 1 } : VM Value) with
                        | none => simp [h1] at hs
                        | some pr =>
                          cases h2 : push pr.1 pr.2 <;> simp [h1, h2] at hs
                      · simp at hs

/-! ## Execution of the instructions -/

/-- C4 (the code departs from it): evaluation of `run` on a chunk with wide constants.
The chunk `wide_chunk` has the code `1 0 1 0 1 0 1 1 7` (two `OPCODE_CONSTANT_LONG`
instructions for the pool indices 256 and 257, then `OPCODE_RETURN`) and `42` at pool
index 257.  The first iteration of `run` moves the instruction pointer by 1 only and
pushes nothing, the operand bytes are then executed as instructions, and `run` prints
the constant `0` of pool index 1 instead of `42`. -/
theorem run_ignores_wide_constant :
    wide_chunk.map (fun nugget =>
        (nugget.code.take nugget.occupied, load nugget.constants.values 257))
      = some ([1, 0, 1, 0, 1, 0, 1, 1, 7].map some, some 42) ∧
    wide_chunk.map (fun nugget => step (init_VM ⟨nugget, 0, [], 0, 0, 0⟩))
      = wide_chunk.map (fun nugget => some (Step.next (init_VM ⟨nugget, 1, [], 0, 0, 0⟩))) ∧
    wide_chunk.map (fun nugget => (run_chunk 6 nugget).output)
      = some (some (InterpretationResult.INTERPRETER_OK, 0)) := by
  set_option maxRecDepth 100000 in decide

/-- C5: at a load-constant instruction with operand byte `b`, a valid index of the
pool, one iteration of `run` pushes `constants[b]` on top of the stack, leaves the
values already on the stack unchanged and advances the instruction pointer by 2. -/
theorem run_load_constant {Value : Type} [Zero Value] [Add Value] [Sub Value] [Mul Value]
    [Div Value] (vm : VM Value) (s cs : List Value) (b : Nat)
    (hop : load vm.nugget.code vm.iptr = some OPCODE_CONSTANT)
    (hoperand : load vm.nugget.code (vm.iptr + 1) = some b)
    (hpool : vm.nugget.constants.Rep cs) (hb : b < cs.length) (h : vm.StackRep s) :
    ∃ vm', step vm = some (Step.next vm') ∧ vm'.StackRep (s ++ [cs.get ⟨b, hb⟩]) ∧
      vm'.iptr = vm.iptr + 2 ∧ vm'.nugget = vm.nugget := by
  have hocc : cs.length = vm.nugget.constants.occupied := hpool.2.1
  have hc : load vm.nugget.constants.values b = some (cs.get ⟨b, hb⟩) := by
    rw [Holds.load_eq hpool b (by omega)]
    simp [List.getElem?_eq_getElem hb]
  exact step_CONSTANT hop hoperand hc h

/-- A witness of `run_load_constant`: the code `0 1` with the pool `5, 6` and the stack
`9`. -/
theorem run_load_constant_witness :
    ∃ vm', step (sample_VM [0, 1] [5, 6] [9]) = some (Step.next vm') ∧
      vm'.StackRep ([9] ++ [6]) ∧ vm'.iptr = 0 + 2 :=
  let ⟨vm', h1, h2, h3, _⟩ := run_load_constant (sample_VM [0, 1] [5, 6] [9]) [9] [5, 6] 1
    (by decide) (by decide) (by simp [sample_VM, ValuePool.Rep, Holds]) (by decide)
    (sample_VM_rep _ _ _)
  ⟨vm', h1, h2, h3⟩

/-- C6: on a stack `s ++ [l, r]` each of the four binary opcodes leaves the stack
`s ++ [l op r]` with `+`, `-`, `*`, `/` for `OPCODE_ADD`, `OPCODE_SUBTRACT`,
`OPCODE_MULTIPLY`, `OPCODE_DIVIDE`; the depth drops by one, the capacity is unchanged
and the instruction pointer advances by 1. -/
theorem run_binary_operation {Value : Type} [Zero Value] [Add Value] [Sub Value]
    [Mul Value] [Div Value] (vm : VM Value) (s : List Value) (l r : Value)
    (h : vm.StackRep (s ++ [l, r])) :
    (load vm.nugget.code vm.iptr = some OPCODE_ADD →
      ∃ vm', step vm = some (Step.next vm') ∧ vm'.StackRep (s ++ [l + r]) ∧
        vm'.iptr = vm.iptr + 1 ∧ vm'.nugget = vm.nugget ∧
        vm'.stack_capacity = vm.stack_capacity ∧ vm'.stack_ptr + 1 = vm.stack_ptr) ∧
    (load vm.nugget.code vm.iptr = some OPCODE_SUBTRACT →
      ∃ vm', step vm = some (Step.next vm') ∧ vm'.StackRep (s ++ [l - r]) ∧
        vm'.iptr = vm.iptr + 1 ∧ vm'.nugget = vm.nugget ∧
        vm'.stack_capacity = vm.stack_capacity ∧ vm'.stack_ptr + 1 = vm.stack_ptr) ∧
    (load vm.nugget.code vm.iptr = some OPCODE_MULTIPLY →
      ∃ vm', step vm = some (Step.next vm') ∧ vm'.StackRep (s ++ [l * r]) ∧
        vm'.iptr = vm.iptr + 1 ∧ vm'.nugget = vm.nugget ∧
        vm'.stack_capacity = vm.stack_capacity ∧ vm'.stack_ptr + 1 = vm.stack_ptr) ∧
    (load vm.nugget.code vm.iptr = some OPCODE_DIVIDE →
      ∃ vm', step vm = some (Step.next vm') ∧ vm'.StackRep (s ++ [l / r]) ∧
        vm'.iptr = vm.iptr + 1 ∧ vm'.nugget = vm.nugget ∧
        vm'.stack_capacity = vm.stack_capacity ∧ vm'.stack_ptr + 1 = vm.stack_ptr) := by
  refine ⟨?_, ?_, ?_, ?_⟩
  · intro hop
    exact step_BINARY h (fun l r => l + r) ((step_dispatch hop).1 rfl)
  · intro hop
    exact step_BINARY h (fun l r => l - r) ((step_dispatch hop).2.1 rfl)
  · intro hop
    exact step_BINARY h (fun l r => l * r) ((step_dispatch hop).2.2.1 rfl)
  · intro hop
    exact step_BINARY h (fun l r => l / r) ((step_dispatch hop).2.2.2.1 rfl)

/-- A witness of `run_binary_operation`: `OPCODE_SUBTRACT` on the stack `10, 2, 3`. -/
theorem run_binary_operation_witness :
    ∃ vm', step (sample_VM [4] [] [10, 2, 3]) = some (Step.next vm') ∧
      vm'.StackRep ([10] ++ [2 - 3]) ∧ vm'.iptr = 0 + 1 :=
  let ⟨vm', h1, h2, h3, _⟩ := (run_binary_operation (sample_VM [4] [] [10, 2, 3]) [10] 2 3
    (sample_VM_rep _ _ _)).2.1 (by decide)
  ⟨vm', h1, h2, h3⟩

/-- C7: on a stack `s ++ [x]`, `OPCODE_NEGATE` leaves the stack `s ++ [0 - x]`; the
depth, the capacity and the values below the top are unchanged and the instruction
pointer advances by 1. -/
theorem run_negate {Value : Type} [Zero Value] [Add Value] [Sub Value] [Mul Value]
    [Div Value] (vm : VM Value) (s : List Value) (x : Value)
    (hop : load vm.nugget.code vm.iptr = some OPCODE_NEGATE) (h : vm.StackRep (s ++ [x])) :
    ∃ vm', step vm = some (Step.next vm') ∧ vm'.StackRep (s ++ [0 - x]) ∧
      vm'.iptr = vm.iptr + 1 ∧ vm'.nugget = vm.nugget ∧
      vm'.stack_capacity = vm.stack_capacity ∧ vm'.stack_ptr = vm.stack_ptr :=
  step_NEGATE hop h

/-- A witness of `run_negate`: `OPCODE_NEGATE` on the stack `8, 4`. -/
theorem run_negate_witness :
    ∃ vm', step (sample_VM [2] [] [8, 4]) = some (Step.next vm') ∧
      vm'.StackRep ([8] ++ [0 - 4]) ∧ vm'.iptr = 0 + 1 :=
  let ⟨vm', h1, h2, h3, _⟩ := run_negate (sample_VM [2] [] [8, 4]) [8] 4 (by decide)
    (sample_VM_rep _ _ _)
  ⟨vm', h1, h2, h3⟩

/-- C8: on a stack `s ++ [x]`, `OPCODE_RETURN` pops `x`, emits it as the result, leaves
the stack `s` and makes `run` return `INTERPRETER_OK` in that iteration, with the
instruction pointer just behind the return byte: no later byte is executed. -/
theorem run_return {Value : Type} [Zero Value] [Add Value] [Sub Value] [Mul Value]
    [Div Value] (vm : VM Value) (s : List Value) (x : Value)
    (hop : load vm.nugget.code vm.iptr = some OPCODE_RETURN) (h : vm.StackRep (s ++ [x])) :
    ∃ vm', step vm = some (Step.ret InterpretationResult.INTERPRETER_OK x vm') ∧
      (∀ fuel, run (fuel + 1) vm
        = RunResult.returned InterpretationResult.INTERPRETER_OK x vm') ∧
      vm'.StackRep s ∧ vm'.iptr = vm.iptr + 1 ∧ vm'.nugget = vm.nugget := by
  obtain ⟨vm', h1, h2, h3, h4, -⟩ := step_RETURN hop h
  refine ⟨vm', h1, ?_, h2, h3, h4⟩
  intro fuel
  simp only [run, h1]

/-- A witness of `run_return`: `OPCODE_RETURN` followed by further bytes, on the stack
`8, 4`. -/
theorem run_return_witness :
    ∃ vm', run 5 (sample_VM [7, 0, 0, 7] [1] [8, 4])
        = RunResult.returned InterpretationResult.INTERPRETER_OK 4 vm' ∧
      vm'.StackRep [8] ∧ vm'.iptr = 0 + 1 :=
  let ⟨vm', _, h2, h3, h4, _⟩ := run_return (sample_VM [7, 0, 0, 7] [1] [8, 4]) [8] 4
    (by decide) (sample_VM_rep _ _ _)
  ⟨vm', h2 4, h3, h4⟩

/-- C9, as the claim states it, fails: on the code `200 0 0 7` with the constant `5`,
the byte 200 at the instruction pointer is no opcode, yet `run` does not halt there: it
goes on with the following bytes and returns `INTERPRETER_OK` after printing `5`, and
for no amount of fuel does it return `INTERPRETER_RUNTIME_ERROR`. -/
theorem run_unknown_opcode_no_error :
    load (sample_VM [200, 0, 0, 7] [5] []).nugget.code
      (sample_VM [200, 0, 0, 7] [5] []).iptr = some 200 ∧
    (run 3 (sample_VM [200, 0, 0, 7] [5] [])).output
      = some (InterpretationResult.INTERPRETER_OK, 5) ∧
    ¬ ∃ fuel printed vm', run fuel (sample_VM [200, 0, 0, 7] [5] [])
      = RunResult.returned InterpretationResult.INTERPRETER_RUNTIME_ERROR printed vm' := by
  refine ⟨by decide, by decide, ?_⟩
  rintro ⟨fuel, printed, vm', h⟩
  have := (returns_only_at_RETURN fuel _ _ _ _ h).1
  exact absurd this (by decide)

/-- C9, amended: a byte at the instruction pointer that is none of the defined opcodes
(8 or more) is skipped: the iteration changes nothing but the instruction pointer,
which advances by 1, and `run` goes on with the following byte; and whenever `run`
returns, it returns `INTERPRETER_OK` from an iteration at a return instruction. -/
theorem run_unknown_opcode_skipped {Value : Type} [Zero Value] [Add Value] [Sub Value]
    [Mul Value] [Div Value] (vm : VM Value) (b : Nat)
    (hop : load vm.nugget.code vm.iptr = some b) (hb : 8 ≤ b) :
    step vm = some (Step.next { vm with iptr := vm.iptr + 1 }) ∧
    (∀ fuel, run (fuel + 1) vm = run fuel { vm with iptr := vm.iptr + 1 }) ∧
    (∀ (fuel : Nat) (start : VM Value) (result : InterpretationResult) (printed : Value)
      (vm' : VM Value), run fuel start = RunResult.returned result printed vm' →
      result = InterpretationResult.INTERPRETER_OK ∧
      ∃ last : VM Value, load last.nugget.code last.iptr = some OPCODE_RETURN ∧
        step last = some (Step.ret InterpretationResult.INTERPRETER_OK printed vm')) := by
  have hs := (step_dispatch hop).2.2.2.2 (Or.inr hb)
  refine ⟨hs, ?_, ?_⟩
  · intro fuel
    simp only [run, hs]
  · intro fuel start result printed vm' h
    exact returns_only_at_RETURN fuel start result printed vm' h

/-- A witness of `run_unknown_opcode_skipped`: the byte 200. -/
theorem run_unknown_opcode_skipped_witness :
    step (sample_VM [200, 0, 0, 7] [5] [])
      = some (Step.next { sample_VM [200, 0, 0, 7] [5] [] with iptr := 0 + 1 }) :=
  (run_unknown_opcode_skipped (sample_VM [200, 0, 0, 7] [5] []) 200 (by decide)
    (by decide)).1

/-! ## Growth of the chunk and of the pool -/

theorem Holds.prefix_kept {α : Type} {block block' : List (Option α)}
    {capacity capacity' occupied : Nat} {xs : List α} {x : α}
    (h : Holds block capacity occupied xs)
    (h' : Holds block' capacity' (occupied + 1) (xs ++ [x])) (i : Nat) (hi : i < occupied) :
    load block' i = load block i := by
  have hlen : xs.length = occupied := h.2.1
  rw [h.load_eq i hi, h'.load_eq i (by omega)]
  simp [List.getElem?_append_left (by omega : i < xs.length)]

theorem write_nugget_capacity {Value : Type} {nugget nugget' : Nugget Value}
    {byte line : Nat} (h : write_nugget nugget byte line = some nugget') :
    nugget'.capacity = (if nugget.capacity < nugget.occupied + 1
      then GROW_CAPACITY nugget.capacity else nugget.capacity) ∧
    nugget'.occupied = nugget.occupied + 1 ∧ nugget'.constants = nugget.constants := by
  unfold write_nugget at h
  by_cases hc : nugget.capacity < nugget.occupied + 1
  · simp only [hc, if_true] at h ⊢
    cases h1 : store (GROW_ARRAY nugget.code nugget.capacity (GROW_CAPACITY nugget.capacity))
      nugget.occupied (byte % 256) with
    | none => rw [h1] at h; simp at h
    | some code =>
      rw [h1] at h
      cases h2 : store (GROW_ARRAY nugget.lines nugget.capacity
        (GROW_CAPACITY nugget.capacity)) nugget.occupied line with
      | none => rw [h2] at h; simp at h
      | some lines =>
        rw [h2] at h
        simp only [Option.some_bind, Option.map_some', Option.some.injEq] at h
        subst h
        exact ⟨rfl, rfl, rfl⟩
  · simp only [hc, if_false] at h ⊢
    cases h1 : store nugget.code nugget.occupied (byte % 256) with
    | none => rw [h1] at h; simp at h
    | some code =>
      rw [h1] at h
      cases h2 : store nugget.lines nugget.occupied line with
      | none => rw [h2] at h; simp at h
      | some lines =>
        rw [h2] at h
        simp only [Option.some_bind, Option.map_some', Option.some.injEq] at h
        subst h
        exact ⟨rfl, rfl, rfl⟩

theorem write_valuepool_capacity {Value : Type} {pool pool' : ValuePool Value} {v : Value}
    (h : write_valuepool pool v = some pool') :
    pool'.capacity = (if pool.capacity < pool.occupied + 1
      then GROW_CAPACITY pool.capacity else pool.capacity) ∧
    pool'.occupied = pool.occupied + 1 := by
  unfold write_valuepool at h
  by_cases hc : pool.capacity < pool.occupied + 1
  · simp only [hc, if_true] at h ⊢
    cases h1 : store (GROW_ARRAY pool.values pool.capacity (GROW_CAPACITY pool.capacity))
      pool.occupied v with
    | none => rw [h1] at h; simp at h
    | some values =>
      rw [h1] at h
      simp only [Option.map_some', Option.some.injEq] at h
      subst h
      exact ⟨rfl, rfl⟩
  · simp only [hc, if_false] at h ⊢
    cases h1 : store pool.values pool.occupied v with
    | none => rw [h1] at h; simp at h
    | some values =>
      rw [h1] at h
      simp only [Option.map_some', Option.some.injEq] at h
      subst h
      exact ⟨rfl, rfl⟩

theorem GrownTo.succ {capacity n : Nat} (h : GrownTo capacity n) (hle : n ≤ capacity) :
    GrownTo (if capacity < n + 1 then GROW_CAPACITY capacity else capacity) (n + 1) := by
  rcases h with ⟨hn, hc⟩ | ⟨hn, k, hk, hnk, hleast⟩
  · subst hn hc
    refine Or.inr ⟨by omega, 0, ?_, ?_, ?_⟩
    · simp [GROW_CAPACITY]
    · simp
    · intro j hj; omega
  · by_cases hfull : capacity < n + 1
    · have hcn : n = capacity := by omega
      have hpos : 0 < 2 ^ k := Nat.two_pow_pos k
      have hge : ¬ capacity < 8 := by omega
      refine Or.inr ⟨by omega, k + 1, ?_, ?_, ?_⟩
      · rw [if_pos hfull]; unfold GROW_CAPACITY; rw [if_neg hge, hk, pow_succ]; ring
      · rw [pow_succ]; omega
      · intro j hj
        have hjk : j ≤ k := by omega
        have : 2 ^ j ≤ 2 ^ k := Nat.pow_le_pow_right (by norm_num) hjk
        omega
    · refine Or.inr ⟨by omega, k, ?_, ?_, ?_⟩
      · rw [if_neg hfull, hk]
      · omega
      · intro j hj
        have := hleast j hj
        omega

theorem write_values_rep {Value : Type} (written : List Value) :
    ∀ {pool : ValuePool Value} {vs : List Value}, pool.Rep vs →
    GrownTo pool.capacity pool.occupied →
    ∃ pool', write_values pool written = some pool' ∧ pool'.Rep (vs ++ written) ∧
      GrownTo pool'.capacity pool'.occupied := by
  induction written with
  | nil =>
    intro pool vs h hg
    exact ⟨pool, rfl, by simpa using h, hg⟩
  | cons v rest ih =>
    intro pool vs h hg
    obtain ⟨p1, h1, r1, -⟩ := write_valuepool_rep h v
    obtain ⟨c1, o1⟩ := write_valuepool_capacity h1
    have hg1 : GrownTo p1.capacity p1.occupied := by
      rw [c1, o1]; exact hg.succ (Holds.le h)
    obtain ⟨p2, h2, r2, g2⟩ := ih r1 hg1
    refine ⟨p2, ?_, ?_, g2⟩
    · simp only [write_values, h1, Option.some_bind, h2]
    · simpa [List.append_assoc] using r2

/-- C13: on a chunk whose pool holds the `k` values `cs`, `add_constant` returns `k`;
afterwards the pool holds `k + 1` values with `values[k] = v` and `values[i]` unchanged
for every `i < k`, and the code, the lines, their count and their capacity are
untouched. -/
theorem add_constant_appends {Value : Type} (nugget : Nugget Value) (cs : List Value)
    (v : Value) (h : nugget.constants.Rep cs) :
    ∃ nugget', add_constant nugget v = some (nugget', cs.length) ∧
      nugget'.constants.Rep (cs ++ [v]) ∧
      nugget'.constants.occupied = cs.length + 1 ∧
      load nugget'.constants.values cs.length = some v ∧
      (∀ i, i < cs.length →
        load nugget'.constants.values i = load nugget.constants.values i) ∧
      nugget'.code = nugget.code ∧ nugget'.lines = nugget.lines ∧
      nugget'.occupied = nugget.occupied ∧ nugget'.capacity = nugget.capacity := by
  obtain ⟨pool', hw, hrep, hocc⟩ := write_valuepool_rep h v
  have hk : cs.length = nugget.constants.occupied := h.2.1
  refine ⟨{ nugget with constants := pool' }, ?_, hrep, hocc, ?_, ?_, rfl, rfl, rfl, rfl⟩
  · simp [add_constant, hw, hocc]
  · have hrep0 : Holds pool'.values pool'.capacity pool'.occupied (cs ++ [v]) := hrep
    have := hrep0.load_append 0 (by simp)
    simpa using this
  · intro i hi
    have hrep' : Holds pool'.values pool'.capacity (nugget.constants.occupied + 1)
        (cs ++ [v]) := by
      rw [← hk, ← hocc]; exact hrep
    exact Holds.prefix_kept h hrep' i (by omega)

/-- A witness of `add_constant_appends`: a pool that is full with three values. -/
theorem add_constant_appends_witness :
    (sample_VM [] [4, 5, 6] []).nugget.constants.Rep [4, 5, 6] ∧
    ∃ nugget', add_constant (sample_VM [] [4, 5, 6] []).nugget 9
        = some (nugget', [4, 5, 6].length) ∧
      nugget'.constants.Rep ([4, 5, 6] ++ [9]) :=
  ⟨by simp [sample_VM, ValuePool.Rep, Holds],
    let ⟨n, h1, h2, _⟩ := add_constant_appends (sample_VM [] [4, 5, 6] []).nugget [4, 5, 6] 9
      (by simp [sample_VM, ValuePool.Rep, Holds])
    ⟨n, h1, h2⟩⟩

/-! ## The stack capacity -/

theorem Outcome.bind_ok {α β : Type} {x : Outcome α} {f : α → Outcome β} {b : β}
    (h : x.bind f = Outcome.ok b) : ∃ a, x = Outcome.ok a ∧ f a = Outcome.ok b := by
  cases x with
  | ok a => exact ⟨a, rfl, h⟩
  | undefined => simp [Outcome.bind] at h
  | out_of_fuel => simp [Outcome.bind] at h

theorem Outcome.map_ok {α β : Type} {x : Outcome α} {f : α → β} {b : β}
    (h : x.map f = Outcome.ok b) : ∃ a, x = Outcome.ok a ∧ f a = b := by
  cases x with
  | ok a =>
    simp only [Outcome.map, Outcome.ok.injEq] at h
    exact ⟨a, rfl, h⟩
  | undefined => simp [Outcome.map] at h
  | out_of_fuel => simp [Outcome.map] at h

theorem SameMemory.refl {Value : Type} (c : Compiler Value) : SameMemory c c :=
  ⟨rfl, rfl⟩

theorem SameMemory.trans {Value : Type} {c1 c2 c3 : Compiler Value}
    (h12 : SameMemory c1 c2) (h23 : SameMemory c2 c3) : SameMemory c1 c3 :=
  ⟨h23.1.trans h12.1, h23.2.trans h12.2⟩

theorem error_at_memory {Value : Type} (c : Compiler Value) (token : Token)
    (message : List Char) : SameMemory c (error_at c token message) := by
  unfold error_at
  split
  · exact SameMemory.refl c
  · exact ⟨rfl, rfl⟩

theorem advance_loop_memory {Value : Type} (next_token : Scanner → Token × Scanner)
    (fuel : Nat) : ∀ {c c' : Compiler Value},
    advance_loop next_token fuel c = Outcome.ok c' → SameMemory c c' := by
  induction fuel with
  | zero => intro c c' h; simp [advance_loop] at h
  | succ n ih =>
    intro c c' h
    unfold advance_loop at h
    simp only at h
    split at h
    · simp only [Outcome.ok.injEq] at h
      subst h
      exact ⟨rfl, rfl⟩
    · have h1 := ih h
      have h2 := error_at_memory
        ({ c with scanner := (next_token c.scanner).2,
                  parser := { c.parser with current := (next_token c.scanner).1 } })
        (next_token c.scanner).1 (next_token c.scanner).1.start
      exact SameMemory.trans (SameMemory.trans ⟨rfl, rfl⟩ h2) h1

theorem advance_memory {Value : Type} {next_token : Scanner → Token × Scanner} {fuel : Nat}
    {c c' : Compiler Value} (h : advance next_token fuel c = Outcome.ok c') :
    SameMemory c c' :=
  have m := advance_loop_memory next_token fuel h
  ⟨m.1, m.2⟩

theorem consume_memory {Value : Type} {next_token : Scanner → Token × Scanner} {fuel : Nat}
    {type : TokenType} {message : List Char} {c c' : Compiler Value}
    (h : consume next_token fuel type message c = Outcome.ok c') : SameMemory c c' := by
  unfold consume at h
  split at h
  · exact advance_memory h
  · simp only [Outcome.ok.injEq] at h
    subst h
    exact error_at_memory c c.parser.current message

theorem through_NULL {Value : Type} {c : Compiler Value}
    (write : Nugget Value → Option (Nugget Value)) (h : c.compiling_nugget = none) :
    through_current_nugget c write = Outcome.undefined := by
  simp [through_current_nugget, current_nugget, h]

theorem parse_memory {Value : Type} (next_token : Scanner → Token × Scanner)
    (number_value : List Char → Value) (fuel : Nat) :
    (∀ (threshold : Nat) (c c' : Compiler Value), c.compiling_nugget = none →
      parse_precedence next_token number_value fuel threshold c = Outcome.ok c' →
      SameMemory c c') ∧
    (∀ (threshold : Nat) (c c' : Compiler Value), c.compiling_nugget = none →
      parse_operators next_token number_value fuel threshold c = Outcome.ok c' →
      SameMemory c c') := by
  induction fuel with
  | zero =>
    constructor
    · intro threshold c c' _ h; simp [parse_precedence] at h
    · intro threshold c c' _ h; simp [parse_operators] at h
  | succ n ih =>
    obtain ⟨ihp, ihi⟩ := ih
    constructor
    · intro threshold c c' hnull h
      rw [parse_precedence] at h
      obtain ⟨c1, ha, h⟩ := Outcome.bind_ok h
      have m1 := advance_memory ha
      have n1 : c1.compiling_nugget = none := by rw [m1.1, hnull]
      obtain ⟨c2, hfirst, hrest⟩ := Outcome.bind_ok h
      have m2 : SameMemory c1 c2 := by
        split at hfirst
        · rw [emit_constant, through_NULL _ n1] at hfirst
          cases hfirst
        · obtain ⟨c3, hinner, hclose⟩ := Outcome.bind_ok hfirst
          exact SameMemory.trans (ihp _ _ _ n1 hinner) (consume_memory hclose)
        · obtain ⟨c3, hinner, hneg⟩ := Outcome.bind_ok hfirst
          have m3 := ihp _ _ _ n1 hinner
          have n3 : c3.compiling_nugget = none := by rw [m3.1, n1]
          rw [emit_byte, through_NULL _ n3] at hneg
          cases hneg
        · simp only [Outcome.ok.injEq] at hfirst
          subst hfirst
          exact error_at_memory c1 c1.parser.previous _
      have n2 : c2.compiling_nugget = none := by rw [m2.1, n1]
      exact SameMemory.trans (SameMemory.trans m1 m2) (ihi _ _ _ n2 hrest)
    · intro threshold c c' hnull h
      rw [parse_operators] at h
      split at h
      · simp only [Outcome.ok.injEq] at h
        subst h
        exact SameMemory.refl c
      · split at h
        · simp only [Outcome.ok.injEq] at h
          subst h
          exact SameMemory.refl c
        · obtain ⟨c1, ha, h⟩ := Outcome.bind_ok h
          have m1 := advance_memory ha
          have n1 : c1.compiling_nugget = none := by rw [m1.1, hnull]
          obtain ⟨c2, hp, h⟩ := Outcome.bind_ok h
          have m2 := ihp _ _ _ n1 hp
          have n2 : c2.compiling_nugget = none := by rw [m2.1, n1]
          obtain ⟨c3, he, h⟩ := Outcome.bind_ok h
          rw [emit_byte, through_NULL _ n2] at he
          cases he

theorem compile_memory {Value : Type} {next_token : Scanner → Token × Scanner}
    {expression : Compiler Value → Outcome (Compiler Value)} {fuel address : Nat}
    {source : List Char} {c c' : Compiler Value} {compiled : Option Bool}
    (h : compile next_token expression fuel address source c = Outcome.ok (c', compiled)) :
    compiled = none ∧
    ∃ c1 c2, SameMemory c c1 ∧ expression c1 = Outcome.ok c2 ∧ SameMemory c2 c' := by
  unfold compile at h
  simp only at h
  obtain ⟨c1, ha, h⟩ := Outcome.bind_ok h
  obtain ⟨c2, he, h⟩ := Outcome.bind_ok h
  obtain ⟨c3, hc, h⟩ := Outcome.map_ok h
  simp only [Prod.mk.injEq] at h
  obtain ⟨h3, hnone⟩ := h
  subst h3
  have m1 := advance_memory ha
  exact ⟨hnone.symm, c1, c2, ⟨m1.1, m1.2⟩, he, consume_memory hc⟩

theorem compile_at_start {Value : Type} {next_token : Scanner → Token × Scanner}
    {number_value : List Char → Value} {fuel address : Nat}
    {source : List Char} {c c' : Compiler Value} {compiled : Option Bool}
    (hnull : c.compiling_nugget = none)
    (h : compile next_token (expression next_token number_value fuel) fuel address source c
      = Outcome.ok (c', compiled)) :
    compiled = none ∧ SameMemory c c' := by
  obtain ⟨hn, c1, c2, m1, he, m2⟩ := compile_memory h
  have n1 : c1.compiling_nugget = none := by rw [m1.1, hnull]
  have m := (parse_memory next_token number_value fuel).1 1 c1 c2 n1 he
  exact ⟨hn, SameMemory.trans (SameMemory.trans m1 m) m2⟩

theorem emit_byte_rep {Value : Type} {c : Compiler Value} {target : Nat}
    {nugget : Nugget Value} {bs ls : List Nat} {cs : List Value} (byte : Nat)
    (hp : c.compiling_nugget = some target) (hn : c.chunks target = some nugget)
    (h : nugget.Rep bs ls cs) :
    ∃ c' nugget', emit_byte c byte = Outcome.ok c' ∧ c'.chunks target = some nugget' ∧
      nugget'.Rep (bs ++ [byte % 256]) (ls ++ [c.parser.previous.line]) cs ∧
      (∀ a, a ≠ target → c'.chunks a = c.chunks a) ∧
      c'.compiling_nugget = c.compiling_nugget := by
  obtain ⟨n', hw, hr⟩ := write_nugget_rep h byte c.parser.previous.line
  refine ⟨{ c with chunks := fun a => if a = target then some n' else c.chunks a }, n',
    ?_, ?_, hr, ?_, rfl⟩
  · simp [emit_byte, through_current_nugget, current_nugget, hp, hn, hw]
  · simp
  · intro a ha
    simp [ha]

theorem run_fresh_chunk {Value : Type} [Zero Value] [Add Value] [Sub Value] [Mul Value]
    [Div Value] (vm : VM Value) (fresh : Nugget Value) (fuel : Nat) :
    run (fuel + 1) { vm with nugget := init_nugget fresh, iptr := 0 }
      = RunResult.undefined := by
  have hs : step ({ vm with nugget := init_nugget fresh, iptr := 0 } : VM Value) = none := by
    simp [step, FETCH_BYTE, load, init_nugget]
  simp only [run, hs]

/-- C14 (the code departs from it): `compile` ends without a `return` statement, so a
completed call yields no value, whatever the had-error flag is: on the empty source the
flag is set and no `false` is returned, and on the source `1` (with `compiling_nugget`
pointing to a chunk) the flag is clear and no `true` is returned. -/
theorem compile_returns_no_value :
    (∀ {Value : Type} (next_token : Scanner → Token × Scanner)
      (parse : Compiler Value → Outcome (Compiler Value)) (fuel address : Nat)
      (source : List Char) (c c' : Compiler Value) (compiled : Option Bool),
      compile next_token parse fuel address source c = Outcome.ok (c', compiled) →
      compiled = none) ∧
    (compile one_number (expression one_number lexeme_value 5) 5 0 [] program_start).map
        (fun p => (p.1.parser.hiterror, p.2))
      = Outcome.ok (true, none) ∧
    (compile one_number (expression one_number lexeme_value 5) 5 0 "1".toList
        (pointed_start 0)).map (fun p => (p.1.parser.hiterror, p.2))
      = Outcome.ok (false, none) := by
  refine ⟨?_, by decide, by decide⟩
  intro Value next_token parse fuel address source c c' compiled h
  exact (compile_memory h).1

/-- C15 (the code departs from it): `compile` never assigns `compiling_nugget`, so the
chunk passed to it does not become the chunk `emit_byte` writes to.  Whatever
`expression` is, it receives the pointer and the chunks as they were before the call.
With the pointer `NULL`, as at program start, `emit_byte` is undefined and a completed
`compile` has written no chunk at all; with the pointer at another chunk the bytes go
there and the chunk passed to `compile` stays empty.  What does hold: `emit_byte`
appends the byte to the chunk that `compiling_nugget` points to and stamps it with the
line of the previous token. -/
theorem emit_byte_misses_the_chunk :
    (∀ {Value : Type} (next_token : Scanner → Token × Scanner)
      (parse : Compiler Value → Outcome (Compiler Value)) (fuel address : Nat)
      (source : List Char) (c c' : Compiler Value) (compiled : Option Bool),
      compile next_token parse fuel address source c = Outcome.ok (c', compiled) →
      ∃ c1 c2, SameMemory c c1 ∧ parse c1 = Outcome.ok c2 ∧ SameMemory c2 c') ∧
    (∀ {Value : Type} (c : Compiler Value) (byte : Nat), c.compiling_nugget = none →
      emit_byte c byte = Outcome.undefined) ∧
    (∀ {Value : Type} (next_token : Scanner → Token × Scanner)
      (number_value : List Char → Value) (fuel address : Nat) (source : List Char)
      (c c' : Compiler Value) (compiled : Option Bool), c.compiling_nugget = none →
      compile next_token (expression next_token number_value fuel) fuel address source c
        = Outcome.ok (c', compiled) →
      c'.chunks = c.chunks ∧ c'.compiling_nugget = none) ∧
    (∀ {Value : Type} (c : Compiler Value) (byte target : Nat) (nugget : Nugget Value)
      (bs ls : List Nat) (cs : List Value), c.compiling_nugget = some target →
      c.chunks target = some nugget → nugget.Rep bs ls cs →
      ∃ c' nugget', emit_byte c byte = Outcome.ok c' ∧ c'.chunks target = some nugget' ∧
        nugget'.Rep (bs ++ [byte % 256]) (ls ++ [c.parser.previous.line]) cs ∧
        (∀ a, a ≠ target → c'.chunks a = c.chunks a) ∧
        c'.compiling_nugget = c.compiling_nugget) ∧
    (compile one_number (expression one_number lexeme_value 5) 5 0 "1".toList
        (pointed_start 1)).map (fun c => (code_at c.1 0, code_at c.1 1))
      = Outcome.ok (some [], some [some OPCODE_CONSTANT, some 0]) := by
  refine ⟨?_, ?_, ?_, ?_, by decide⟩
  · intro Value next_token parse fuel address source c c' compiled h
    exact (compile_memory h).2
  · intro Value c byte h
    exact through_NULL _ h
  · intro Value next_token number_value fuel address source c c' compiled hnull h
    have m := (compile_at_start hnull h).2
    exact ⟨m.2, by rw [m.1, hnull]⟩
  · intro Value c byte target nugget bs ls cs hp hn h
    exact emit_byte_rep byte hp hn h

/-- C16 (the code departs from it): `compile` appends no return instruction.  At
program start (`compiling_nugget` is `NULL`) a completed `compile` leaves a fresh chunk
as it was, empty, and `run` on it is undefined at its first fetch.  Even with
`compiling_nugget` pointing to the chunk, compiling the source `1` leaves the two bytes
of a load-constant instruction and nothing behind them, and `run` goes past the end of
the code. -/
theorem compile_appends_no_return :
    (∀ {Value : Type} [Zero Value] [Add Value] [Sub Value] [Mul Value] [Div Value]
      (next_token : Scanner → Token × Scanner) (number_value : List Char → Value)
      (fuel address : Nat) (source : List Char) (c c' : Compiler Value)
      (compiled : Option Bool) (fresh : Nugget Value), c.compiling_nugget = none →
      c.chunks address = some (init_nugget fresh) →
      compile next_token (expression next_token number_value fuel) fuel address source c
        = Outcome.ok (c', compiled) →
      c'.chunks address = some (init_nugget fresh) ∧ (init_nugget fresh).occupied = 0 ∧
      ∀ (vm : VM Value) (n : Nat),
        run (n + 1) { vm with nugget := init_nugget fresh, iptr := 0 }
          = RunResult.undefined) ∧
    (compile one_number (expression one_number lexeme_value 5) 5 0 "1".toList
        (pointed_start 0)).map (fun c => (c.1.parser.hiterror, code_at c.1 0))
      = Outcome.ok (false, some [some OPCODE_CONSTANT, some 0]) ∧
    (compile one_number (expression one_number lexeme_value 5) 5 0 "1".toList
        (pointed_start 0)).map (fun c => (c.1.chunks 0).map fun nugget => run_chunk 5 nugget)
      = Outcome.ok (some RunResult.undefined) := by
  refine ⟨?_, by decide, by decide⟩
  intro Value _ _ _ _ _ next_token number_value fuel address source c c' compiled fresh
    hnull hfresh h
  have m := (compile_at_start hnull h).2
  refine ⟨by rw [m.2, hfresh], rfl, ?_⟩
  intro vm n
  exact run_fresh_chunk vm fresh n

/-! ## interpret -/

theorem interpret_failed {Value : Type} [Zero Value] [Add Value] [Sub Value] [Mul Value]
    [Div Value] {next_token : Scanner → Token × Scanner}
    {parse : Compiler Value → Outcome (Compiler Value)} {indeterminate : Bool}
    {fuel address : Nat} {source : List Char} {w : World Value} {c : Compiler Value}
    {compiled : Option Bool}
    (h : compile next_token parse fuel address source
      (set_chunk w.compiler address (some (init_nugget ⟨0, 0, [], [], ⟨0, 0, []⟩⟩)))
      = Outcome.ok (c, compiled))
    (hfail : compiled.getD indeterminate = false) :
    interpret next_token parse indeterminate fuel address source w
      = Outcome.ok (InterpretationResult.INTERPRETER_COMPILE_ERROR, none,
          { vm := w.vm, compiler := set_chunk c address none }) := by
  unfold interpret
  simp only [h, Outcome.bind, hfail, Bool.not_false, if_true]

theorem interpret_ran {Value : Type} [Zero Value] [Add Value] [Sub Value] [Mul Value]
    [Div Value] {next_token : Scanner → Token × Scanner}
    {parse : Compiler Value → Outcome (Compiler Value)} {indeterminate : Bool}
    {fuel address : Nat} {source : List Char} {w : World Value} {c : Compiler Value}
    {compiled : Option Bool} {nugget : Nugget Value}
    (h : compile next_token parse fuel address source
      (set_chunk w.compiler address (some (init_nugget ⟨0, 0, [], [], ⟨0, 0, []⟩⟩)))
      = Outcome.ok (c, compiled))
    (hok : compiled.getD indeterminate = true) (hn : c.chunks address = some nugget) :
    (interpret next_token parse indeterminate fuel address source w).map
        (fun r => (r.1, r.2.1))
      = interpreted (run fuel { w.vm with nugget := nugget, iptr := 0 }) := by
  unfold interpret
  simp only [h, Outcome.bind, hok, Bool.not_true, hn]
  cases run fuel ({ w.vm with nugget := nugget, iptr := 0 } : VM Value) <;>
    simp [interpreted, Outcome.map]

/-- C17 (the code departs from it): with `compiling_nugget` `NULL`, as at program start,
`interpret` prints no value for any source, any token stream and any reading of the
numbers: the chunk handed to `run` is the fresh, empty chunk, so the call ends in a
compile error, in undefined behaviour or without an end, and never yields the value of
the expression. -/
theorem interpret_yields_no_value {Value : Type} [Zero Value] [Add Value] [Sub Value]
    [Mul Value] [Div Value] (next_token : Scanner → Token × Scanner)
    (number_value : List Char → Value) (indeterminate : Bool) (fuel address : Nat)
    (source : List Char) (w : World Value) (hnull : w.compiler.compiling_nugget = none) :
    ∀ (result : InterpretationResult) (printed : Value) (w' : World Value),
      interpret next_token (expression next_token number_value fuel) indeterminate fuel
        address source w ≠ Outcome.ok (result, some printed, w') := by
  intro result printed w' hi
  cases hc : compile next_token (expression next_token number_value fuel) fuel address source
      (set_chunk w.compiler address (some (init_nugget ⟨0, 0, [], [], ⟨0, 0, []⟩⟩))) with
  | undefined => simp [interpret, hc, Outcome.bind] at hi
  | out_of_fuel => simp [interpret, hc, Outcome.bind] at hi
  | ok p =>
    obtain ⟨c, compiled⟩ := p
    have hnull' : (set_chunk w.compiler address
        (some (init_nugget (⟨0, 0, [], [], ⟨0, 0, []⟩⟩ : Nugget Value)))).compiling_nugget
        = none := hnull
    obtain ⟨-, m⟩ := compile_at_start hnull' hc
    by_cases hv : compiled.getD indeterminate = true
    · have hn : c.chunks address
          = some (init_nugget (⟨0, 0, [], [], ⟨0, 0, []⟩⟩ : Nugget Value)) := by
        rw [m.2]; simp [set_chunk]
      have hr := interpret_ran (w := w) hc hv hn
      rw [hi] at hr
      cases fuel with
      | zero => simp [Outcome.map, interpreted, run] at hr
      | succ n =>
        rw [run_fresh_chunk] at hr
        simp [Outcome.map, interpreted] at hr
    · have hf : compiled.getD indeterminate = false := by
        cases h : compiled.getD indeterminate
        · rfl
        · exact absurd h hv
      rw [interpret_failed hc hf] at hi
      simp at hi

/-- A witness of `interpret_yields_no_value`: the source `1 + 2 * 3` at program start
does not yield 7. -/
theorem interpret_yields_no_value_witness :
    (⟨init_VM (sample_VM [] [] []), program_start⟩ : World Int).compiler.compiling_nugget
      = none ∧
    ∀ w', interpret one_number (expression one_number lexeme_value 9) true 9 0
        "1 + 2 * 3".toList ⟨init_VM (sample_VM [] [] []), program_start⟩
      ≠ Outcome.ok (InterpretationResult.INTERPRETER_OK, some 7, w') :=
  ⟨rfl, fun w' => interpret_yields_no_value one_number lexeme_value true 9 0
    "1 + 2 * 3".toList ⟨init_VM (sample_VM [] [] []), program_start⟩ rfl
    InterpretationResult.INTERPRETER_OK 7 w'⟩

/-- C19 (the code departs from it): `interpret` does not call `rewind_stack`.  When the
value read from `compile` is true, `run` starts at offset 0 of the compiled chunk on the
machine as the earlier execution left it: same stack block, same capacity and the same
stack pointer, so the values left behind are still on the stack. -/
theorem interpret_does_not_rewind {Value : Type} [Zero Value] [Add Value] [Sub Value]
    [Mul Value] [Div Value] (next_token : Scanner → Token × Scanner)
    (parse : Compiler Value → Outcome (Compiler Value)) (indeterminate : Bool)
    (fuel address : Nat) (source : List Char) (w : World Value) (nugget : Nugget Value)
    (h : (compile next_token parse fuel address source
      (set_chunk w.compiler address (some (init_nugget ⟨0, 0, [], [], ⟨0, 0, []⟩⟩)))).map
        (fun p => (p.2.getD indeterminate, p.1.chunks address))
      = Outcome.ok (true, some nugget)) :
    (interpret next_token parse indeterminate fuel address source w).map
        (fun r => (r.1, r.2.1))
      = interpreted (run fuel { w.vm with nugget := nugget, iptr := 0 }) ∧
    ({ w.vm with nugget := nugget, iptr := 0 } : VM Value).stack_ptr = w.vm.stack_ptr ∧
    ({ w.vm with nugget := nugget, iptr := 0 } : VM Value).stack = w.vm.stack ∧
    ({ w.vm with nugget := nugget, iptr := 0 } : VM Value).stack_capacity
      = w.vm.stack_capacity ∧
    ({ w.vm with nugget := nugget, iptr := 0 } : VM Value).iptr = 0 := by
  obtain ⟨p, hc, hp⟩ := Outcome.map_ok h
  obtain ⟨c, compiled⟩ := p
  simp only [Prod.mk.injEq] at hp
  exact ⟨interpret_ran hc hp.1 hp.2, rfl, rfl, rfl, rfl⟩

/-- A witness of `interpret_does_not_rewind`: an earlier execution has left the values
8 and 9 on the stack and the compiled chunk is the return instruction alone (emitted by the
stand-in `emit_return` into the chunk of `interpret`): the 9 is printed, where a rewound
stack would be empty. -/
theorem interpret_does_not_rewind_witness :
    push_all (init_VM (sample_VM [] [] [])) [8, 9] = some used_VM ∧
    used_VM.stack_ptr = 2 ∧
    (interpret one_number emit_return true 5 0 []
        ⟨used_VM, pointed_start 0⟩).map (fun r => (r.1, r.2.1))
      = Outcome.ok (InterpretationResult.INTERPRETER_OK, some 9) :=
  ⟨by decide, rfl,
    ((interpret_does_not_rewind one_number emit_return true 5 0 []
      ⟨used_VM, pointed_start 0⟩
      ⟨1, 8, [some 7, none, none, none, none, none, none, none],
        [some 0, none, none, none, none, none, none, none], ⟨0, 0, []⟩⟩
      (by decide)).1).trans (by decide)⟩

/-! ## The scanner: its loops -/

theorem advance_while_peek (p : Char → Bool) (hp : p '\x00' = false) (start : List Char)
    (line : Nat) : ∀ (current : List Char) (fuel : Nat), current.length < fuel →
    Scanner.advance_while (fun s => p s.peek) fuel ⟨start, current, line⟩
      = Outcome.ok ⟨start, current.dropWhile p, line⟩ := by
  intro current
  induction current with
  | nil =>
    intro fuel hf
    cases fuel with
    | zero => simp at hf
    | succ n => simp [Scanner.advance_while, Scanner.peek, hp]
  | cons ch rest ih =>
    intro fuel hf
    cases fuel with
    | zero => simp at hf
    | succ n =>
      have hn : rest.length < n := by simpa using hf
      have hpeek : (⟨start, ch :: rest, line⟩ : Scanner).peek = ch := rfl
      rw [Scanner.advance_while]
      by_cases hc : p ch = true
      · simp only [hpeek, hc, if_true, Scanner.advance, Outcome.bind, List.dropWhile_cons]
        exact ih n hn
      · simp only [hpeek, hc, List.dropWhile_cons]
        simp

theorem string_loop_eq (start : List Char) : ∀ (text : List Char) (line fuel : Nat),
    text.length < fuel →
    string_loop fuel ⟨start, text, line⟩
      = Outcome.ok ⟨start, text.dropWhile char_in_string,
          line + newlines (text.takeWhile char_in_string)⟩ := by
  intro text
  induction text with
  | nil =>
    intro line fuel hf
    cases fuel with
    | zero => simp at hf
    | succ n => simp [string_loop, Scanner.peek, Scanner.at_file_end, newlines]
  | cons ch rest ih =>
    intro line fuel hf
    cases fuel with
    | zero => simp at hf
    | succ n =>
      have hn : rest.length < n := by simpa using hf
      by_cases hc : char_in_string ch = true
      · have hc' : (ch != '"' && !(ch == '\x00')) = true := hc
        by_cases hnl : ch = '\n'
        · subst hnl
          simp only [string_loop, Scanner.peek, Scanner.at_file_end, List.headD_cons, hc',
            if_true, Scanner.advance, Outcome.bind, ih _ n hn, List.dropWhile_cons, hc,
            List.takeWhile_cons, newlines, List.count_cons_self]
          simp only [Outcome.ok.injEq, Scanner.mk.injEq, true_and]
          omega
        · simp only [string_loop, Scanner.peek, Scanner.at_file_end, List.headD_cons, hc',
            if_true, hnl, if_false, Scanner.advance, Outcome.bind, ih _ n hn,
            List.dropWhile_cons, hc, List.takeWhile_cons, newlines]
          rw [List.count_cons_of_ne (Ne.symm hnl)]
      · have hc' : (ch != '"' && !(ch == '\x00')) = false := by
          simpa [char_in_string] using hc
        simp [string_loop, Scanner.peek, Scanner.at_file_end, hc', hc, newlines]

theorem skip_whitespace_stops (start rest : List Char) (line fuel : Nat)
    (hstop : stops_skipping (rest.headD '\x00') = true) :
    skip_whitespace (fuel + 1) ⟨start, rest, line⟩ = Outcome.ok ⟨start, rest, line⟩ := by
  have hpeek : (⟨start, rest, line⟩ : Scanner).peek = rest.headD '\x00' := rfl
  simp only [stops_skipping, Bool.not_eq_true', Bool.or_eq_false_iff, beq_eq_false_iff_ne,
    ne_eq] at hstop
  obtain ⟨⟨⟨⟨h1, h2⟩, h3⟩, h4⟩, h5⟩ := hstop
  rw [skip_whitespace]
  simp only [hpeek, h1, h2, h3, h4, h5, or_self, if_false]

theorem skip_whitespace_blank (start : List Char) : ∀ (ws : List Char), Blank ws →
    ∀ (rest : List Char) (line fuel : Nat), stops_skipping (rest.headD '\x00') = true →
    (ws ++ rest).length < fuel →
    skip_whitespace fuel ⟨start, ws ++ rest, line⟩
      = Outcome.ok ⟨start, rest, line + newlines ws⟩ := by
  intro ws
  induction ws with
  | nil =>
    intro _ rest line fuel hstop hf
    cases fuel with
    | zero => simp at hf
    | succ n => simpa [newlines] using skip_whitespace_stops start rest line n hstop
  | cons ch ws ih =>
    intro hb rest line fuel hstop hf
    cases fuel with
    | zero => simp at hf
    | succ n =>
      have hn : (ws ++ rest).length < n := by simpa using hf
      have hws : Blank ws := fun c hc => hb c (List.mem_cons_of_mem _ hc)
      have hch := hb ch (List.mem_cons_self _ _)
      rw [List.cons_append, skip_whitespace]
      have hpeek : (⟨start, ch :: (ws ++ rest), line⟩ : Scanner).peek = ch := rfl
      simp only [hpeek]
      by_cases hnl : ch = '\n'
      · subst hnl
        have e : ¬ (('\n' : Char) = ' ' ∨ ('\n' : Char) = '\r' ∨ ('\n' : Char) = '\t') := by
          decide
        rw [if_neg e, if_pos rfl]
        simp only [Scanner.advance, Outcome.bind]
        rw [ih hws rest _ n hstop hn]
        simp only [newlines, List.count_cons_self, Outcome.ok.injEq, Scanner.mk.injEq,
          true_and]
        omega
      · have e : ch = ' ' ∨ ch = '\r' ∨ ch = '\t' := by
          rcases hch with h | h | h | h
          · exact Or.inl h
          · exact Or.inr (Or.inl h)
          · exact Or.inr (Or.inr h)
          · exact absurd h hnl
        rw [if_pos e]
        simp only [Scanner.advance, Outcome.bind]
        rw [ih hws rest _ n hstop hn]
        simp only [newlines]
        rw [List.count_cons_of_ne (Ne.symm hnl)]

theorem skip_whitespace_total (start : List Char) : ∀ (text : List Char) (line fuel : Nat),
    text.length < fuel →
    ∃ rest line', skip_whitespace fuel ⟨start, text, line⟩ = Outcome.ok ⟨start, rest, line'⟩ ∧
      ∃ consumed, text = consumed ++ rest := by
  intro text
  induction text with
  | nil =>
    intro line fuel hf
    cases fuel with
    | zero => simp at hf
    | succ n =>
      exact ⟨[], line, skip_whitespace_stops start [] line n (by decide), [], rfl⟩
  | cons ch rest ih =>
    intro line fuel hf
    cases fuel with
    | zero => simp at hf
    | succ n =>
      have hn : rest.length < n := by simpa using hf
      rw [skip_whitespace]
      have hpeek : (⟨start, ch :: rest, line⟩ : Scanner).peek = ch := rfl
      simp only [hpeek]
      by_cases h1 : ch = ' ' ∨ ch = '\r' ∨ ch = '\t'
      · obtain ⟨r, l, hr, consumed, hc⟩ := ih line n hn
        refine ⟨r, l, ?_, ch :: consumed, by rw [hc]; rfl⟩
        rw [if_pos h1]
        simp only [Scanner.advance, Outcome.bind]
        exact hr
      · rw [if_neg h1]
        by_cases h2 : ch = '\n'
        · obtain ⟨r, l, hr, consumed, hc⟩ := ih (line + 1) n hn
          refine ⟨r, l, ?_, ch :: consumed, by rw [hc]; rfl⟩
          rw [if_pos h2]
          simp only [Scanner.advance, Outcome.bind]
          exact hr
        · rw [if_neg h2]
          by_cases h3 : ch = '/'
          · rw [if_pos h3]
            by_cases h4 : (⟨start, ch :: rest, line⟩ : Scanner).peek_ahead = '/'
            · have hw := advance_while_peek char_in_comment (by decide) start line
                (ch :: rest) (n + 1) hf
              refine ⟨(ch :: rest).dropWhile char_in_comment, line, ?_,
                (ch :: rest).takeWhile char_in_comment,
                (List.takeWhile_append_dropWhile _ _).symm⟩
              rw [if_pos h4]
              exact hw
            · refine ⟨ch :: rest, line, ?_, [], rfl⟩
              rw [if_neg h4]
          · refine ⟨ch :: rest, line, ?_, [], rfl⟩
            rw [if_neg h3]

/-! ## The scanner: words and numbers -/

theorem check_keyword_eq (w r : List Char) (line start : Nat) (tail : List Char)
    (of_type : TokenType) :
    check_keyword ⟨w ++ r, r, line⟩ start tail.length tail of_type
      = if w.length = start + tail.length ∧ w.drop start = tail then of_type
        else TokenType.TOKEN_IDENTIFIER := by
  unfold check_keyword memcmp
  have hlen : (w ++ r).length - r.length = w.length := by simp
  simp only [hlen, List.take_length]
  by_cases h : w.length = start + tail.length
  · have hd : ((w ++ r).drop start).take tail.length = w.drop start := by
      rw [List.drop_append_of_le_length (by omega)]
      rw [List.take_append_of_le_length (by simp; omega)]
      apply List.take_of_length_le
      simp; omega
    rw [hd]
    by_cases h2 : w.drop start = tail
    · simp [h, h2]
    · simp [h, h2]
  · simp [h]

theorem check_keyword_second (c : Char) (w r : List Char) (line : Nat) (tail : List Char)
    (of_type : TokenType) :
    check_keyword ⟨c :: w ++ r, r, line⟩ 1 tail.length tail of_type
      = if w = tail then of_type else TokenType.TOKEN_IDENTIFIER := by
  have h := check_keyword_eq (c :: w) r line 1 tail of_type
  rw [h]
  by_cases hw : w = tail
  · subst hw; simp; omega
  · simp [hw]

theorem check_keyword_third (c d : Char) (w r : List Char) (line : Nat) (tail : List Char)
    (of_type : TokenType) :
    check_keyword ⟨c :: d :: w ++ r, r, line⟩ 2 tail.length tail of_type
      = if w = tail then of_type else TokenType.TOKEN_IDENTIFIER := by
  have h := check_keyword_eq (c :: d :: w) r line 2 tail of_type
  rw [h]
  by_cases hw : w = tail
  · subst hw; simp; omega
  · simp [hw]

theorem typeof_identifier_eq (c : Char) (w r : List Char) (line : Nat) :
    typeof_identifier ⟨c :: w ++ r, r, line⟩ = keyword_kind (c :: w) := by
  have hk : ∀ (tail : List Char) (ty : TokenType) (n : Nat), n = tail.length →
      check_keyword ⟨c :: w ++ r, r, line⟩ 1 n tail ty
        = if w = tail then ty else TokenType.TOKEN_IDENTIFIER := by
    intro tail ty n hn
    subst hn
    exact check_keyword_second c w r line tail ty
  have hlen : (c :: w ++ r).length - r.length = w.length + 1 := by simp; omega
  have hhead : (c :: w ++ r).headD '\x00' = c := rfl
  unfold typeof_identifier
  simp only [hhead, hlen]
  by_cases ha : c = 'a'
  · subst ha
    rw [if_pos rfl, hk _ _ _ (by rfl)]
    simp [keyword_kind]
  rw [if_neg ha]
  by_cases hc : c = 'c'
  · subst hc
    rw [if_pos rfl, hk _ _ _ (by rfl)]
    simp [keyword_kind]
  rw [if_neg hc]
  by_cases he : c = 'e'
  · subst he
    rw [if_pos rfl, hk _ _ _ (by rfl)]
    simp [keyword_kind]
  rw [if_neg he]
  by_cases hi : c = 'i'
  · subst hi
    rw [if_pos rfl, hk _ _ _ (by rfl)]
    simp [keyword_kind]
  rw [if_neg hi]
  by_cases hn : c = 'n'
  · subst hn
    rw [if_pos rfl, hk _ _ _ (by rfl)]
    simp [keyword_kind]
  rw [if_neg hn]
  by_cases ho : c = 'o'
  · subst ho
    rw [if_pos rfl, hk _ _ _ (by rfl)]
    simp [keyword_kind]
  rw [if_neg ho]
  by_cases hp : c = 'p'
  · subst hp
    rw [if_pos rfl, hk _ _ _ (by rfl)]
    simp [keyword_kind]
  rw [if_neg hp]
  by_cases hr : c = 'r'
  · subst hr
    rw [if_pos rfl, hk _ _ _ (by rfl)]
    simp [keyword_kind]
  rw [if_neg hr]
  by_cases hs : c = 's'
  · subst hs
    rw [if_pos rfl, hk _ _ _ (by rfl)]
    simp [keyword_kind]
  rw [if_neg hs]
  by_cases hv : c = 'v'
  · subst hv
    rw [if_pos rfl, hk _ _ _ (by rfl)]
    simp [keyword_kind]
  rw [if_neg hv]
  by_cases hw : c = 'w'
  · subst hw
    rw [if_pos rfl, hk _ _ _ (by rfl)]
    simp [keyword_kind]
  rw [if_neg hw]
  by_cases hf : c = 'f'
  · subst hf
    rw [if_pos rfl]
    cases w with
    | nil => simp [keyword_kind]
    | cons d w =>
      have hk2 : ∀ (tail : List Char) (ty : TokenType) (n : Nat), n = tail.length →
          check_keyword ⟨'f' :: d :: w ++ r, r, line⟩ 2 n tail ty
            = if w = tail then ty else TokenType.TOKEN_IDENTIFIER := by
        intro tail ty n hn
        subst hn
        exact check_keyword_third 'f' d w r line tail ty
      have hsecond : (('f' :: d :: w ++ r).drop 1).headD '\x00' = d := rfl
      rw [if_pos (by simp), hsecond]
      by_cases h1 : d = 'a'
      · subst h1
        rw [if_pos rfl, hk2 _ _ _ (by rfl)]
        simp [keyword_kind]
      rw [if_neg h1]
      by_cases h2 : d = 'o'
      · subst h2
        rw [if_pos rfl, hk2 _ _ _ (by rfl)]
        simp [keyword_kind]
      rw [if_neg h2]
      by_cases h3 : d = 'u'
      · subst h3
        rw [if_pos rfl, hk2 _ _ _ (by rfl)]
        simp [keyword_kind]
      rw [if_neg h3]
      simp [keyword_kind, h1, h2, h3]
  rw [if_neg hf]
  by_cases ht : c = 't'
  · subst ht
    rw [if_pos rfl]
    cases w with
    | nil => simp [keyword_kind]
    | cons d w =>
      have hk2 : ∀ (tail : List Char) (ty : TokenType) (n : Nat), n = tail.length →
          check_keyword ⟨'t' :: d :: w ++ r, r, line⟩ 2 n tail ty
            = if w = tail then ty else TokenType.TOKEN_IDENTIFIER := by
        intro tail ty n hn
        subst hn
        exact check_keyword_third 't' d w r line tail ty
      have hsecond : (('t' :: d :: w ++ r).drop 1).headD '\x00' = d := rfl
      rw [if_pos (by simp), hsecond]
      by_cases h1 : d = 'h'
      · subst h1
        rw [if_pos rfl, hk2 _ _ _ (by rfl)]
        simp [keyword_kind]
      rw [if_neg h1]
      by_cases h2 : d = 'r'
      · subst h2
        rw [if_pos rfl, hk2 _ _ _ (by rfl)]
        simp [keyword_kind]
      rw [if_neg h2]
      simp [keyword_kind, h1, h2]
  rw [if_neg ht]
  simp [keyword_kind, ha, hc, he, hi, hn, ho, hp, hr, hs, hv, hw, hf, ht]

theorem stops_skipping_of_ne (c : Char) (h1 : c ≠ ' ') (h2 : c ≠ '\r') (h3 : c ≠ '\t')
    (h4 : c ≠ '\n') (h5 : c ≠ '/') : stops_skipping c = true := by
  simp [stops_skipping, h1, h2, h3, h4, h5]

theorem char_alpha_stops (c : Char) (h : char_alpha c = true) :
    stops_skipping c = true ∧ c ≠ '\x00' := by
  refine ⟨stops_skipping_of_ne c ?_ ?_ ?_ ?_ ?_, ?_⟩ <;>
  · intro h1
    subst h1
    exact absurd h (by decide)

theorem scan_identifier (start : List Char) (c : Char) (rest : List Char) (line n : Nat)
    (hc : char_alpha c = true) (hn : (c :: rest).length < n) :
    scan_token n ⟨start, c :: rest, line⟩
      = Outcome.ok
          (⟨keyword_kind (c :: rest.takeWhile char_word), c :: rest,
              (c :: rest.takeWhile char_word).length, line⟩,
            ⟨c :: rest, rest.dropWhile char_word, line⟩) := by
  cases n with
  | zero => simp at hn
  | succ n =>
    obtain ⟨hstop, h0⟩ := char_alpha_stops c hc
    have hw := advance_while_peek char_word (by decide) (c :: rest) line rest (n + 1)
      (by simp at hn ⊢; omega)
    have hty := typeof_identifier_eq c (rest.takeWhile char_word) (rest.dropWhile char_word) line
    rw [List.cons_append, List.takeWhile_append_dropWhile] at hty
    unfold scan_token
    rw [skip_whitespace_stops start (c :: rest) line n hstop]
    simp only [Outcome.bind, Scanner.at_file_end, Scanner.peek, List.headD_cons,
      Scanner.advance, hc, if_true, beq_iff_eq, h0, if_false]
    unfold identifier
    change (Outcome.map _ (Scanner.advance_while (fun s => char_word s.peek) (n + 1) _)) = _
    rw [hw]
    simp only [Outcome.map, create_token, hty]
    have hl : (c :: rest).length - (rest.dropWhile char_word).length
        = (c :: rest.takeWhile char_word).length := by
      have := congrArg List.length (List.takeWhile_append_dropWhile char_word rest)
      simp only [List.length_append] at this
      simp only [List.length_cons]
      omega
    rw [hl]

theorem char_le_iff (a b : Char) : a ≤ b ↔ a.toNat ≤ b.toNat := Iff.rfl

theorem char_digit_not_alpha (c : Char) (h : char_digit c = true) : char_alpha c = false := by
  simp only [char_digit, Bool.and_eq_true, decide_eq_true_eq, char_le_iff] at h
  have h0 : ('0' : Char).toNat = 48 := rfl
  have h9 : ('9' : Char).toNat = 57 := rfl
  have hu : c ≠ '_' := by
    intro hc
    subst hc
    revert h
    decide
  have ha : ('a' : Char).toNat = 97 := rfl
  have hA : ('A' : Char).toNat = 65 := rfl
  have hZ : ('Z' : Char).toNat = 90 := rfl
  simp only [char_alpha, Bool.or_eq_false_iff, Bool.and_eq_false_iff, decide_eq_false_iff_not,
    char_le_iff, beq_eq_false_iff_ne, ne_eq]
  refine ⟨⟨?_, ?_⟩, hu⟩
  · left; omega
  · left; omega

theorem char_digit_stops (c : Char) (h : char_digit c = true) :
    stops_skipping c = true ∧ c ≠ '\x00' := by
  refine ⟨stops_skipping_of_ne c ?_ ?_ ?_ ?_ ?_, ?_⟩ <;>
  · intro h1
    subst h1
    exact absurd h (by decide)

theorem dropWhile_length_le (p : Char → Bool) (l : List Char) :
    (l.dropWhile p).length ≤ l.length := by
  have := congrArg List.length (List.takeWhile_append_dropWhile p l)
  simp only [List.length_append] at this
  omega

theorem dropWhile_head_not (p : Char → Bool) (hp : p '\x00' = false) (l : List Char) :
    p ((l.dropWhile p).headD '\x00') = false := by
  by_cases h : l.dropWhile p = []
  · rw [h]; exact hp
  · have := List.head_dropWhile_not p l h
    cases hl : l.dropWhile p with
    | nil => exact absurd hl h
    | cons a t =>
      simp only [hl, List.head_cons] at this
      simpa using this

theorem scan_number (start : List Char) (c : Char) (rest : List Char) (line n : Nat)
    (hc : char_digit c = true) (hn : (c :: rest).length < n) :
    scan_token n ⟨start, c :: rest, line⟩
      = Outcome.ok
          (if ((rest.dropWhile char_digit).headD '\x00' = '.' ∧
              char_digit (((rest.dropWhile char_digit).drop 1).headD '\x00') = true) then
            (create_token
                ⟨c :: rest, ((rest.dropWhile char_digit).drop 1).dropWhile char_digit, line⟩
                TokenType.TOKEN_NUMBER,
              ⟨c :: rest, ((rest.dropWhile char_digit).drop 1).dropWhile char_digit, line⟩)
          else
            (create_token ⟨c :: rest, rest.dropWhile char_digit, line⟩ TokenType.TOKEN_NUMBER,
              ⟨c :: rest, rest.dropWhile char_digit, line⟩)) := by
  cases n with
  | zero => simp at hn
  | succ n =>
    obtain ⟨hstop, h0⟩ := char_digit_stops c hc
    have halpha := char_digit_not_alpha c hc
    have hlen : rest.length < n := by simpa using hn
    have hw := advance_while_peek char_digit (by decide) (c :: rest) line rest (n + 1)
      (by omega)
    unfold scan_token
    rw [skip_whitespace_stops start (c :: rest) line n hstop]
    simp only [Outcome.bind, Scanner.at_file_end, Scanner.peek, List.headD_cons,
      Scanner.advance, hc, halpha, if_true, beq_iff_eq, h0, if_false, Bool.false_eq_true]
    unfold number
    rw [hw]
    simp only [Outcome.bind]
    have hpeek : (⟨c :: rest, rest.dropWhile char_digit, line⟩ : Scanner).peek
        = (rest.dropWhile char_digit).headD '\x00' := rfl
    rw [hpeek]
    by_cases hdot : (rest.dropWhile char_digit).headD '\x00' = '.'
    · have hahead : (⟨c :: rest, rest.dropWhile char_digit, line⟩ : Scanner).peek_ahead
          = ((rest.dropWhile char_digit).drop 1).headD '\x00' := by
        unfold Scanner.peek_ahead Scanner.at_file_end
        rw [hpeek, hdot]
        rfl
      rw [hahead]
      by_cases hd : char_digit (((rest.dropWhile char_digit).drop 1).headD '\x00') = true
      · rw [if_pos ⟨hdot, hd⟩, if_pos ⟨hdot, hd⟩]
        cases hr : rest.dropWhile char_digit with
        | nil => rw [hr] at hdot; exact absurd hdot (by decide)
        | cons a t =>
          have hlt : t.length < n + 1 := by
            have h1 := congrArg List.length hr
            have h2 := dropWhile_length_le char_digit rest
            simp at h1
            omega
          simp only [Scanner.advance, Outcome.map, Outcome.bind, List.drop_one, List.tail_cons]
          rw [advance_while_peek char_digit (by decide) (c :: rest) line t (n + 1) hlt]
      · have hneg : ¬ ((rest.dropWhile char_digit).headD '\x00' = '.' ∧
            char_digit (((rest.dropWhile char_digit).drop 1).headD '\x00') = true) :=
          fun h => hd h.2
        rw [if_neg hneg, if_neg hneg]
        simp only [Outcome.bind]
        rw [advance_while_peek char_digit (by decide) (c :: rest) line _ (n + 1)
          (by have := dropWhile_length_le char_digit rest; omega)]
        rw [List.dropWhile_idempotent]
        rfl
    · have hneg : ¬ ((rest.dropWhile char_digit).headD '\x00' = '.' ∧
          char_digit (((rest.dropWhile char_digit).drop 1).headD '\x00') = true) :=
        fun h => hdot h.1
      have hneg2 : ¬ ((rest.dropWhile char_digit).headD '\x00' = '.' ∧
          char_digit (⟨c :: rest, rest.dropWhile char_digit, line⟩ : Scanner).peek_ahead
            = true) :=
        fun h => hdot h.1
      rw [if_neg hneg, if_neg hneg2]
      simp only [Outcome.bind]
      rw [advance_while_peek char_digit (by decide) (c :: rest) line _ (n + 1)
        (by have := dropWhile_length_le char_digit rest; omega)]
      rw [List.dropWhile_idempotent]
      rfl

theorem scan_token_blank (start start2 ws rest : List Char) (line fuel : Nat)
    (hws : Blank ws) (hstop : stops_skipping (rest.headD '\x00') = true)
    (hf : (ws ++ rest).length < fuel) :
    scan_token fuel ⟨start, ws ++ rest, line⟩
      = scan_token fuel ⟨start2, rest, line + newlines ws⟩ := by
  cases fuel with
  | zero => simp at hf
  | succ n =>
    unfold scan_token
    rw [skip_whitespace_blank start ws hws rest line (n + 1) hstop hf,
      skip_whitespace_stops start2 rest (line + newlines ws) n hstop]
    rfl

theorem all_le_takeWhile (p : Char → Bool) : ∀ (xs t : List Char),
    (∀ x ∈ xs, p x = true) → xs <+: t → xs.length ≤ (t.takeWhile p).length := by
  intro xs
  induction xs with
  | nil => intro t _ _; simp
  | cons x xs ih =>
    intro t hall hpre
    obtain ⟨tail, ht⟩ := hpre
    subst ht
    have hx : p x = true := hall x (List.mem_cons_self _ _)
    simp only [List.cons_append, List.takeWhile_cons, hx, if_true, List.length_cons]
    have := ih (xs ++ tail) (fun y hy => hall y (List.mem_cons_of_mem _ hy))
      (List.prefix_append _ _)
    omega

theorem all_then_stop (p : Char → Bool) (y : Char) (hy : p y = false) :
    ∀ (xs tail : List Char), (∀ x ∈ xs, p x = true) →
      (xs ++ y :: tail).takeWhile p = xs ∧ (xs ++ y :: tail).dropWhile p = y :: tail := by
  intro xs
  induction xs with
  | nil => intro tail _; simp [List.takeWhile_cons, List.dropWhile_cons, hy]
  | cons x xs ih =>
    intro tail hall
    have hx : p x = true := hall x (List.mem_cons_self _ _)
    have := ih tail (fun z hz => hall z (List.mem_cons_of_mem _ hz))
    simp [List.takeWhile_cons, List.dropWhile_cons, hx, this.1, this.2]

/-- C24: at a digit (after any blanks) `scan_token` returns a `TOKEN_NUMBER` whose
lexeme is the longest prefix of the text there that matches `[0-9]+(\.[0-9]+)?`; the
cursor is left right behind the lexeme. -/
theorem number_longest_match (start ws : List Char) (c : Char) (rest : List Char)
    (line fuel : Nat) (hws : Blank ws) (hc : char_digit c = true)
    (hf : (ws ++ c :: rest).length < fuel) :
    ∃ token s, scan_token fuel ⟨start, ws ++ c :: rest, line⟩ = Outcome.ok (token, s) ∧
      token.type = TokenType.TOKEN_NUMBER ∧ token.start = c :: rest ∧
      token.lexeme ++ s.current = c :: rest ∧ NumberLexeme token.lexeme ∧
      ∀ w : List Char, w <+: c :: rest → NumberLexeme w →
        w.length ≤ token.lexeme.length := by
  have hn : (c :: rest).length < fuel := by
    simp only [List.length_append] at hf
    omega
  rw [scan_token_blank start start ws (c :: rest) line fuel hws (char_digit_stops c hc).1 hf,
    scan_number start c rest (line + newlines ws) fuel hc hn]
  have hsplit := List.takeWhile_append_dropWhile char_digit rest
  have hD : ∀ x ∈ c :: rest.takeWhile char_digit, char_digit x = true := by
    intro x hx
    rcases List.mem_cons.1 hx with h | h
    · rw [h]; exact hc
    · exact List.mem_takeWhile_imp h
  have hlex : ∀ (L R : List Char), L ++ R = c :: rest →
      Token.lexeme (create_token ⟨c :: rest, R, line + newlines ws⟩ TokenType.TOKEN_NUMBER)
        = L := by
    intro L R h
    simp only [Token.lexeme, create_token]
    rw [← h, List.length_append, Nat.add_sub_cancel, List.take_left]
  have hwhole : (c :: rest).takeWhile char_digit = c :: rest.takeWhile char_digit := by
    simp [List.takeWhile_cons, hc]
  have hwhole2 : (c :: rest).dropWhile char_digit = rest.dropWhile char_digit := by
    simp [List.dropWhile_cons, hc]
  by_cases hfrac : (rest.dropWhile char_digit).headD '\x00' = '.' ∧
      char_digit (((rest.dropWhile char_digit).drop 1).headD '\x00') = true
  · rw [if_pos hfrac]
    obtain ⟨hdot, hd⟩ := hfrac
    cases hr : rest.dropWhile char_digit with
    | nil => rw [hr] at hdot; exact absurd hdot (by decide)
    | cons a t0 =>
      rw [hr] at hdot hd hsplit
      simp only [List.headD_cons] at hdot
      subst hdot
      simp only [List.drop_one, List.tail_cons] at hd ⊢
      cases t0 with
      | nil => exact absurd hd (by decide)
      | cons d t =>
        simp only [List.headD_cons] at hd
        have hsplit2 := List.takeWhile_append_dropWhile char_digit (d :: t)
        have hF : (d :: t).takeWhile char_digit = d :: t.takeWhile char_digit := by
          simp [List.takeWhile_cons, hd]
        have hLR : (c :: rest.takeWhile char_digit ++ '.' :: (d :: t).takeWhile char_digit)
            ++ (d :: t).dropWhile char_digit = c :: rest := by
          rw [List.append_assoc, List.cons_append '.', hsplit2, List.cons_append, hsplit]
        have hl := hlex _ _ hLR
        refine ⟨_, _, rfl, rfl, rfl, ?_, ?_, ?_⟩
        · rw [hl]; exact hLR
        · rw [hl]
          refine ⟨c :: rest.takeWhile char_digit, (d :: t).takeWhile char_digit,
            by simp, hD, Or.inr ⟨by rw [hF]; simp, ?_, rfl⟩⟩
          intro x hx
          exact List.mem_takeWhile_imp hx
        · intro w hw hnum
          rw [hl]
          obtain ⟨ds, fs, hds, hall, hcase⟩ := hnum
          rcases hcase with h | ⟨hfs, hfall, h⟩
          · subst h
            have := all_le_takeWhile char_digit w (c :: rest) hall hw
            rw [hwhole] at this
            simp only [List.length_append, List.length_cons] at this ⊢
            omega
          · subst h
            obtain ⟨tail, ht⟩ := hw
            rw [List.append_assoc, List.cons_append] at ht
            have hstop := all_then_stop char_digit '.' (by decide) ds (fs ++ tail) hall
            rw [ht, hwhole, hwhole2, hr] at hstop
            obtain ⟨h1, h2⟩ := hstop
            have h3 : d :: t = fs ++ tail := by
              injection h2
            have := all_le_takeWhile char_digit fs (d :: t) hfall ⟨tail, h3.symm⟩
            rw [← h1]
            simp only [List.length_append, List.length_cons] at this ⊢
            omega
  · rw [if_neg hfrac]
    have hLR : (c :: rest.takeWhile char_digit) ++ rest.dropWhile char_digit = c :: rest := by
      rw [List.cons_append, hsplit]
    have hl := hlex _ _ hLR
    refine ⟨_, _, rfl, rfl, rfl, ?_, ?_, ?_⟩
    · rw [hl]; exact hLR
    · rw [hl]
      exact ⟨c :: rest.takeWhile char_digit, [], by simp, hD, Or.inl rfl⟩
    · intro w hw hnum
      rw [hl]
      obtain ⟨ds, fs, hds, hall, hcase⟩ := hnum
      rcases hcase with h | ⟨hfs, hfall, h⟩
      · subst h
        have := all_le_takeWhile char_digit w (c :: rest) hall hw
        rw [hwhole] at this
        exact this
      · subst h
        exfalso
        obtain ⟨tail, ht⟩ := hw
        rw [List.append_assoc, List.cons_append] at ht
        have hstop := all_then_stop char_digit '.' (by decide) ds (fs ++ tail) hall
        rw [ht, hwhole, hwhole2] at hstop
        obtain ⟨h1, h2⟩ := hstop
        apply hfrac
        rw [h2]
        cases fs with
        | nil => exact absurd rfl hfs
        | cons f fs =>
          exact ⟨rfl, hfall f (List.mem_cons_self _ _)⟩

/-- C23: at a letter or underscore (after any blanks) `scan_token` returns a token whose
lexeme is that character followed by the maximal run of characters of `[A-Za-z0-9_]`,
and whose kind is the kind that the keyword list gives this word: the keyword's own kind
when the word is one of the sixteen keywords, `TOKEN_IDENTIFIER` otherwise.  The cursor
is left at the first character that does not belong to the word. -/
theorem identifier_or_keyword (start ws : List Char) (c : Char) (rest : List Char)
    (line fuel : Nat) (hws : Blank ws) (hc : char_alpha c = true)
    (hf : (ws ++ c :: rest).length < fuel) :
    ∃ token s, scan_token fuel ⟨start, ws ++ c :: rest, line⟩ = Outcome.ok (token, s) ∧
      token.start = c :: rest ∧
      token.lexeme = c :: rest.takeWhile char_word ∧
      token.type = keyword_kind (c :: rest.takeWhile char_word) ∧
      s.current = rest.dropWhile char_word ∧
      char_word (s.current.headD '\x00') = false := by
  have hn : (c :: rest).length < fuel := by
    simp only [List.length_append] at hf
    omega
  rw [scan_token_blank start start ws (c :: rest) line fuel hws (char_alpha_stops c hc).1 hf,
    scan_identifier start c rest (line + newlines ws) fuel hc hn]
  refine ⟨_, _, rfl, rfl, ?_, rfl, rfl, dropWhile_head_not char_word (by decide) rest⟩
  simp only [Token.lexeme]
  have h := List.takeWhile_append_dropWhile char_word rest
  have h2 : c :: rest = (c :: rest.takeWhile char_word) ++ rest.dropWhile char_word := by
    rw [List.cons_append, h]
  rw [h2, List.take_left]

theorem blank_nil : Blank [] := fun _ h => absurd h (List.not_mem_nil _)

/-- A witness of `identifier_or_keyword`: the words of ` classy class`. -/
theorem identifier_or_keyword_witness :
    (∃ token s, scan_token 20 ⟨[], " classy class".toList, 1⟩ = Outcome.ok (token, s) ∧
      token.lexeme = "classy".toList ∧ token.type = TokenType.TOKEN_IDENTIFIER ∧
      s.current = " class".toList) ∧
    (∃ token s, scan_token 20 ⟨[], " class".toList, 1⟩ = Outcome.ok (token, s) ∧
      token.lexeme = "class".toList ∧ token.type = TokenType.TOKEN_CLASS ∧
      s.current = []) :=
  ⟨(let ⟨token, s, h, _, h1, h2, h3, _⟩ := identifier_or_keyword [] [' '] 'c'
      "lassy class".toList 1 20 (by unfold Blank; decide) (by decide) (by decide)
    ⟨token, s, h, h1, h2, h3⟩),
   (let ⟨token, s, h, _, h1, h2, h3, _⟩ := identifier_or_keyword [] [' '] 'c'
      "lass".toList 1 20 (by unfold Blank; decide) (by decide) (by decide)
    ⟨token, s, h, h1, h2, h3⟩)⟩

/-- A witness of `number_longest_match`: the text `12.5.3`. -/
theorem number_longest_match_witness :
    ∃ token s, scan_token 10 (init_scanner "12.5.3".toList) = Outcome.ok (token, s) ∧
      token.type = TokenType.TOKEN_NUMBER ∧
      token.lexeme ++ s.current = "12.5.3".toList ∧ NumberLexeme token.lexeme :=
  let ⟨token, s, h, h1, _, h2, h3, _⟩ := number_longest_match "12.5.3".toList [] '1'
    "2.5.3".toList 1 10 blank_nil (by decide) (by decide)
  ⟨token, s, h, h1, h2, h3⟩

/-! ## The scanner: string literals -/

theorem scan_quote (start rest : List Char) (line n : Nat) :
    scan_token (n + 1) ⟨start, '"' :: rest, line⟩
      = string (n + 1) ⟨'"' :: rest, rest, line⟩ := by
  unfold scan_token
  rw [skip_whitespace_stops start ('"' :: rest) line n rfl]
  rfl

theorem takeWhile_all (p : Char → Bool) (l : List Char) (h : ∀ x ∈ l, p x = true) :
    l.takeWhile p = l ∧ l.dropWhile p = [] :=
  ⟨List.takeWhile_eq_self_iff.2 h, List.dropWhile_eq_nil_iff.2 h⟩

theorem scan_closed_string (start body rest : List Char) (line n : Nat)
    (hbody : ∀ ch ∈ body, char_in_string ch = true)
    (hn : ('"' :: body ++ '"' :: rest).length < n) :
    scan_token n ⟨start, '"' :: body ++ '"' :: rest, line⟩
      = Outcome.ok
          (⟨TokenType.TOKEN_STRING, '"' :: body ++ '"' :: rest, body.length + 2,
              line + newlines body⟩,
            ⟨'"' :: body ++ '"' :: rest, rest, line + newlines body⟩) := by
  cases n with
  | zero => simp at hn
  | succ n =>
    rw [List.cons_append, scan_quote]
    unfold string
    rw [string_loop_eq _ _ _ _ (by simp at hn ⊢; omega)]
    obtain ⟨h1, h2⟩ := all_then_stop char_in_string '"' (by decide) body rest hbody
    rw [h1, h2]
    simp only [Outcome.bind]
    have hend : (⟨'"' :: (body ++ '"' :: rest), '"' :: rest, line + newlines body⟩ :
        Scanner).at_file_end = false := rfl
    rw [hend, if_neg (by decide)]
    simp only [Scanner.advance, Outcome.map, create_token, List.length_cons,
      List.length_append, Outcome.ok.injEq, Prod.mk.injEq, Token.mk.injEq, true_and, and_true]
    omega

theorem scan_open_string (start body : List Char) (line n : Nat)
    (hbody : ∀ ch ∈ body, char_in_string ch = true)
    (hn : ('"' :: body).length < n) :
    scan_token n ⟨start, '"' :: body, line⟩
      = Outcome.ok
          (⟨TokenType.TOKEN_ERROR, "Error: Unterminated string-literal!".toList,
              "Error: Unterminated string-literal!".toList.length, line + newlines body⟩,
            ⟨'"' :: body, [], line + newlines body⟩) := by
  cases n with
  | zero => simp at hn
  | succ n =>
    rw [scan_quote]
    unfold string
    rw [string_loop_eq _ _ _ _ (by simp at hn ⊢; omega)]
    obtain ⟨h1, h2⟩ := takeWhile_all char_in_string body hbody
    rw [h1, h2]
    rfl

theorem scan_at_end (start : List Char) (line n : Nat) :
    scan_token (n + 1) ⟨start, [], line⟩
      = Outcome.ok (⟨TokenType.TOKEN_EOF, [], 0, line⟩, ⟨[], [], line⟩) := by
  unfold scan_token
  rw [skip_whitespace_stops start [] line n (by decide)]
  rfl

/-- C25 (as the code has it): at a double quote (after any blanks) that is followed by a
text without double quote and then a double quote, `scan_token` returns a `TOKEN_STRING`
whose lexeme runs from the opening quote through that next double quote inclusive,
whatever stands before it; the newlines inside the literal are counted and the cursor is
left behind the closing quote. -/
theorem string_ends_at_next_quote (start ws body rest : List Char) (line fuel : Nat)
    (hws : Blank ws) (hbody : ∀ ch ∈ body, char_in_string ch = true)
    (hf : (ws ++ '"' :: (body ++ '"' :: rest)).length < fuel) :
    ∃ token s, scan_token fuel ⟨start, ws ++ '"' :: (body ++ '"' :: rest), line⟩
        = Outcome.ok (token, s) ∧
      token.type = TokenType.TOKEN_STRING ∧
      token.lexeme = '"' :: (body ++ ['"']) ∧
      token.line = line + newlines ws + newlines body ∧
      s.current = rest ∧ s.line = line + newlines ws + newlines body := by
  have hn : ('"' :: body ++ '"' :: rest).length < fuel := by
    simp only [List.length_append, List.length_cons] at hf ⊢
    omega
  rw [scan_token_blank start start ws ('"' :: (body ++ '"' :: rest)) line fuel hws rfl hf,
    ← List.cons_append,
    scan_closed_string start body rest (line + newlines ws) fuel hbody hn]
  refine ⟨_, _, rfl, rfl, ?_, rfl, rfl, rfl⟩
  simp only [Token.lexeme]
  have h : '"' :: body ++ '"' :: rest = ('"' :: (body ++ ['"'])) ++ rest := by simp
  have hl : body.length + 2 = ('"' :: (body ++ ['"'])).length := by simp
  rw [h, hl, List.take_left]

/-- A witness of `string_ends_at_next_quote`: a literal of two lines that holds a
backslash, followed by further text. -/
theorem string_ends_at_next_quote_witness :
    ∃ token s, scan_token 20 ⟨[], [' ', '"', 'a', '\\', '\n', 'b', '"', ' ', 'x'], 1⟩
        = Outcome.ok (token, s) ∧
      token.type = TokenType.TOKEN_STRING ∧
      token.lexeme = ['"', 'a', '\\', '\n', 'b', '"'] ∧ token.line = 2 ∧
      s.current = [' ', 'x'] :=
  let ⟨token, s, h, h1, h2, h3, h4, _⟩ := string_ends_at_next_quote [] [' ']
    ['a', '\\', '\n', 'b'] [' ', 'x'] 1 20 (by unfold Blank; decide) (by decide) (by decide)
  ⟨token, s, h, h1, h2, h3, h4⟩

/-- C25 (counterexample): in the text `"a\"b"` the double quote after the backslash ends
the literal: the string token is `"a\"`, and the rest is scanned as the identifier `b`
and an unterminated string. -/
theorem string_has_no_escape :
    (scan_tokens 10 10 (init_scanner ['"', 'a', '\\', '"', 'b', '"'])).map
        (fun tokens => tokens.map fun token => (token.type, token.lexeme))
      = Outcome.ok [(TokenType.TOKEN_STRING, ['"', 'a', '\\', '"']),
          (TokenType.TOKEN_IDENTIFIER, ['b']),
          (TokenType.TOKEN_ERROR, "Error: Unterminated string-literal!".toList),
          (TokenType.TOKEN_EOF, [])] := by
  decide

/-- C26: at a double quote (after any blanks) that no double quote follows before the
end of the input, `scan_token` returns a `TOKEN_ERROR` token whose text is the message
`Error: Unterminated string-literal!` and whose length is the length of that message;
the cursor is left at the end of the input, and the next call returns the end-of-input
token. -/
theorem unterminated_string_error (start ws body : List Char) (line fuel : Nat)
    (hws : Blank ws) (hbody : ∀ ch ∈ body, char_in_string ch = true)
    (hf : (ws ++ '"' :: body).length < fuel) :
    ∃ token s, scan_token fuel ⟨start, ws ++ '"' :: body, line⟩ = Outcome.ok (token, s) ∧
      token.type = TokenType.TOKEN_ERROR ∧
      token.start = "Error: Unterminated string-literal!".toList ∧
      token.length = token.start.length ∧
      token.lexeme = "Error: Unterminated string-literal!".toList ∧
      s.current = [] ∧
      ∃ last s2, scan_token fuel s = Outcome.ok (last, s2) ∧
        last.type = TokenType.TOKEN_EOF ∧ last.lexeme = [] := by
  have hn : ('"' :: body).length < fuel := by
    simp only [List.length_append, List.length_cons] at hf ⊢
    omega
  rw [scan_token_blank start start ws ('"' :: body) line fuel hws rfl hf,
    scan_open_string start body (line + newlines ws) fuel hbody hn]
  refine ⟨_, _, rfl, rfl, rfl, rfl, rfl, rfl, ?_⟩
  cases fuel with
  | zero => simp at hn
  | succ n =>
    rw [scan_at_end]
    exact ⟨_, _, rfl, rfl, rfl⟩

/-- A witness of `unterminated_string_error`: the text `"abc`. -/
theorem unterminated_string_error_witness :
    ∃ token s, scan_token 10 (init_scanner ['"', 'a', 'b', 'c']) = Outcome.ok (token, s) ∧
      token.type = TokenType.TOKEN_ERROR ∧
      token.lexeme = "Error: Unterminated string-literal!".toList ∧
      s.current = [] ∧
      ∃ last s2, scan_token 10 s = Outcome.ok (last, s2) ∧
        last.type = TokenType.TOKEN_EOF :=
  let ⟨token, s, h, h1, _, _, h2, h3, last, s2, h4, h5, _⟩ := unterminated_string_error
    ['"', 'a', 'b', 'c'] [] ['a', 'b', 'c'] 1 10 blank_nil (by decide) (by decide)
  ⟨token, s, h, h1, h2, h3, last, s2, h4, h5⟩

/-- C27 (as the code has it): the error token for an unterminated string literal carries
the line that the scanner has reached at the end of the input: the line of the opening
quote plus the number of newlines in the unterminated text.  That is the line of the
opening quote exactly when the unterminated text holds no newline. -/
theorem unterminated_string_line (start ws body : List Char) (line fuel : Nat)
    (hws : Blank ws) (hbody : ∀ ch ∈ body, char_in_string ch = true)
    (hf : (ws ++ '"' :: body).length < fuel) :
    ∃ token s, scan_token fuel ⟨start, ws ++ '"' :: body, line⟩ = Outcome.ok (token, s) ∧
      token.type = TokenType.TOKEN_ERROR ∧
      token.line = (line + newlines ws) + newlines body ∧
      (token.line = line + newlines ws ↔ '\n' ∉ body) := by
  have hn : ('"' :: body).length < fuel := by
    simp only [List.length_append, List.length_cons] at hf ⊢
    omega
  rw [scan_token_blank start start ws ('"' :: body) line fuel hws rfl hf,
    scan_open_string start body (line + newlines ws) fuel hbody hn]
  refine ⟨_, _, rfl, rfl, rfl, ?_⟩
  simp only [newlines]
  rw [← List.count_eq_zero]
  omega

/-- A witness of `unterminated_string_line`: for the text `"abc` the error token carries
line 1. -/
theorem unterminated_string_line_witness :
    ∃ token s, scan_token 10 (init_scanner ['"', 'a', 'b', 'c']) = Outcome.ok (token, s) ∧
      token.type = TokenType.TOKEN_ERROR ∧ token.line = 1 :=
  let ⟨token, s, h, h1, h2, _⟩ := unterminated_string_line
    ['"', 'a', 'b', 'c'] [] ['a', 'b', 'c'] 1 10 blank_nil (by decide) (by decide)
  ⟨token, s, h, h1, h2⟩

/-- C27 (counterexample): the unterminated literal of `"abc` newline `def` starts on
line 1 and its error token carries line 2. -/
theorem unterminated_string_reports_last_line :
    (scan_token 10 (init_scanner ['"', 'a', 'b', 'c', '\n', 'd', 'e', 'f'])).map
        (fun r => (r.1.type, r.1.line))
      = Outcome.ok (TokenType.TOKEN_ERROR, 2) := by
  decide

/-! ## The scanner: operators of one or two characters -/

theorem match_char_eq (start rest : List Char) (line : Nat) :
    Scanner.match_char ⟨start, rest, line⟩ '='
      = if rest.headD '\x00' = '=' then (true, ⟨start, rest.drop 1, line⟩)
        else (false, ⟨start, rest, line⟩) := by
  cases rest with
  | nil => rfl
  | cons a t =>
    simp only [Scanner.match_char, Scanner.at_file_end, Scanner.peek, List.headD_cons,
      List.drop_one, List.tail_cons]
    by_cases h : a = '='
    · subst h; rfl
    · simp [h]

theorem scan_operator (start rest : List Char) (c : Char) (one two : TokenType)
    (line n : Nat)
    (hc : (c, one, two) ∈ [('!', TokenType.TOKEN_EXCLAMATION, TokenType.TOKEN_NOTEQUAL),
      ('=', TokenType.TOKEN_EQUAL, TokenType.TOKEN_EXACTEQUAL),
      ('<', TokenType.TOKEN_LESS, TokenType.TOKEN_LESSEQUAL),
      ('>', TokenType.TOKEN_GREATER, TokenType.TOKEN_GREATEREQUAL)]) :
    stops_skipping c = true ∧
    scan_token (n + 1) ⟨start, c :: rest, line⟩
      = Outcome.ok
          (create_token (Scanner.match_char ⟨c :: rest, rest, line⟩ '=').2
            (if (Scanner.match_char ⟨c :: rest, rest, line⟩ '=').1 then two else one),
          (Scanner.match_char ⟨c :: rest, rest, line⟩ '=').2) := by
  simp only [List.mem_cons, Prod.mk.injEq, List.mem_singleton, List.not_mem_nil, or_false]
    at hc
  rcases hc with ⟨h1, h2, h3⟩ | ⟨h1, h2, h3⟩ | ⟨h1, h2, h3⟩ | ⟨h1, h2, h3⟩ <;>
  · subst h1 h2 h3
    refine ⟨rfl, ?_⟩
    unfold scan_token
    first
      | rw [skip_whitespace_stops start ('!' :: rest) line n rfl]
      | rw [skip_whitespace_stops start ('=' :: rest) line n rfl]
      | rw [skip_whitespace_stops start ('<' :: rest) line n rfl]
      | rw [skip_whitespace_stops start ('>' :: rest) line n rfl]
    rfl

/-- C28: at one of the characters `!`, `=`, `<`, `>` (after any blanks) `scan_token`
looks at the one character that follows: if it is `=`, the token is the two-character
one, of length 2, and the cursor is left behind the `=`; if it is any other character or
the end of the input, the token is the one-character one, of length 1, and the cursor is
left at that following character. -/
theorem operator_lookahead (start ws rest : List Char) (c : Char) (one two : TokenType)
    (line fuel : Nat) (hws : Blank ws)
    (hc : (c, one, two) ∈ [('!', TokenType.TOKEN_EXCLAMATION, TokenType.TOKEN_NOTEQUAL),
      ('=', TokenType.TOKEN_EQUAL, TokenType.TOKEN_EXACTEQUAL),
      ('<', TokenType.TOKEN_LESS, TokenType.TOKEN_LESSEQUAL),
      ('>', TokenType.TOKEN_GREATER, TokenType.TOKEN_GREATEREQUAL)])
    (hf : (ws ++ c :: rest).length < fuel) :
    scan_token fuel ⟨start, ws ++ c :: rest, line⟩
      = Outcome.ok
          (if rest.headD '\x00' = '=' then
            (⟨two, c :: rest, 2, line + newlines ws⟩,
              ⟨c :: rest, rest.drop 1, line + newlines ws⟩)
          else
            (⟨one, c :: rest, 1, line + newlines ws⟩,
              ⟨c :: rest, rest, line + newlines ws⟩)) := by
  cases fuel with
  | zero => simp at hf
  | succ n =>
    obtain ⟨hstop, hscan⟩ := scan_operator start rest c one two (line + newlines ws) n hc
    rw [scan_token_blank start start ws (c :: rest) line (n + 1) hws hstop hf, hscan,
      match_char_eq]
    by_cases h : rest.headD '\x00' = '='
    · rw [if_pos h, if_pos h]
      cases rest with
      | nil => exact absurd h (by decide)
      | cons a t => simp [create_token]; omega
    · rw [if_neg h, if_neg h]
      simp [create_token]

/-- A witness of `operator_lookahead`: `<=` before `1`, and `<` before `1`. -/
theorem operator_lookahead_witness :
    scan_token 10 (init_scanner ['<', '=', '1'])
      = Outcome.ok (⟨TokenType.TOKEN_LESSEQUAL, ['<', '=', '1'], 2, 1⟩,
          ⟨['<', '=', '1'], ['1'], 1⟩) ∧
    scan_token 10 (init_scanner ['<', '1'])
      = Outcome.ok (⟨TokenType.TOKEN_LESS, ['<', '1'], 1, 1⟩, ⟨['<', '1'], ['1'], 1⟩) :=
  ⟨operator_lookahead ['<', '=', '1'] [] ['=', '1'] '<' TokenType.TOKEN_LESS
      TokenType.TOKEN_LESSEQUAL 1 10 blank_nil (by decide) (by decide),
    operator_lookahead ['<', '1'] [] ['1'] '<' TokenType.TOKEN_LESS
      TokenType.TOKEN_LESSEQUAL 1 10 blank_nil (by decide) (by decide)⟩

/-! ## The scanner: every call returns a token -/

theorem ite_elim {α : Type} {c : Prop} [Decidable c] {a b : α} (P : α → Prop)
    (ha : P a) (hb : P b) : P (if c then a else b) := by
  split
  · exact ha
  · exact hb

theorem keyword_kind_proper (w : List Char) :
    keyword_kind w ≠ TokenType.TOKEN_ERROR ∧ keyword_kind w ≠ TokenType.TOKEN_EOF := by
  unfold keyword_kind
  repeat
    first
      | exact ⟨by decide, by decide⟩
      | apply ite_elim (fun t => t ≠ TokenType.TOKEN_ERROR ∧ t ≠ TokenType.TOKEN_EOF)

theorem scan_token_after (s : Scanner) (start rest : List Char) (line n : Nat)
    (hskip : skip_whitespace (n + 1) s = Outcome.ok ⟨start, rest, line⟩)
    (hstop : stops_skipping (rest.headD '\x00') = true) :
    scan_token (n + 1) s = scan_token (n + 1) ⟨start, rest, line⟩ := by
  unfold scan_token
  rw [hskip, skip_whitespace_stops start rest line n hstop]

theorem WellScanned.skip {text : List Char} {token : Token} {s : Scanner}
    (h : WellScanned text token s) (skipped : List Char) :
    WellScanned (skipped ++ text) token s := by
  obtain ⟨⟨consumed, h1⟩, h2, h3, h4, h5⟩ := h
  refine ⟨⟨skipped ++ consumed, by rw [h1, List.append_assoc]⟩, ?_, h3, h4, ?_⟩
  · intro h
    have := h2 h
    simp only [List.length_append]
    omega
  · intro h
    obtain ⟨h6, h7, sk, h8⟩ := h5 h
    exact ⟨h6, h7, skipped ++ sk, by rw [h8, List.append_assoc]⟩

theorem WellScanned.create (c : Char) (mid R : List Char) (line : Nat) (type : TokenType)
    (h1 : type ≠ TokenType.TOKEN_ERROR) (h2 : type ≠ TokenType.TOKEN_EOF) :
    WellScanned (c :: (mid ++ R)) (create_token ⟨c :: (mid ++ R), R, line⟩ type)
      ⟨c :: (mid ++ R), R, line⟩ := by
  have hl : (c :: (mid ++ R)).length - R.length = (c :: mid).length := by
    simp only [List.length_cons, List.length_append]
    omega
  have hlex : Token.lexeme (create_token ⟨c :: (mid ++ R), R, line⟩ type) = c :: mid := by
    simp only [Token.lexeme, create_token]
    rw [hl, ← List.cons_append, List.take_left]
  refine ⟨⟨c :: mid, rfl⟩, ?_, fun h => absurd h h2, fun h => absurd h h1, ?_⟩
  · intro _
    simp only [List.length_cons, List.length_append]
    omega
  · intro _
    rw [hlex]
    exact ⟨rfl, rfl, [], rfl⟩

theorem WellScanned.error (c : Char) (mid R message : List Char) (s : Scanner) (line : Nat) :
    WellScanned (c :: (mid ++ R)) (error_token s message) ⟨c :: (mid ++ R), R, line⟩ := by
  refine ⟨⟨c :: mid, rfl⟩, ?_, fun h => absurd h (show TokenType.TOKEN_ERROR ≠ TokenType.TOKEN_EOF by decide), ?_,
    fun h => absurd rfl h⟩
  · intro _
    simp only [List.length_cons, List.length_append]
    omega
  · intro _
    simp only [Token.lexeme, error_token, List.take_length]

theorem WellScanned.slice (c : Char) (r R : List Char) (line : Nat) (type : TokenType)
    (hR : R <:+ r) (h1 : type ≠ TokenType.TOKEN_ERROR) (h2 : type ≠ TokenType.TOKEN_EOF) :
    WellScanned (c :: r) (create_token ⟨c :: r, R, line⟩ type) ⟨c :: r, R, line⟩ := by
  obtain ⟨mid, h⟩ := hR
  subst h
  exact WellScanned.create c mid R line type h1 h2

theorem WellScanned.message (c : Char) (r R message : List Char) (s : Scanner) (line : Nat)
    (hR : R <:+ r) :
    WellScanned (c :: r) (error_token s message) ⟨c :: r, R, line⟩ := by
  obtain ⟨mid, h⟩ := hR
  subst h
  exact WellScanned.error c mid R message s line

theorem scanned_simple (c : Char) (r : List Char) (line : Nat) (type : TokenType)
    (h1 : type ≠ TokenType.TOKEN_ERROR) (h2 : type ≠ TokenType.TOKEN_EOF) :
    ∃ token s, Outcome.ok (create_token ⟨c :: r, r, line⟩ type, (⟨c :: r, r, line⟩ : Scanner))
        = Outcome.ok (token, s) ∧ WellScanned (c :: r) token s :=
  ⟨_, _, rfl, WellScanned.slice c r r line type (List.suffix_refl r) h1 h2⟩

theorem scanned_operator (c : Char) (r : List Char) (line : Nat) (one two : TokenType)
    (h1 : one ≠ TokenType.TOKEN_ERROR) (h2 : one ≠ TokenType.TOKEN_EOF)
    (h3 : two ≠ TokenType.TOKEN_ERROR) (h4 : two ≠ TokenType.TOKEN_EOF) :
    ∃ token s,
      Outcome.ok (create_token (Scanner.match_char ⟨c :: r, r, line⟩ '=').2
          (if (Scanner.match_char ⟨c :: r, r, line⟩ '=').1 then two else one),
        (Scanner.match_char ⟨c :: r, r, line⟩ '=').2)
        = Outcome.ok (token, s) ∧ WellScanned (c :: r) token s := by
  rw [match_char_eq]
  by_cases h : r.headD '\x00' = '='
  · rw [if_pos h]
    exact ⟨_, _, rfl, WellScanned.slice c r (r.drop 1) line two (List.drop_suffix 1 r) h3 h4⟩
  · rw [if_neg h]
    exact ⟨_, _, rfl, WellScanned.slice c r r line one (List.suffix_refl r) h1 h2⟩

theorem scanned_string (c : Char) (r : List Char) (line n : Nat) (hn : r.length < n) :
    ∃ token s, string n ⟨c :: r, r, line⟩ = Outcome.ok (token, s) ∧
      WellScanned (c :: r) token s := by
  unfold string
  rw [string_loop_eq _ _ _ _ hn]
  simp only [Outcome.bind]
  have hsuf : r.dropWhile char_in_string <:+ r := List.dropWhile_suffix _
  split
  · exact ⟨_, _, rfl, WellScanned.message c r _ _ _ _ hsuf⟩
  · rename_i hend
    cases hd : r.dropWhile char_in_string with
    | nil => rw [hd] at hend; exact absurd rfl hend
    | cons a R =>
      rw [hd] at hsuf
      simp only [Scanner.advance, Outcome.map]
      exact ⟨_, _, rfl, WellScanned.slice c r R _ TokenType.TOKEN_STRING
        ((List.suffix_cons a R).trans hsuf) (by decide) (by decide)⟩

theorem scanned_identifier (start : List Char) (c : Char) (r : List Char) (line n : Nat)
    (hc : char_alpha c = true) (hn : (c :: r).length < n) :
    ∃ token s, scan_token n ⟨start, c :: r, line⟩ = Outcome.ok (token, s) ∧
      WellScanned (c :: r) token s := by
  rw [scan_identifier start c r line n hc hn]
  have h := WellScanned.slice c r (r.dropWhile char_word) line
    (keyword_kind (c :: r.takeWhile char_word)) (List.dropWhile_suffix _)
    (keyword_kind_proper _).1 (keyword_kind_proper _).2
  have hl : (c :: r).length - (r.dropWhile char_word).length
      = (c :: r.takeWhile char_word).length := by
    have := congrArg List.length (List.takeWhile_append_dropWhile char_word r)
    simp only [List.length_append] at this
    simp only [List.length_cons]
    omega
  simp only [create_token, hl] at h
  exact ⟨_, _, rfl, h⟩

theorem scanned_number (start : List Char) (c : Char) (r : List Char) (line n : Nat)
    (hc : char_digit c = true) (hn : (c :: r).length < n) :
    ∃ token s, scan_token n ⟨start, c :: r, line⟩ = Outcome.ok (token, s) ∧
      WellScanned (c :: r) token s := by
  rw [scan_number start c r line n hc hn]
  split
  · exact ⟨_, _, rfl, WellScanned.slice c r _ line TokenType.TOKEN_NUMBER
      ((List.dropWhile_suffix _).trans ((List.drop_suffix 1 _).trans (List.dropWhile_suffix _)))
      (by decide) (by decide)⟩
  · exact ⟨_, _, rfl, WellScanned.slice c r _ line TokenType.TOKEN_NUMBER
      (List.dropWhile_suffix _) (by decide) (by decide)⟩

theorem scanned_other (s : Scanner) (start : List Char) (c : Char) (r : List Char)
    (line n : Nat) (hskip : skip_whitespace (n + 1) s = Outcome.ok ⟨start, c :: r, line⟩)
    (h0 : c ≠ '\x00') (halpha : char_alpha c = false) (hdigit : char_digit c = false)
    (hn : r.length < n + 1) :
    ∃ token s2, scan_token (n + 1) s = Outcome.ok (token, s2) ∧
      WellScanned (c :: r) token s2 := by
  unfold scan_token
  rw [hskip]
  simp only [Outcome.bind, Scanner.at_file_end, Scanner.peek, List.headD_cons,
    Scanner.advance, halpha, hdigit, beq_iff_eq, h0, if_false, Bool.false_eq_true]
  repeat
    first
      | exact scanned_simple c r line _ (by decide) (by decide)
      | exact scanned_operator c r line _ _ (by decide) (by decide) (by decide) (by decide)
      | exact scanned_string c r line (n + 1) hn
      | exact ⟨_, _, rfl, WellScanned.message c r r _ _ line (List.suffix_refl r)⟩
      | apply ite_elim (fun x => ∃ token s2, x = Outcome.ok (token, s2) ∧
          WellScanned (c :: r) token s2)

theorem scan_token_defined (s : Scanner) (fuel : Nat) (hf : s.current.length < fuel) :
    ∃ token s2, scan_token fuel s = Outcome.ok (token, s2) ∧
      WellScanned s.current token s2 := by
  obtain ⟨start, text, line⟩ := s
  cases fuel with
  | zero => simp at hf
  | succ n =>
    obtain ⟨rest, line2, hskip, consumed, htext⟩ := skip_whitespace_total start text line (n + 1) hf
    simp only at hf ⊢
    subst htext
    cases rest with
    | nil =>
      refine ⟨create_token ⟨[], [], line2⟩ TokenType.TOKEN_EOF, ⟨[], [], line2⟩, ?_, ?_⟩
      · unfold scan_token
        rw [hskip]
        rfl
      · exact ⟨⟨consumed ++ [], by simp⟩, fun h => absurd rfl h, fun _ => rfl,
          fun h => absurd h (show TokenType.TOKEN_EOF ≠ TokenType.TOKEN_ERROR by decide),
          fun _ => ⟨rfl, rfl, consumed ++ [], by simp [create_token]⟩⟩
    | cons c r =>
      have hn : (c :: r).length < n + 1 := by
        simp only [List.length_append] at hf
        omega
      by_cases h0 : c = '\x00'
      · subst h0
        refine ⟨create_token ⟨'\x00' :: r, '\x00' :: r, line2⟩ TokenType.TOKEN_EOF,
          ⟨'\x00' :: r, '\x00' :: r, line2⟩, ?_, ?_⟩
        · unfold scan_token
          rw [hskip]
          rfl
        · refine ⟨⟨consumed, rfl⟩, fun h => absurd rfl h, fun _ => ?_,
            fun h => absurd h (show TokenType.TOKEN_EOF ≠ TokenType.TOKEN_ERROR by decide),
            fun _ => ⟨rfl, ?_, consumed, rfl⟩⟩
          · simp [Token.lexeme, create_token]
          · simp [Token.lexeme, create_token]
      · by_cases halpha : char_alpha c = true
        · rw [scan_token_after _ start (c :: r) line2 n hskip (char_alpha_stops c halpha).1]
          obtain ⟨token, s2, h1, h2⟩ := scanned_identifier start c r line2 (n + 1) halpha hn
          exact ⟨token, s2, h1, h2.skip consumed⟩
        · by_cases hdigit : char_digit c = true
          · rw [scan_token_after _ start (c :: r) line2 n hskip (char_digit_stops c hdigit).1]
            obtain ⟨token, s2, h1, h2⟩ := scanned_number start c r line2 (n + 1) hdigit hn
            exact ⟨token, s2, h1, h2.skip consumed⟩
          · obtain ⟨token, s2, h1, h2⟩ := scanned_other _ start c r line2 n hskip h0
              (by simpa using halpha) (by simpa using hdigit)
              (by simp only [List.length_cons] at hn; omega)
            exact ⟨token, s2, h1, h2.skip consumed⟩

theorem scan_tokens_defined : ∀ (count : Nat) (s : Scanner) (fuel : Nat),
    s.current.length < count → s.current.length < fuel →
    ∃ front last, scan_tokens count fuel s = Outcome.ok (front ++ [last]) ∧
      front.length ≤ s.current.length ∧
      (∀ token ∈ front, token.type ≠ TokenType.TOKEN_EOF) ∧
      last.type = TokenType.TOKEN_EOF ∧ last.lexeme = [] := by
  intro count
  induction count with
  | zero => intro s fuel h; simp at h
  | succ count ih =>
    intro s fuel hc hf
    obtain ⟨token, s2, hscan, hwell⟩ := scan_token_defined s fuel hf
    unfold scan_tokens
    rw [hscan]
    simp only [Outcome.bind]
    by_cases heof : token.type = TokenType.TOKEN_EOF
    · rw [if_pos heof]
      exact ⟨[], token, rfl, Nat.zero_le _, fun _ h => absurd h (List.not_mem_nil _), heof,
        hwell.2.2.1 heof⟩
    · rw [if_neg heof]
      have hlt := hwell.2.1 heof
      obtain ⟨front, last, h1, h2, h3, h4, h5⟩ := ih s2 fuel (by omega) (by omega)
      rw [h1]
      refine ⟨token :: front, last, rfl, ?_, ?_, h4, h5⟩
      · simp only [List.length_cons]
        omega
      · intro t ht
        rcases List.mem_cons.1 ht with h | h
        · rw [h]; exact heof
        · exact h3 t h

theorem scan_unknown (start : List Char) (c : Char) (r : List Char) (line n : Nat)
    (hstop : stops_skipping c = true) (h0 : c ≠ '\x00') (hc : starts_token c = false) :
    scan_token (n + 1) ⟨start, c :: r, line⟩
      = Outcome.ok (⟨TokenType.TOKEN_ERROR, "\nUnknown character found.".toList,
          "\nUnknown character found.".toList.length, line⟩, ⟨c :: r, r, line⟩) := by
  simp only [starts_token, Bool.or_eq_false_iff, List.contains_cons, List.contains_nil,
    Bool.or_false, beq_eq_false_iff_ne, ne_eq] at hc
  obtain ⟨⟨halpha, hdigit⟩, h1, h2, h3, h4, h5, h6, h7, h8, h9, h10, h11, h12, h13, h14, h15,
    h16⟩ := hc
  unfold scan_token
  rw [skip_whitespace_stops start (c :: r) line n hstop]
  simp only [Outcome.bind, Scanner.at_file_end, Scanner.peek, List.headD_cons,
    Scanner.advance, halpha, hdigit, beq_iff_eq, h0, if_false, Bool.false_eq_true,
    h1, h2, h3, h4, h5, h6, h7, h8, h9, h10, h11, h12, h13, h14, h15, h16]
  rfl

/-- C29: `scan_token` is total and the token stream of every source is finite.  With the
cursor anywhere in a text and enough fuel for its length, the call returns a token and
the scanner afterwards, and the two are as `WellScanned` says: the cursor has moved
forward inside the text, by at least one character unless the token is the end-of-input
token, whose lexeme is empty; an error token holds a whole message and any other token is
a slice of the text.  A character that starts no token gives the error token `Unknown
character found.` and is consumed.  Repeated calls from `init_scanner source` return the
end-of-input token after at most `source.length` other tokens. -/
theorem token_stream_finite :
    (∀ (s : Scanner) (fuel : Nat), s.current.length < fuel →
      ∃ token s2, scan_token fuel s = Outcome.ok (token, s2) ∧
        WellScanned s.current token s2) ∧
    (∀ (start : List Char) (c : Char) (r : List Char) (line fuel : Nat),
      stops_skipping c = true → c ≠ '\x00' → starts_token c = false →
      scan_token (fuel + 1) ⟨start, c :: r, line⟩
        = Outcome.ok (⟨TokenType.TOKEN_ERROR, "\nUnknown character found.".toList,
            "\nUnknown character found.".toList.length, line⟩, ⟨c :: r, r, line⟩)) ∧
    (∀ source : List Char, ∃ front last,
      scan_tokens (source.length + 1) (source.length + 1) (init_scanner source)
        = Outcome.ok (front ++ [last]) ∧
      front.length ≤ source.length ∧
      (∀ token ∈ front, token.type ≠ TokenType.TOKEN_EOF) ∧
      last.type = TokenType.TOKEN_EOF ∧ last.lexeme = []) :=
  ⟨scan_token_defined, scan_unknown,
    fun source => scan_tokens_defined (source.length + 1) (init_scanner source)
      (source.length + 1) (Nat.lt_succ_self _) (Nat.lt_succ_self _)⟩

/-- A witness of `token_stream_finite`: the text `1 + x` from its start, and the
character `#`, which starts no token. -/
theorem token_stream_finite_witness :
    (∃ token s2, scan_token 6 (init_scanner "1 + x".toList) = Outcome.ok (token, s2) ∧
      WellScanned "1 + x".toList token s2) ∧
    scan_token 1 ⟨[], ['#', '1'], 1⟩
      = Outcome.ok (⟨TokenType.TOKEN_ERROR, "\nUnknown character found.".toList, 25, 1⟩,
          ⟨['#', '1'], ['1'], 1⟩) :=
  ⟨token_stream_finite.1 (init_scanner "1 + x".toList) 6 (by decide),
    token_stream_finite.2.1 [] '#' ['1'] 1 0 (by decide) (by decide) (by decide)⟩

/-! ## The scanner: comments -/

theorem scan_number_token (start : List Char) (c : Char) (rest : List Char) (line n : Nat)
    (hc : char_digit c = true) (hn : (c :: rest).length < n) :
    ∃ R, scan_token n ⟨start, c :: rest, line⟩
      = Outcome.ok (create_token ⟨c :: rest, R, line⟩ TokenType.TOKEN_NUMBER,
          ⟨c :: rest, R, line⟩) := by
  rw [scan_number start c rest line n hc hn]
  split
  · exact ⟨_, rfl⟩
  · exact ⟨_, rfl⟩

theorem scan_comment_newline (start comment rest : List Char) (line fuel : Nat)
    (hcomment : ∀ ch ∈ comment, char_in_comment ch = true)
    (hf : ('/' :: '/' :: (comment ++ '\n' :: rest)).length < fuel) :
    scan_token fuel ⟨start, '/' :: '/' :: (comment ++ '\n' :: rest), line⟩
      = Outcome.ok (⟨TokenType.TOKEN_ERROR, "\nUnknown character found.".toList,
          "\nUnknown character found.".toList.length, line⟩,
          ⟨'\n' :: rest, rest, line⟩) := by
  cases fuel with
  | zero => simp at hf
  | succ n =>
    have hw := advance_while_peek char_in_comment (by decide) start line
      ('/' :: '/' :: (comment ++ '\n' :: rest)) (n + 1) hf
    have hall : ∀ ch ∈ '/' :: '/' :: comment, char_in_comment ch = true := by
      intro ch hch
      rcases List.mem_cons.1 hch with h | h
      · rw [h]; decide
      · rcases List.mem_cons.1 h with h | h
        · rw [h]; decide
        · exact hcomment ch h
    have hdrop := (all_then_stop char_in_comment '\n' (by decide) ('/' :: '/' :: comment) rest
      hall).2
    simp only [List.cons_append] at hdrop
    rw [hdrop] at hw
    have hskip : skip_whitespace (n + 1)
        ⟨start, '/' :: '/' :: (comment ++ '\n' :: rest), line⟩
        = Outcome.ok ⟨start, '\n' :: rest, line⟩ := by
      rw [skip_whitespace]
      exact hw
    unfold scan_token
    rw [hskip]
    rfl

/-- C21 (the code departs from it): the newline that ends a `//` comment is not skipped.
With the cursor at a comment that a newline ends, `skip_whitespace` stops at that newline
(the case for `/` falls through to `default: return`), and `scan_token` returns the error
token `Unknown character found.` for the newline, not the token formed by the text that
follows; the cursor is left behind the newline. -/
theorem comment_newline_is_scanned (start comment rest : List Char) (line fuel : Nat)
    (hcomment : ∀ ch ∈ comment, char_in_comment ch = true)
    (hf : ('/' :: '/' :: (comment ++ '\n' :: rest)).length < fuel) :
    ∃ token s, scan_token fuel ⟨start, '/' :: '/' :: (comment ++ '\n' :: rest), line⟩
        = Outcome.ok (token, s) ∧
      token.type = TokenType.TOKEN_ERROR ∧
      token.lexeme = "\nUnknown character found.".toList ∧
      s.start = '\n' :: rest ∧ s.current = rest :=
  ⟨_, _, scan_comment_newline start comment rest line fuel hcomment hf, rfl, rfl, rfl, rfl⟩

/-- A witness of `comment_newline_is_scanned`: on the text `// c` newline `1` the first
token is the error token for the newline, not the number `1`. -/
theorem comment_newline_is_scanned_witness :
    ∃ token s, scan_token 10 (init_scanner ['/', '/', ' ', 'c', '\n', '1'])
        = Outcome.ok (token, s) ∧
      token.type = TokenType.TOKEN_ERROR ∧ s.current = ['1'] :=
  let ⟨token, s, h, h1, _, _, h2⟩ := comment_newline_is_scanned
    ['/', '/', ' ', 'c', '\n', '1'] [' ', 'c'] ['1'] 1 10 (by decide) (by decide)
  ⟨token, s, h, h1, h2⟩

/-- C22 (the code departs from it): the newline that ends a `//` comment is not counted.
With the cursor at a comment that a newline ends and a number on the next line, the call
after the one that returns the newline as an error token returns the number with the line
that the scanner had at the comment, although one newline lies before it. -/
theorem comment_newline_is_not_counted (start comment : List Char) (c : Char)
    (rest : List Char) (line fuel : Nat)
    (hcomment : ∀ ch ∈ comment, char_in_comment ch = true) (hc : char_digit c = true)
    (hf : ('/' :: '/' :: (comment ++ '\n' :: c :: rest)).length < fuel) :
    ∃ first s1 second s2,
      scan_token fuel ⟨start, '/' :: '/' :: (comment ++ '\n' :: c :: rest), line⟩
        = Outcome.ok (first, s1) ∧
      scan_token fuel s1 = Outcome.ok (second, s2) ∧
      second.type = TokenType.TOKEN_NUMBER ∧ second.start = c :: rest ∧
      newlines ('/' :: '/' :: (comment ++ ['\n'])) = 1 ∧
      first.line = line ∧ second.line = line := by
  have hn : (c :: rest).length < fuel := by
    simp only [List.length_cons, List.length_append] at hf ⊢
    omega
  obtain ⟨R, hnum⟩ := scan_number_token ('\n' :: c :: rest) c rest line fuel hc hn
  have h0 : comment.count '\n' = 0 := by
    rw [List.count_eq_zero]
    intro h
    exact absurd (hcomment '\n' h) (by decide)
  refine ⟨_, _, _, _, scan_comment_newline start comment (c :: rest) line fuel hcomment hf,
    hnum, rfl, rfl, ?_, rfl, rfl⟩
  simp only [newlines, List.count_cons, List.count_append, List.count_nil, h0]
  decide

/-- A witness of `comment_newline_is_not_counted`: on the text `// c` newline `1` the
number `1`, which stands on line 2, is returned with line 1. -/
theorem comment_newline_is_not_counted_witness :
    ∃ first s1 second s2,
      scan_token 10 (init_scanner ['/', '/', ' ', 'c', '\n', '1']) = Outcome.ok (first, s1) ∧
      scan_token 10 s1 = Outcome.ok (second, s2) ∧
      second.type = TokenType.TOKEN_NUMBER ∧ second.start = ['1'] ∧ second.line = 1 :=
  let ⟨first, s1, second, s2, h1, h2, h3, h4, _, _, h5⟩ := comment_newline_is_not_counted
    ['/', '/', ' ', 'c', '\n', '1'] [' ', 'c'] '1' [] 1 10 (by decide) (by decide) (by decide)
  ⟨first, s1, second, s2, h1, h2, h3, h4, h5⟩

/-! ## Scanning and compiling depend on the source alone -/

theorem Outcome.bind_map {α β γ : Type} (x : Outcome α) (f : α → β) (g : β → Outcome γ) :
    (x.map f).bind g = x.bind fun a => g (f a) := by
  cases x <;> rfl

theorem error_at_previous {Value : Type} (c : Compiler Value) (token : Token)
    (message : List Char) (previous : Token) :
    error_at { c with parser := { c.parser with previous := previous } } token message
      = { error_at c token message with
          parser := { (error_at c token message).parser with previous := previous } } := by
  unfold error_at
  by_cases h : c.parser.panicking = true
  · simp only [h, if_true]
  · simp only [h, if_false]
    rfl

theorem advance_loop_current {Value : Type} (next_token : Scanner → Token × Scanner)
    (fuel : Nat) (c : Compiler Value) (current : Token) :
    advance_loop next_token fuel { c with parser := { c.parser with current := current } }
      = advance_loop next_token fuel c := by
  cases fuel with
  | zero => rfl
  | succ n =>
    rw [advance_loop, advance_loop]

theorem advance_loop_previous {Value : Type} (next_token : Scanner → Token × Scanner)
    (previous : Token) : ∀ (fuel : Nat) (c : Compiler Value),
    advance_loop next_token fuel { c with parser := { c.parser with previous := previous } }
      = (advance_loop next_token fuel c).map fun x =>
          { x with parser := { x.parser with previous := previous } } := by
  intro fuel
  induction fuel with
  | zero => intro c; rfl
  | succ n ih =>
    intro c
    rw [advance_loop, advance_loop]
    simp only
    by_cases h : (next_token c.scanner).1.type ≠ TokenType.TOKEN_ERROR
    · rw [if_pos h, if_pos h]
      rfl
    · rw [if_neg h, if_neg h]
      unfold error_current_token
      simp only
      rw [← ih]
      congr 1
      exact error_at_previous
        ⟨(next_token c.scanner).2, ⟨(next_token c.scanner).1, c.parser.previous,
          c.parser.hiterror, c.parser.panicking⟩, c.compiling_nugget, c.chunks, c.stderr⟩
        _ _ previous

theorem parse_precedence_previous {Value : Type} (next_token : Scanner → Token × Scanner)
    (number_value : List Char → Value) (fuel threshold : Nat) (c : Compiler Value)
    (previous : Token) :
    parse_precedence next_token number_value fuel threshold
        { c with parser := { c.parser with previous := previous } }
      = parse_precedence next_token number_value fuel threshold c := by
  cases fuel with
  | zero => rw [parse_precedence, parse_precedence]
  | succ n =>
    rw [parse_precedence, parse_precedence]
    rfl

theorem compile_from_start {Value : Type} (next_token : Scanner → Token × Scanner)
    (number_value : List Char → Value) (fuel depth nugget : Nat) (source : List Char)
    (scanner : Scanner) (parser : Parser) (compiling_nugget : Option Nat)
    (chunks : Nat → Option (Nugget Value)) (stderr : List Diagnostic) :
    compile next_token (expression next_token number_value depth) fuel nugget source
        ⟨scanner, parser, compiling_nugget, chunks, stderr⟩
      = (advance_loop next_token fuel
          ⟨init_scanner source,
            ⟨⟨TokenType.TOKEN_EOF, [], 0, 0⟩, ⟨TokenType.TOKEN_EOF, [], 0, 0⟩, false, false⟩,
            compiling_nugget, chunks, stderr⟩).bind fun c =>
        (expression next_token number_value depth c).bind fun c =>
        (consume next_token fuel TokenType.TOKEN_EOF "Expected end of expression!".toList
          c).map fun c => (c, none) := by
  have h1 := advance_loop_current next_token fuel
    (⟨init_scanner source,
      ⟨⟨TokenType.TOKEN_EOF, [], 0, 0⟩, parser.current, false, false⟩,
      compiling_nugget, chunks, stderr⟩ : Compiler Value) parser.current
  have h2 := advance_loop_previous next_token parser.current fuel
    (⟨init_scanner source,
      ⟨⟨TokenType.TOKEN_EOF, [], 0, 0⟩, ⟨TokenType.TOKEN_EOF, [], 0, 0⟩, false, false⟩,
      compiling_nugget, chunks, stderr⟩ : Compiler Value)
  have h3 := h1.trans h2
  unfold compile advance
  simp only at h3 ⊢
  rw [h3, Outcome.bind_map]
  congr 1
  funext x
  unfold expression
  rw [parse_precedence_previous]

/-- Scanning and compiling a source do not depend on the state that an earlier call has
left in the scanner and in the parser: `init_scanner` sets all three fields of the scanner
from the source, the tokens that repeated calls of `scan_token` then return end with the
end-of-input token, and `compile`, which overwrites the scanner and clears both parser
flags, gives the same outcome from any two prior states of the scanner and the parser
that come with the same chunk memory. -/
theorem compile_forgets_prior_state {Value : Type}
    (next_token : Scanner → Token × Scanner) (number_value : List Char → Value)
    (fuel depth nugget : Nat) (source : List Char) (c : Compiler Value)
    (scanner1 scanner2 : Scanner) (parser1 parser2 : Parser) :
    init_scanner source = ⟨source, source, 1⟩ ∧
    (∃ front last,
      scan_tokens (source.length + 1) (source.length + 1) (init_scanner source)
        = Outcome.ok (front ++ [last]) ∧
      (∀ token ∈ front, token.type ≠ TokenType.TOKEN_EOF) ∧
      last.type = TokenType.TOKEN_EOF) ∧
    compile next_token (expression next_token number_value depth) fuel nugget source
        { c with scanner := scanner1, parser := parser1 }
      = compile next_token (expression next_token number_value depth) fuel nugget source
        { c with scanner := scanner2, parser := parser2 } := by
  refine ⟨rfl, ?_, ?_⟩
  · obtain ⟨front, last, h1, _, h3, h4, _⟩ := scan_tokens_defined (source.length + 1)
      (init_scanner source) (source.length + 1) (Nat.lt_succ_self _) (Nat.lt_succ_self _)
    exact ⟨front, last, h1, h3, h4⟩
  · exact (compile_from_start next_token number_value fuel depth nugget source scanner1
      parser1 c.compiling_nugget c.chunks c.stderr).trans
      (compile_from_start next_token number_value fuel depth nugget source scanner2
        parser2 c.compiling_nugget c.chunks c.stderr).symm

/-! ## The loop of run makes progress -/

theorem push_iptr {Value : Type} {vm vm2 : VM Value} {v : Value} (h : push vm v = some vm2) :
    vm2.iptr = vm.iptr ∧ vm2.nugget = vm.nugget := by
  unfold push at h
  obtain ⟨stack, -, h2⟩ := Option.map_eq_some'.1 h
  subst h2
  split <;> exact ⟨rfl, rfl⟩

theorem pop_iptr {Value : Type} {vm vm2 : VM Value} {v : Value}
    (h : pop vm = some (vm2, v)) : vm2.iptr = vm.iptr ∧ vm2.nugget = vm.nugget := by
  unfold pop at h
  split at h
  · cases h
  · obtain ⟨x, -, h2⟩ := Option.map_eq_some'.1 h
    simp only [Prod.mk.injEq] at h2
    rw [← h2.1]
    exact ⟨rfl, rfl⟩

theorem BINARY_OPERATION_iptr {Value : Type} (operation : Value → Value → Value)
    {vm vm2 : VM Value} (h : BINARY_OPERATION operation vm = some vm2) :
    vm2.iptr = vm.iptr ∧ vm2.nugget = vm.nugget := by
  unfold BINARY_OPERATION at h
  obtain ⟨⟨vm3, r⟩, h1, h⟩ := Option.bind_eq_some.1 h
  obtain ⟨⟨vm4, l⟩, h2, h⟩ := Option.bind_eq_some.1 h
  have a := pop_iptr h1
  have b := pop_iptr h2
  have c := push_iptr h
  exact ⟨by rw [c.1, b.1, a.1], by rw [c.2, b.2, a.2]⟩

theorem step_progress {Value : Type} [Zero Value] [Add Value] [Sub Value] [Mul Value]
    [Div Value] {vm : VM Value} {st : Step Value} (h : step vm = some st) :
    ∃ b, load vm.nugget.code vm.iptr = some b ∧ st.machine.nugget = vm.nugget ∧
      (b = OPCODE_CONSTANT → st.machine.iptr = vm.iptr + 2) ∧
      (b ≠ OPCODE_CONSTANT → st.machine.iptr = vm.iptr + 1) := by
  cases hl : load vm.nugget.code vm.iptr with
  | none => simp [step, FETCH_BYTE, hl] at h
  | some b =>
    have hf := FETCH_BYTE_eq hl
    refine ⟨b, rfl, ?_⟩
    simp only [step, hf, Option.some_bind] at h
    have hbin : ∀ (operation : Value → Value → Value),
        (BINARY_OPERATION operation { vm with iptr := vm.iptr + 1 }).map Step.next = some st →
        st.machine.nugget = vm.nugget ∧ st.machine.iptr = vm.iptr + 1 := by
      intro operation hb
      obtain ⟨vm2, h1, h2⟩ := Option.map_eq_some'.1 hb
      subst h2
      have := BINARY_OPERATION_iptr operation h1
      exact ⟨this.2, this.1⟩
    split at h
    · rename_i hb
      obtain ⟨⟨vm2, v⟩, h1, h2⟩ := Option.map_eq_some'.1 h
      subst h2
      have := pop_iptr h1
      exact ⟨this.2, fun h0 => absurd (hb.symm.trans h0) (by decide), fun _ => this.1⟩
    · split at h
      · rename_i hb1 hb
        split at h
        · cases h
        · obtain ⟨top, -, h⟩ := Option.bind_eq_some.1 h
          obtain ⟨stack, -, h2⟩ := Option.map_eq_some'.1 h
          subst h2
          exact ⟨rfl, fun h0 => absurd (hb.symm.trans h0) (by decide), fun _ => rfl⟩
      · split at h
        · rename_i hb
          have := hbin _ h
          exact ⟨this.1, fun h0 => absurd (hb.symm.trans h0) (by decide), fun _ => this.2⟩
        · split at h
          · rename_i hb
            have := hbin _ h
            exact ⟨this.1, fun h0 => absurd (hb.symm.trans h0) (by decide), fun _ => this.2⟩
          · split at h
            · rename_i hb
              have := hbin _ h
              exact ⟨this.1, fun h0 => absurd (hb.symm.trans h0) (by decide), fun _ => this.2⟩
            · split at h
              · rename_i hb
                have := hbin _ h
                exact ⟨this.1, fun h0 => absurd (hb.symm.trans h0) (by decide), fun _ => this.2⟩
              · split at h
                · rename_i hb
                  obtain ⟨⟨vm2, constant⟩, h1, h⟩ := Option.bind_eq_some.1 h
                  obtain ⟨vm3, h2, h3⟩ := Option.map_eq_some'.1 h
                  subst h3
                  have hp := push_iptr h2
                  unfold FETCH_CONSTANT FETCH_BYTE at h1
                  obtain ⟨⟨vm4, byte⟩, h4, h1⟩ := Option.bind_eq_some.1 h1
                  obtain ⟨x, -, h5⟩ := Option.map_eq_some'.1 h4
                  simp only [Prod.mk.injEq] at h5
                  obtain ⟨y, -, h6⟩ := Option.map_eq_some'.1 h1
                  simp only [Prod.mk.injEq] at h6
                  have e : vm2 = vm4 := h6.1.symm
                  subst e
                  rw [← h5.1] at hp
                  exact ⟨hp.2, fun _ => hp.1, fun h0 => absurd hb h0⟩
                · rename_i hb
                  simp only [Option.some.injEq] at h
                  subst h
                  exact ⟨rfl, fun h0 => absurd h0 hb, fun _ => rfl⟩

theorem iterations_progress {Value : Type} [Zero Value] [Add Value] [Sub Value] [Mul Value]
    [Div Value] (n : Nat) : ∀ (k : Nat) (vm vm2 : VM Value),
    (∀ i, n ≤ i → load vm.nugget.code i = none) → iterations k vm = some vm2 →
    vm.iptr + k ≤ vm2.iptr ∧ vm2.nugget = vm.nugget ∧ (1 ≤ k → vm.iptr + k ≤ n) := by
  intro k
  induction k with
  | zero =>
    intro vm vm2 _ h
    simp only [iterations, Option.some.injEq] at h
    subst h
    exact ⟨Nat.le_refl _, rfl, fun h => absurd h (by decide)⟩
  | succ k ih =>
    intro vm vm2 hn h
    unfold iterations at h
    cases hs : step vm with
    | none => rw [hs] at h; cases h
    | some st =>
      rw [hs] at h
      cases st with
      | ret result printed vm1 => cases h
      | next vm1 =>
        simp only at h
        obtain ⟨b, hb, hnug, h2, h1⟩ := step_progress hs
        simp only [Step.machine] at hnug h2 h1
        have hlt : vm.iptr < n := by
          by_contra hge
          rw [hn vm.iptr (by omega)] at hb
          cases hb
        have hstep : vm.iptr + 1 ≤ vm1.iptr := by
          by_cases h0 : b = OPCODE_CONSTANT
          · rw [h2 h0]; omega
          · rw [h1 h0]
        obtain ⟨i1, i2, i3⟩ := ih vm1 vm2 (by rw [hnug]; exact hn) h
        refine ⟨by omega, by rw [i2, hnug], fun _ => ?_⟩
        by_cases hk : 1 ≤ k
        · have := i3 hk
          omega
        · omega

theorem run_ends {Value : Type} [Zero Value] [Add Value] [Sub Value] [Mul Value]
    [Div Value] (n : Nat) : ∀ (fuel : Nat) (vm : VM Value),
    (∀ i, n ≤ i → load vm.nugget.code i = none) → n - vm.iptr < fuel →
    run fuel vm ≠ RunResult.out_of_fuel := by
  intro fuel
  induction fuel with
  | zero => intro vm _ h; omega
  | succ fuel ih =>
    intro vm hn hf
    unfold run
    cases hs : step vm with
    | none => simp
    | some st =>
      cases st with
      | ret result printed vm1 => simp
      | next vm1 =>
        simp only
        obtain ⟨b, hb, hnug, h2, h1⟩ := step_progress hs
        simp only [Step.machine] at hnug h2 h1
        have hlt : vm.iptr < n := by
          by_contra hge
          rw [hn vm.iptr (by omega)] at hb
          cases hb
        have hstep : vm.iptr + 1 ≤ vm1.iptr := by
          by_cases h0 : b = OPCODE_CONSTANT
          · rw [h2 h0]; omega
          · rw [h1 h0]
        exact ih vm1 (by rw [hnug]; exact hn) (by omega)

theorem load_outside {α : Type} (block : List (Option α)) (i : Nat)
    (h : block.length ≤ i) : load block i = none := by
  unfold load
  rw [List.get?_eq_none.2 h]
  rfl

/-- C36: the loop of `run` makes progress.  An iteration that is defined fetches its
opcode inside the code block, leaves the chunk as it is and moves the instruction pointer
forward by 1, or by 2 when the opcode is the load-constant.  So after `k` iterations the
pointer has moved forward by at least `k`; in a chunk of `n` code bytes (no cell at an
offset from `n` on holds a byte) at most `n` iterations take place, and `run` ends, with
a return or with a fetch at an offset of at least `n` (which is undefined), whenever the
fuel exceeds the number of bytes left. -/
theorem run_makes_progress {Value : Type} [Zero Value] [Add Value] [Sub Value]
    [Mul Value] [Div Value] (vm : VM Value) (n : Nat)
    (hn : ∀ i, n ≤ i → load vm.nugget.code i = none) :
    (∀ st : Step Value, step vm = some st →
      vm.iptr < n ∧ st.machine.nugget = vm.nugget ∧
      (st.machine.iptr = vm.iptr + 1 ∨
        (st.machine.iptr = vm.iptr + 2 ∧
          load vm.nugget.code vm.iptr = some OPCODE_CONSTANT))) ∧
    (∀ (k : Nat) (vm2 : VM Value), iterations k vm = some vm2 →
      vm.iptr + k ≤ vm2.iptr ∧ (1 ≤ k → vm.iptr + k ≤ n)) ∧
    (∀ fuel : Nat, n - vm.iptr < fuel → run fuel vm ≠ RunResult.out_of_fuel) := by
  refine ⟨?_, ?_, ?_⟩
  · intro st hs
    obtain ⟨b, hb, hnug, h2, h1⟩ := step_progress hs
    have hlt : vm.iptr < n := by
      by_contra hge
      rw [hn vm.iptr (by omega)] at hb
      cases hb
    refine ⟨hlt, hnug, ?_⟩
    by_cases h0 : b = OPCODE_CONSTANT
    · exact Or.inr ⟨h2 h0, by rw [hb, h0]⟩
    · exact Or.inl (h1 h0)
  · intro k vm2 h
    obtain ⟨h1, -, h3⟩ := iterations_progress n k vm vm2 hn h
    exact ⟨h1, h3⟩
  · intro fuel hf
    exact run_ends n fuel vm hn hf

/-- A witness of `run_makes_progress`: a chunk of four code bytes (load constant 0,
negate, return) run from offset 0. -/
theorem run_makes_progress_witness :
    (∀ i, 4 ≤ i → load (sample_VM [0, 0, 2, 7] [5] []).nugget.code i = none) ∧
    (∀ (k : Nat) (vm2 : VM Int), iterations k (sample_VM [0, 0, 2, 7] [5] []) = some vm2 →
      1 ≤ k → k ≤ 4) ∧
    run 5 (sample_VM [0, 0, 2, 7] [5] []) ≠ RunResult.out_of_fuel :=
  have hn : ∀ i, 4 ≤ i → load (sample_VM [0, 0, 2, 7] [5] []).nugget.code i = none :=
    fun i hi => load_outside _ i hi
  ⟨hn,
    fun k vm2 h hk => by
      have := ((run_makes_progress (sample_VM [0, 0, 2, 7] [5] []) 4 hn).2.1 k vm2 h).2 hk
      simpa [sample_VM] using this,
    (run_makes_progress (sample_VM [0, 0, 2, 7] [5] []) 4 hn).2.2 5 (by decide)⟩

/-! ## Appends stay inside the blocks -/

theorem Nugget.Rep.in_bounds {Value : Type} {nugget : Nugget Value} {bs ls : List Nat}
    {cs : List Value} (h : nugget.Rep bs ls cs) : nugget.InBounds :=
  ⟨h.1.le, h.1.1, h.2.1.1, h.2.2.le, h.2.2.1⟩

theorem apply_chunk_ops_rep {Value : Type} (ops : List (ChunkOp Value)) :
    ∀ {nugget : Nugget Value} {bs ls : List Nat} {cs : List Value}, nugget.Rep bs ls cs →
    ∃ nugget2 ls2 cs2, apply_chunk_ops nugget ops = some nugget2 ∧
      nugget2.Rep (bs ++ written_bytes cs.length ops) (ls ++ ls2) (cs ++ cs2) ∧
      cs2.length = written_constants ops := by
  induction ops with
  | nil =>
    intro nugget bs ls cs h
    exact ⟨nugget, [], [], rfl, by simpa [written_bytes] using h, rfl⟩
  | cons op rest ih =>
    intro nugget bs ls cs h
    cases op with
    | write_nugget byte line =>
      obtain ⟨n1, h1, r1⟩ := write_nugget_rep h byte line
      obtain ⟨n2, ls2, cs2, h2, r2, hc⟩ := ih r1
      refine ⟨n2, line :: ls2, cs2, ?_, ?_, ?_⟩
      · simp only [apply_chunk_ops, apply_chunk_op, h1, Option.some_bind, h2]
      · simpa [written_bytes, List.append_assoc] using r2
      · simpa [written_constants] using hc
    | add_constant value =>
      obtain ⟨n1, h1, r1⟩ := add_constant_rep h value
      obtain ⟨n2, ls2, cs2, h2, r2, hc⟩ := ih r1
      refine ⟨n2, ls2, value :: cs2, ?_, ?_, ?_⟩
      · simp only [apply_chunk_ops, apply_chunk_op, h1, Option.map_some', Option.some_bind, h2]
      · simpa [written_bytes, List.append_assoc] using r2
      · simpa [written_constants] using hc
    | write_constant value line =>
      by_cases hk : cs.length ≤ 255
      · obtain ⟨n1, h1, r1⟩ := write_constant_small_index h hk value line
        obtain ⟨n2, ls2, cs2, h2, r2, hc⟩ := ih r1
        refine ⟨n2, [line, line] ++ ls2, value :: cs2, ?_, ?_, ?_⟩
        · simp only [apply_chunk_ops, apply_chunk_op, h1, Option.some_bind, h2]
        · simpa [written_bytes, hk, List.append_assoc] using r2
        · simpa [written_constants] using hc
      · obtain ⟨n1, h1, r1⟩ := write_constant_large_index h (by omega) value line
        obtain ⟨n2, ls2, cs2, h2, r2, hc⟩ := ih r1
        refine ⟨n2, [line, line, line, line] ++ ls2, value :: cs2, ?_, ?_, ?_⟩
        · simp only [apply_chunk_ops, apply_chunk_op, h1, Option.some_bind, h2]
        · simpa [written_bytes, hk, List.append_assoc] using r2
        · simpa [written_constants] using hc

theorem grown_capacity (capacity occupied : Nat) (h : occupied ≤ capacity) :
    (capacity < occupied + 1 ↔ occupied = capacity) ∧
    occupied < (if capacity < occupied + 1 then GROW_CAPACITY capacity else capacity) ∧
    (if capacity < occupied + 1 then GROW_CAPACITY capacity else capacity)
      = (if occupied = capacity then GROW_CAPACITY capacity else capacity) := by
  have hg : capacity < GROW_CAPACITY capacity := by
    unfold GROW_CAPACITY; split <;> omega
  refine ⟨by omega, ?_, ?_⟩
  · split <;> omega
  · by_cases hc : occupied = capacity
    · rw [if_pos hc, if_pos (by omega)]
    · rw [if_neg hc, if_neg (by omega)]

theorem GROW_CAPACITY_fits (capacity : Nat) (h : capacity < 2 ^ 30) :
    capacity + 1 ≤ GROW_CAPACITY capacity ∧ GROW_CAPACITY capacity < 2 ^ 31 := by
  unfold GROW_CAPACITY
  split <;> omega

/-- C35: appends never write outside the blocks.  Every sequence of `write_nugget`,
`add_constant` and `write_constant` calls on a chunk from `init_nugget` is defined (a
store outside a block would be undefined), and afterwards the chunk is in bounds: at most
`capacity` cells are occupied and the blocks have `capacity` cells, in the chunk and in
its pool.  A further `write_nugget` or `write_valuepool` takes the growth branch exactly
when `occupied = capacity`, and stores at the slot `occupied`, which is below the capacity
that the chunk or the pool has at that moment.  The same holds for a pool from
`init_valuepool` under `write_valuepool`.  For a capacity below `2^30` the grown capacity
is at least one more and stays below `2^31`. -/
theorem appends_stay_in_bounds {Value : Type} (start : Nugget Value)
    (ops : List (ChunkOp Value)) (first : ValuePool Value) (values : List Value) :
    (∃ nugget, apply_chunk_ops (init_nugget start) ops = some nugget ∧ nugget.InBounds ∧
      (nugget.capacity < nugget.occupied + 1 ↔ nugget.occupied = nugget.capacity) ∧
      (∀ byte line : Nat, ∃ nugget2, write_nugget nugget byte line = some nugget2 ∧
        nugget2.capacity = (if nugget.occupied = nugget.capacity
          then GROW_CAPACITY nugget.capacity else nugget.capacity) ∧
        nugget.occupied < nugget2.capacity ∧ nugget2.occupied = nugget.occupied + 1 ∧
        nugget2.InBounds) ∧
      (nugget.constants.capacity < nugget.constants.occupied + 1
        ↔ nugget.constants.occupied = nugget.constants.capacity) ∧
      (∀ value : Value, ∃ pool2, write_valuepool nugget.constants value = some pool2 ∧
        pool2.capacity = (if nugget.constants.occupied = nugget.constants.capacity
          then GROW_CAPACITY nugget.constants.capacity else nugget.constants.capacity) ∧
        nugget.constants.occupied < pool2.capacity ∧
        pool2.occupied = nugget.constants.occupied + 1 ∧
        pool2.values.length = pool2.capacity)) ∧
    (∃ pool, write_values (init_valuepool first) values = some pool ∧
      pool.occupied ≤ pool.capacity ∧ pool.values.length = pool.capacity ∧
      (pool.capacity < pool.occupied + 1 ↔ pool.occupied = pool.capacity) ∧
      (∀ value : Value, ∃ pool2, write_valuepool pool value = some pool2 ∧
        pool2.capacity = (if pool.occupied = pool.capacity
          then GROW_CAPACITY pool.capacity else pool.capacity) ∧
        pool.occupied < pool2.capacity ∧ pool2.occupied = pool.occupied + 1 ∧
        pool2.values.length = pool2.capacity)) ∧
    (∀ capacity : Nat, capacity < 2 ^ 30 →
      capacity + 1 ≤ GROW_CAPACITY capacity ∧ GROW_CAPACITY capacity < 2 ^ 31) := by
  have hpool : ∀ (pool : ValuePool Value) (vs : List Value), pool.Rep vs →
      (pool.capacity < pool.occupied + 1 ↔ pool.occupied = pool.capacity) ∧
      (∀ value : Value, ∃ pool2, write_valuepool pool value = some pool2 ∧
        pool2.capacity = (if pool.occupied = pool.capacity
          then GROW_CAPACITY pool.capacity else pool.capacity) ∧
        pool.occupied < pool2.capacity ∧ pool2.occupied = pool.occupied + 1 ∧
        pool2.values.length = pool2.capacity) := by
    intro pool vs h
    obtain ⟨g1, g2, g3⟩ := grown_capacity pool.capacity pool.occupied h.le
    refine ⟨g1, fun value => ?_⟩
    obtain ⟨pool2, hw, hr, -⟩ := write_valuepool_rep h value
    obtain ⟨c1, c2⟩ := write_valuepool_capacity hw
    exact ⟨pool2, hw, c1.trans g3, by rw [c1]; exact g2, c2, hr.1⟩
  refine ⟨?_, ?_, GROW_CAPACITY_fits⟩
  · obtain ⟨nugget, ls, cs, h1, h2, -⟩ := apply_chunk_ops_rep ops (init_nugget_rep start)
    obtain ⟨g1, g2, g3⟩ := grown_capacity nugget.capacity nugget.occupied h2.1.le
    obtain ⟨p1, p2⟩ := hpool nugget.constants _ h2.2.2
    refine ⟨nugget, h1, h2.in_bounds, g1, fun byte line => ?_, p1, p2⟩
    obtain ⟨nugget2, hw, hr⟩ := write_nugget_rep h2 byte line
    obtain ⟨c1, c2, -⟩ := write_nugget_capacity hw
    exact ⟨nugget2, hw, c1.trans g3, by rw [c1]; exact g2, c2, hr.in_bounds⟩
  · have h0 : (init_valuepool first).Rep ([] : List Value) := by
      simp [ValuePool.Rep, Holds, init_valuepool]
    obtain ⟨pool, h1, h2, -⟩ := write_values_rep values h0 (Or.inl ⟨rfl, rfl⟩)
    obtain ⟨p1, p2⟩ := hpool pool _ h2
    exact ⟨pool, h1, h2.le, h2.1, p1, p2⟩

/-- A witness of `appends_stay_in_bounds`: nine constants and a return instruction
written to a fresh chunk, and nine values written to a fresh pool. -/
theorem appends_stay_in_bounds_witness :
    (∃ nugget, apply_chunk_ops (init_nugget (pool_of 0 (0 : Int)))
        (List.replicate 9 (ChunkOp.write_constant 5 1) ++ [ChunkOp.write_nugget 7 1])
        = some nugget ∧ nugget.InBounds) ∧
    (∃ pool, write_values (init_valuepool (pool_of 0 (0 : Int)).constants)
        (List.replicate 9 5) = some pool ∧ pool.occupied ≤ pool.capacity) ∧
    GROW_CAPACITY 8 < 2 ^ 31 :=
  have h := appends_stay_in_bounds (pool_of 0 (0 : Int))
    (List.replicate 9 (ChunkOp.write_constant 5 1) ++ [ChunkOp.write_nugget 7 1])
    (pool_of 0 (0 : Int)).constants (List.replicate 9 5)
  ⟨(let ⟨nugget, h1, h2, _⟩ := h.1
    ⟨nugget, h1, h2⟩),
   (let ⟨pool, h1, h2, _⟩ := h.2.1
    ⟨pool, h1, h2⟩),
   (h.2.2 8 (by decide)).2⟩

/-! ## The disassembler walks the instructions -/

theorem disassemble_instruction_size {Value : Type} {nugget : Nugget Value}
    {offset next : Nat} (h : disassemble_instruction nugget offset = some next) :
    ∃ instruction, load nugget.code offset = some instruction ∧
      next = offset + (if instruction = OPCODE_CONSTANT then 2
        else if instruction = OPCODE_CONSTANT_LONG then 4 else 1) := by
  unfold disassemble_instruction at h
  obtain ⟨same, -, h⟩ := Option.bind_eq_some.1 h
  obtain ⟨instruction, hl, h⟩ := Option.bind_eq_some.1 h
  refine ⟨instruction, hl, ?_⟩
  by_cases h0 : instruction = OPCODE_CONSTANT
  · rw [if_pos h0] at h ⊢
    obtain ⟨printed, hp, h2⟩ := Option.map_eq_some'.1 h
    unfold constant_instruction at hp
    obtain ⟨location, -, hp⟩ := Option.bind_eq_some.1 hp
    obtain ⟨value, -, hp⟩ := Option.map_eq_some'.1 hp
    subst hp
    exact h2.symm
  · rw [if_neg h0] at h ⊢
    by_cases h1 : instruction = OPCODE_CONSTANT_LONG
    · rw [if_pos h1] at h ⊢
      obtain ⟨printed, hp, h2⟩ := Option.map_eq_some'.1 h
      unfold constant_long_instruction at hp
      obtain ⟨high, -, hp⟩ := Option.bind_eq_some.1 hp
      obtain ⟨mid, -, hp⟩ := Option.bind_eq_some.1 hp
      obtain ⟨low, -, hp⟩ := Option.bind_eq_some.1 hp
      obtain ⟨value, -, hp⟩ := Option.map_eq_some'.1 hp
      subst hp
      exact h2.symm
    · rw [if_neg h1] at h ⊢
      simp only [simple_instruction, ite_self, Option.some.injEq] at h
      exact h.symm

theorem Holds.load_some {α : Type} {block : List (Option α)} {capacity occupied : Nat}
    {xs : List α} (h : Holds block capacity occupied xs) (i : Nat) (hi : i < occupied) :
    ∃ x, load block i = some x := by
  rw [h.load_eq i hi]
  have hlen : xs.length = occupied := h.2.1
  exact ⟨xs.get ⟨i, by omega⟩, List.get?_eq_get _⟩

theorem disassemble_at {Value : Type} {nugget : Nugget Value} {pre ys ls : List Nat}
    {cs : List Value} (h : nugget.Rep (pre ++ ys) ls cs) (instruction : Nat)
    (h0 : ys.get? 0 = some instruction) :
    disassemble_instruction nugget pre.length
      = if instruction = OPCODE_CONSTANT then
          (constant_instruction nugget pre.length).map fun printed => printed.2.2
        else if instruction = OPCODE_CONSTANT_LONG then
          (constant_long_instruction nugget pre.length).map fun printed => printed.2.2
        else some (pre.length + 1) := by
  have hocc : (pre ++ ys).length = nugget.occupied := h.1.2.1
  have hys : 0 < ys.length := by
    cases ys with
    | nil => cases h0
    | cons a t => simp
  rw [List.length_append] at hocc
  have hcode : load nugget.code pre.length = some instruction := by
    have := h.1.load_append 0 hys
    rw [Nat.add_zero] at this
    rw [this, h0]
  obtain ⟨line, hline⟩ := h.2.1.load_some pre.length (by omega)
  have hsame : ∃ same, (if pre.length > 0 then
      (load nugget.lines pre.length).bind fun line =>
      (load nugget.lines (pre.length - 1)).map fun previous => decide (line = previous)
    else (load nugget.lines pre.length).map fun _ => false) = some same := by
    by_cases hp : pre.length > 0
    · obtain ⟨previous, hprev⟩ := h.2.1.load_some (pre.length - 1) (by omega)
      rw [if_pos hp, hline, hprev]
      exact ⟨_, rfl⟩
    · rw [if_neg hp, hline]
      exact ⟨_, rfl⟩
  obtain ⟨same, hsame⟩ := hsame
  unfold disassemble_instruction
  rw [hsame, hcode]
  simp only [Option.some_bind, simple_instruction, ite_self]

theorem disassemble_loop_written {Value : Type} {nugget : Nugget Value} {ls : List Nat}
    {cs : List Value} : ∀ (ops : List (ChunkOp Value)) (pre : List Nat) (pool : Nat),
    (∀ op ∈ ops, op.whole_instruction = true) →
    nugget.Rep (pre ++ written_bytes pool ops) ls cs →
    pool + written_constants ops ≤ cs.length →
    disassemble_loop (ops.length + 1) nugget pre.length
      = Outcome.ok (instruction_starts pool pre.length ops, nugget.occupied) := by
  intro ops
  induction ops with
  | nil =>
    intro pre pool _ h _
    have hocc : (pre ++ written_bytes pool ([] : List (ChunkOp Value))).length
        = nugget.occupied := h.1.2.1
    simp only [written_bytes, List.append_nil] at hocc
    unfold disassemble_loop
    rw [if_neg (by omega), hocc]
    rfl
  | cons op rest ih =>
    intro pre pool hall h hpool
    have hrest : ∀ op ∈ rest, op.whole_instruction = true :=
      fun o ho => hall o (List.mem_cons_of_mem _ ho)
    have hop := hall op (List.mem_cons_self _ _)
    have hocc : (pre ++ written_bytes pool (op :: rest)).length = nugget.occupied :=
      h.1.2.1
    cases op with
    | add_constant value => cases hop
    | write_nugget byte line =>
      simp only [ChunkOp.whole_instruction, decide_eq_true_eq] at hop
      have hop2 : 2 ≤ byte ∧ byte ≤ 7 := hop
      have hb : byte % 256 = byte := Nat.mod_eq_of_lt (by omega)
      simp only [written_bytes, hb] at h hocc
      have hd := disassemble_at h byte rfl
      rw [if_neg (show ¬ byte = 0 by omega), if_neg (show ¬ byte = 1 by omega)] at hd
      have h2 : nugget.Rep ((pre ++ [byte]) ++ written_bytes pool rest) ls cs := by
        rw [List.append_assoc]; exact h
      have i := ih (pre ++ [byte]) pool hrest h2 (by simpa [written_constants] using hpool)
      simp only [List.length_append, List.length_singleton] at i
      simp only [List.length_append, List.length_cons] at hocc
      unfold disassemble_loop
      rw [if_pos (by omega), hd]
      simp only [List.length_cons]
      rw [i]
      rfl
    | write_constant value line =>
      simp only [written_constants] at hpool
      by_cases hk : pool ≤ 255
      · simp only [written_bytes, hk, if_true] at h hocc
        have hd := disassemble_at h OPCODE_CONSTANT rfl
        rw [if_pos rfl] at hd
        have hoperand : load nugget.code (pre.length + 1) = some pool := by
          rw [h.1.load_append 1 (by simp)]
          rfl
        obtain ⟨value0, hvalue⟩ := h.2.2.load_some pool (by
          have : cs.length = nugget.constants.occupied := h.2.2.2.1
          omega)
        have hc : constant_instruction nugget pre.length
            = some (pool, value0, pre.length + 2) := by
          unfold constant_instruction
          rw [hoperand]
          simp only [Option.some_bind, hvalue, Option.map_some']
        rw [hc] at hd
        have h2 : nugget.Rep ((pre ++ [OPCODE_CONSTANT, pool]) ++ written_bytes (pool + 1) rest)
            ls cs := by
          rw [List.append_assoc]; exact h
        have i := ih (pre ++ [OPCODE_CONSTANT, pool]) (pool + 1) hrest h2 (by omega)
        simp only [List.length_append, List.length_cons, List.length_nil] at i
        simp only [List.length_append, List.length_cons] at hocc
        unfold disassemble_loop
        rw [if_pos (by omega), hd]
        simp only [List.length_cons, Option.map_some']
        rw [i]
        simp only [instruction_starts, hk, if_true, Outcome.map]
      · simp only [written_bytes, hk, if_false] at h hocc
        have hd := disassemble_at h OPCODE_CONSTANT_LONG rfl
        rw [if_neg (by decide), if_pos rfl] at hd
        have hhigh : load nugget.code (pre.length + 1) = some ((pool >>> 16) &&& 0xFF) := by
          rw [h.1.load_append 1 (by simp)]
          rfl
        have hmid : load nugget.code (pre.length + 2) = some ((pool >>> 8) &&& 0xFF) := by
          rw [h.1.load_append 2 (by simp)]
          rfl
        have hlow : load nugget.code (pre.length + 3) = some (pool &&& 0xFF) := by
          rw [h.1.load_append 3 (by simp)]
          rfl
        have hle : reconstruct_long_location ((pool >>> 16) &&& 0xFF)
            ((pool >>> 8) &&& 0xFF) (pool &&& 0xFF) ≤ pool := by
          rw [reconstruct_eq, shift_and_eq_mod, shift_and_eq_mod]
          have e : pool &&& 0xFF = pool % 256 := by
            have := shift_and_eq_mod pool 0
            simpa using this
          rw [e]
          norm_num
          omega
        obtain ⟨value0, hvalue⟩ := h.2.2.load_some
          (reconstruct_long_location ((pool >>> 16) &&& 0xFF) ((pool >>> 8) &&& 0xFF)
            (pool &&& 0xFF)) (by
          have : cs.length = nugget.constants.occupied := h.2.2.2.1
          omega)
        have hc : constant_long_instruction nugget pre.length
            = some (reconstruct_long_location ((pool >>> 16) &&& 0xFF)
                ((pool >>> 8) &&& 0xFF) (pool &&& 0xFF), value0, pre.length + 4) := by
          unfold constant_long_instruction
          rw [hhigh, hmid, hlow]
          simp only [Option.some_bind, hvalue, Option.map_some']
        rw [hc] at hd
        have h2 : nugget.Rep ((pre ++ [OPCODE_CONSTANT_LONG, (pool >>> 16) &&& 0xFF,
            (pool >>> 8) &&& 0xFF, pool &&& 0xFF]) ++ written_bytes (pool + 1) rest)
            ls cs := by
          rw [List.append_assoc]; exact h
        have i := ih _ (pool + 1) hrest h2 (by omega)
        simp only [List.length_append, List.length_cons, List.length_nil] at i
        simp only [List.length_append, List.length_cons] at hocc
        unfold disassemble_loop
        rw [if_pos (by omega), hd]
        simp only [List.length_cons, Option.map_some']
        rw [i]
        simp only [instruction_starts, hk, if_false, Outcome.map]

/-- C31: `disassemble_instruction` returns the offset plus 2 at a load-constant, plus 4
at a wide load-constant and plus 1 at every other byte.  For a chunk built from
`init_nugget` by `write_constant` calls and `write_nugget` calls of opcodes without
operand, the loop of `disassemble_nugget` is defined, calls `disassemble_instruction`
exactly at the offsets at which the written instructions start, in their order, and stops
at the offset `occupied`. -/
theorem disassembler_visits_instructions {Value : Type} (start : Nugget Value)
    (ops : List (ChunkOp Value)) (hall : ∀ op ∈ ops, op.whole_instruction = true) :
    (∀ (nugget : Nugget Value) (offset next : Nat),
      disassemble_instruction nugget offset = some next →
      ∃ instruction, load nugget.code offset = some instruction ∧
        next = offset + (if instruction = OPCODE_CONSTANT then 2
          else if instruction = OPCODE_CONSTANT_LONG then 4 else 1)) ∧
    ∃ nugget, apply_chunk_ops (init_nugget start) ops = some nugget ∧
      disassemble_nugget (ops.length + 1) nugget
        = Outcome.ok (instruction_starts 0 0 ops, nugget.occupied) := by
  refine ⟨fun nugget offset next h => disassemble_instruction_size h, ?_⟩
  obtain ⟨nugget, ls, cs, h1, h2, h3⟩ := apply_chunk_ops_rep ops (init_nugget_rep start)
  refine ⟨nugget, h1, ?_⟩
  simp only [List.nil_append, List.length_nil] at h2 h3
  have h4 : nugget.Rep ([] ++ written_bytes 0 ops) ls cs := by simpa using h2
  have := disassemble_loop_written ops [] 0 hall h4 (by omega)
  exact this

/-- A witness of `disassembler_visits_instructions`: a constant, a negate, a second
constant and a return written to a fresh chunk; the instructions start at the offsets 0,
2, 3 and 5. -/
theorem disassembler_visits_instructions_witness :
    ∃ nugget, apply_chunk_ops (init_nugget (pool_of 0 (0 : Int)))
        [ChunkOp.write_constant 5 1, ChunkOp.write_nugget OPCODE_NEGATE 1,
          ChunkOp.write_constant 6 2, ChunkOp.write_nugget OPCODE_RETURN 2] = some nugget ∧
      disassemble_nugget 5 nugget = Outcome.ok ([0, 2, 3, 5], nugget.occupied) :=
  (disassembler_visits_instructions (pool_of 0 (0 : Int))
    [ChunkOp.write_constant 5 1, ChunkOp.write_nugget OPCODE_NEGATE 1,
      ChunkOp.write_constant 6 2, ChunkOp.write_nugget OPCODE_RETURN 2] (by decide)).2

/-! ## Panic mode -/

theorem Suppressed.of_eq {Value : Type} {c1 c2 : Compiler Value}
    (h1 : c2.parser.hiterror = c1.parser.hiterror)
    (h2 : c2.parser.panicking = c1.parser.panicking) (h3 : c2.stderr = c1.stderr) :
    Suppressed c1 c2 :=
  ⟨fun h => by rw [h1, h], fun h => ⟨by rw [h2, h], h3⟩, Or.inl h3⟩

theorem Suppressed.unchanged {Value : Type} (c : Compiler Value) : Suppressed c c :=
  Suppressed.of_eq rfl rfl rfl

theorem Suppressed.chain {Value : Type} {c1 c2 c3 : Compiler Value}
    (h12 : Suppressed c1 c2) (h23 : Suppressed c2 c3) : Suppressed c1 c3 := by
  obtain ⟨a1, a2, a3⟩ := h12
  obtain ⟨b1, b2, b3⟩ := h23
  refine ⟨fun h => b1 (a1 h), fun h => ?_, ?_⟩
  · obtain ⟨p, e⟩ := a2 h
    obtain ⟨q, f⟩ := b2 p
    exact ⟨q, f.trans e⟩
  · rcases a3 with e | ⟨p, hh, d, e⟩
    · rcases b3 with f | ⟨q, hh2, d, f⟩
      · exact Or.inl (f.trans e)
      · exact Or.inr ⟨q, hh2, d, by rw [f, e]⟩
    · obtain ⟨q, f⟩ := b2 p
      exact Or.inr ⟨q, b1 hh, d, by rw [f, e]⟩

theorem error_at_panicking {Value : Type} (c : Compiler Value) (token : Token)
    (message : List Char) (h : c.parser.panicking = true) : error_at c token message = c := by
  unfold error_at
  rw [if_pos h]

theorem error_at_reports {Value : Type} (c : Compiler Value) (token : Token)
    (message : List Char) (h : c.parser.panicking = false) :
    ∃ printed : Diagnostic,
      (error_at c token message).stderr = c.stderr ++ [printed] ∧
      printed.line = token.line ∧ printed.message = message ∧
      (error_at c token message).parser.panicking = true ∧
      (error_at c token message).parser.hiterror = true ∧
      (error_at c token message).parser.current = c.parser.current ∧
      (error_at c token message).parser.previous = c.parser.previous ∧
      (error_at c token message).scanner = c.scanner ∧
      SameMemory c (error_at c token message) := by
  unfold error_at
  rw [if_neg (by rw [h]; decide)]
  exact ⟨_, rfl, rfl, rfl, rfl, rfl, rfl, rfl, rfl, rfl, rfl⟩

theorem error_at_suppressed {Value : Type} (c : Compiler Value) (token : Token)
    (message : List Char) : Suppressed c (error_at c token message) := by
  by_cases h : c.parser.panicking = true
  · rw [error_at_panicking c token message h]
    exact Suppressed.unchanged c
  · have h0 : c.parser.panicking = false := by simpa using h
    obtain ⟨printed, h1, -, -, h2, h3, -⟩ := error_at_reports c token message h0
    exact ⟨fun _ => h3, fun hp => absurd hp h, Or.inr ⟨h2, h3, printed, h1⟩⟩

theorem advance_loop_suppressed {Value : Type} (next_token : Scanner → Token × Scanner)
    (fuel : Nat) : ∀ {c c2 : Compiler Value},
    advance_loop next_token fuel c = Outcome.ok c2 → Suppressed c c2 := by
  induction fuel with
  | zero => intro c c2 h; simp [advance_loop] at h
  | succ n ih =>
    intro c c2 h
    unfold advance_loop at h
    simp only at h
    split at h
    · simp only [Outcome.ok.injEq] at h
      subst h
      exact Suppressed.of_eq rfl rfl rfl
    · have h1 := ih h
      have h2 := error_at_suppressed
        ({ c with scanner := (next_token c.scanner).2,
                  parser := { c.parser with current := (next_token c.scanner).1 } })
        (next_token c.scanner).1 (next_token c.scanner).1.start
      exact Suppressed.chain (Suppressed.chain (Suppressed.of_eq rfl rfl rfl) h2) h1

theorem advance_suppressed {Value : Type} {next_token : Scanner → Token × Scanner}
    {fuel : Nat} {c c2 : Compiler Value} (h : advance next_token fuel c = Outcome.ok c2) :
    Suppressed c c2 := by
  unfold advance at h
  refine Suppressed.chain ?_ (advance_loop_suppressed next_token fuel h)
  exact Suppressed.of_eq rfl rfl rfl

theorem consume_suppressed {Value : Type} {next_token : Scanner → Token × Scanner}
    {fuel : Nat} {type : TokenType} {message : List Char} {c c2 : Compiler Value}
    (h : consume next_token fuel type message c = Outcome.ok c2) : Suppressed c c2 := by
  unfold consume at h
  split at h
  · exact advance_suppressed h
  · simp only [Outcome.ok.injEq] at h
    subst h
    exact error_at_suppressed c c.parser.current message

theorem through_current_nugget_suppressed {Value : Type} {c c2 : Compiler Value}
    {write : Nugget Value → Option (Nugget Value)}
    (h : through_current_nugget c write = Outcome.ok c2) : Suppressed c c2 := by
  unfold through_current_nugget at h
  split at h
  · cases h
  · split at h
    · cases h
    · simp only [Outcome.ok.injEq] at h
      subst h
      exact Suppressed.of_eq rfl rfl rfl

theorem parse_suppressed {Value : Type} (next_token : Scanner → Token × Scanner)
    (number_value : List Char → Value) (fuel : Nat) :
    (∀ (threshold : Nat) (c c2 : Compiler Value),
      parse_precedence next_token number_value fuel threshold c = Outcome.ok c2 →
      Suppressed c c2) ∧
    (∀ (threshold : Nat) (c c2 : Compiler Value),
      parse_operators next_token number_value fuel threshold c = Outcome.ok c2 →
      Suppressed c c2) := by
  induction fuel with
  | zero =>
    constructor
    · intro threshold c c2 h; simp [parse_precedence] at h
    · intro threshold c c2 h; simp [parse_operators] at h
  | succ n ih =>
    obtain ⟨ihp, ihi⟩ := ih
    constructor
    · intro threshold c c2 h
      rw [parse_precedence] at h
      obtain ⟨c1, ha, h⟩ := Outcome.bind_ok h
      have m1 := advance_suppressed ha
      obtain ⟨c3, hfirst, hrest⟩ := Outcome.bind_ok h
      have m2 : Suppressed c1 c3 := by
        split at hfirst
        · exact through_current_nugget_suppressed hfirst
        · obtain ⟨c4, hinner, hclose⟩ := Outcome.bind_ok hfirst
          exact Suppressed.chain (ihp _ _ _ hinner) (consume_suppressed hclose)
        · obtain ⟨c4, hinner, hneg⟩ := Outcome.bind_ok hfirst
          exact Suppressed.chain (ihp _ _ _ hinner) (through_current_nugget_suppressed hneg)
        · simp only [Outcome.ok.injEq] at hfirst
          subst hfirst
          exact error_at_suppressed c1 c1.parser.previous _
      exact Suppressed.chain (Suppressed.chain m1 m2) (ihi _ _ _ hrest)
    · intro threshold c c2 h
      rw [parse_operators] at h
      split at h
      · simp only [Outcome.ok.injEq] at h
        subst h
        exact Suppressed.unchanged c
      · split at h
        · simp only [Outcome.ok.injEq] at h
          subst h
          exact Suppressed.unchanged c
        · obtain ⟨c1, ha, h⟩ := Outcome.bind_ok h
          obtain ⟨c3, hp, h⟩ := Outcome.bind_ok h
          obtain ⟨c4, he, h⟩ := Outcome.bind_ok h
          exact Suppressed.chain
            (Suppressed.chain (Suppressed.chain (advance_suppressed ha) (ihp _ _ _ hp))
              (through_current_nugget_suppressed he))
            (ihi _ _ _ h)

theorem expression_suppressed {Value : Type} (next_token : Scanner → Token × Scanner)
    (number_value : List Char → Value) (fuel : Nat) (c c2 : Compiler Value)
    (h : expression next_token number_value fuel c = Outcome.ok c2) : Suppressed c c2 :=
  (parse_suppressed next_token number_value fuel).1 1 c c2 h

/-- C32: panic-mode suppression.  Called while the parser is not panicking, `error_at`
prints exactly one diagnostic, with the line of the token and the message, sets the
panicking flag and the had-error flag and changes nothing else; called while the parser
is panicking it changes nothing.  A call of `error_at`, `advance` or `consume` keeps a
had-error flag that is set, prints nothing while the parser is panicking and prints at
most one diagnostic otherwise.  A call of `compile` whose `expression` obeys the same rule
prints at most one diagnostic. -/
theorem panic_mode_suppression {Value : Type} (c : Compiler Value) (token : Token)
    (message : List Char) :
    (c.parser.panicking = false →
      ∃ printed : Diagnostic,
        (error_at c token message).stderr = c.stderr ++ [printed] ∧
        printed.line = token.line ∧ printed.message = message ∧
        (error_at c token message).parser.panicking = true ∧
        (error_at c token message).parser.hiterror = true ∧
        (error_at c token message).parser.current = c.parser.current ∧
        (error_at c token message).parser.previous = c.parser.previous ∧
        (error_at c token message).scanner = c.scanner ∧
        SameMemory c (error_at c token message)) ∧
    (c.parser.panicking = true → error_at c token message = c) ∧
    (∀ (next_token : Scanner → Token × Scanner) (fuel : Nat) (type : TokenType)
      (expected : List Char) (c2 : Compiler Value),
      error_at c token message = c2 ∨ advance next_token fuel c = Outcome.ok c2 ∨
        consume next_token fuel type expected c = Outcome.ok c2 →
      Suppressed c c2) ∧
    (∀ (next_token : Scanner → Token × Scanner)
      (expression : Compiler Value → Outcome (Compiler Value)) (fuel nugget : Nat)
      (source : List Char) (c2 : Compiler Value) (compiled : Option Bool),
      (∀ x y, expression x = Outcome.ok y → Suppressed x y) →
      compile next_token expression fuel nugget source c = Outcome.ok (c2, compiled) →
      c2.stderr = c.stderr ∨ ∃ printed, c2.stderr = c.stderr ++ [printed]) := by
  refine ⟨error_at_reports c token message, error_at_panicking c token message, ?_, ?_⟩
  · intro next_token fuel type expected c2 h
    rcases h with h | h | h
    · rw [← h]
      exact error_at_suppressed c token message
    · exact advance_suppressed h
    · exact consume_suppressed h
  · intro next_token expression fuel nugget source c2 compiled hexpr h
    unfold compile at h
    simp only at h
    obtain ⟨c3, ha, h⟩ := Outcome.bind_ok h
    obtain ⟨c4, he, h⟩ := Outcome.bind_ok h
    obtain ⟨c5, hc, h⟩ := Outcome.map_ok h
    simp only [Prod.mk.injEq] at h
    obtain ⟨h5, -⟩ := h
    subst h5
    have m := Suppressed.chain (Suppressed.chain (advance_suppressed ha) (hexpr _ _ he))
      (consume_suppressed hc)
    rcases m.2.2 with e | ⟨-, -, printed, e⟩
    · exact Or.inl e
    · exact Or.inr ⟨printed, e⟩

/-- A witness of `panic_mode_suppression`: the source `) )` holds two syntax errors (no
expression at the first parenthesis, a trailing token at the second); one diagnostic is
printed. -/
theorem panic_mode_suppression_witness :
    ∃ (c2 : Compiler Int) (compiled : Option Bool),
      compile next_token (expression next_token lexeme_value 5) 5 0 [')', ' ', ')']
        program_start = Outcome.ok (c2, compiled) ∧
      c2.parser.hiterror = true ∧
      (c2.stderr = [] ∨ ∃ printed, c2.stderr = [] ++ [printed]) := by
  have hrun : (compile next_token (expression next_token lexeme_value 5) 5 0 [')', ' ', ')']
      program_start).map (fun p => p.1.parser.hiterror) = Outcome.ok true := by decide
  obtain ⟨⟨c2, compiled⟩, hc, hflag⟩ := Outcome.map_ok hrun
  exact ⟨c2, compiled, hc, hflag,
    (panic_mode_suppression program_start ⟨TokenType.TOKEN_EOF, [], 0, 1⟩ []).2.2.2
      next_token (expression next_token lexeme_value 5) 5 0 [')', ' ', ')'] c2 compiled
      (expression_suppressed next_token lexeme_value 5) hc⟩

/-! ## consume -/

/-- C34: `consume`.  If the current token has the expected kind, `consume` is `advance`.
Otherwise it is `error_at` on the current token with the message and consumes nothing:
the previous token, the current token and the scanner stay as they are; unless the parser
is panicking one diagnostic with the line of the current token is printed and the
had-error flag is set, and while it is panicking nothing changes.  In `compile`, when the
token that is current after `expression` is not the end-of-input token, the final
`consume` reports it: the outcome of `compile` is the state after `error_at` on that
token, with the had-error flag set. -/
theorem consume_matches_or_reports {Value : Type} (next_token : Scanner → Token × Scanner)
    (fuel : Nat) (type : TokenType) (message : List Char) (c : Compiler Value) :
    (c.parser.current.type = type →
      consume next_token fuel type message c = advance next_token fuel c) ∧
    (c.parser.current.type ≠ type →
      consume next_token fuel type message c
        = Outcome.ok (error_at c c.parser.current message) ∧
      (error_at c c.parser.current message).parser.previous = c.parser.previous ∧
      (error_at c c.parser.current message).parser.current = c.parser.current ∧
      (error_at c c.parser.current message).scanner = c.scanner ∧
      (c.parser.panicking = false →
        ∃ printed : Diagnostic,
          (error_at c c.parser.current message).stderr = c.stderr ++ [printed] ∧
          printed.line = c.parser.current.line ∧ printed.message = message ∧
          (error_at c c.parser.current message).parser.hiterror = true) ∧
      (c.parser.panicking = true → error_at c c.parser.current message = c)) ∧
    (∀ (expression : Compiler Value → Outcome (Compiler Value)) (nugget : Nat)
      (source : List Char) (c1 : Compiler Value),
      (advance next_token fuel
          { c with
            scanner := init_scanner source
            parser := { c.parser with hiterror := false, panicking := false } }).bind
        expression = Outcome.ok c1 →
      c1.parser.current.type ≠ TokenType.TOKEN_EOF →
      (c1.parser.panicking = true → c1.parser.hiterror = true) →
      ∃ c2, compile next_token expression fuel nugget source c = Outcome.ok (c2, none) ∧
        c2 = error_at c1 c1.parser.current "Expected end of expression!".toList ∧
        c2.parser.hiterror = true ∧ c2.parser.current = c1.parser.current ∧
        c2.scanner = c1.scanner) := by
  have hkeep : ∀ (x : Compiler Value) (m : List Char),
      (error_at x x.parser.current m).parser.previous = x.parser.previous ∧
      (error_at x x.parser.current m).parser.current = x.parser.current ∧
      (error_at x x.parser.current m).scanner = x.scanner := by
    intro x m
    by_cases hp : x.parser.panicking = true
    · rw [error_at_panicking x _ m hp]
      exact ⟨rfl, rfl, rfl⟩
    · obtain ⟨printed, -, -, -, -, -, h1, h2, h3, -⟩ :=
        error_at_reports x x.parser.current m (by simpa using hp)
      exact ⟨h2, h1, h3⟩
  refine ⟨?_, ?_, ?_⟩
  · intro h
    unfold consume
    rw [if_pos h]
  · intro h
    refine ⟨?_, (hkeep c message).1, (hkeep c message).2.1, (hkeep c message).2.2, ?_,
      error_at_panicking c c.parser.current message⟩
    · unfold consume error_current_token
      rw [if_neg h]
    · intro hp
      obtain ⟨printed, h1, h2, h3, -, h4, -⟩ := error_at_reports c c.parser.current message hp
      exact ⟨printed, h1, h2, h3, h4⟩
  · intro expression nugget source c1 h hne hinv
    obtain ⟨c0, ha, he⟩ := Outcome.bind_ok h
    refine ⟨error_at c1 c1.parser.current "Expected end of expression!".toList, ?_, rfl, ?_,
      (hkeep c1 _).2.1, (hkeep c1 _).2.2⟩
    · unfold compile
      simp only
      have ha2 : advance next_token fuel
          { scanner := init_scanner source,
            parser := { current := c.parser.current, previous := c.parser.previous,
                        hiterror := false, panicking := false },
            compiling_nugget := c.compiling_nugget, chunks := c.chunks,
            stderr := c.stderr } = Outcome.ok c0 := ha
      rw [ha2]
      simp only [Outcome.bind, he, consume, if_neg hne, Outcome.map, error_current_token]
    · by_cases hp : c1.parser.panicking = true
      · rw [error_at_panicking c1 _ _ hp]
        exact hinv hp
      · obtain ⟨printed, -, -, -, -, h4, -⟩ :=
          error_at_reports c1 c1.parser.current "Expected end of expression!".toList
            (by simpa using hp)
        exact h4

/-- A witness of `consume_matches_or_reports`: in the source `1 2` the token `2` follows
the expression `1`; `compile` reports it, with its line. -/
theorem consume_matches_or_reports_witness :
    ∃ (c2 : Compiler Int),
      compile next_token (expression next_token lexeme_value 5) 5 0 ['1', ' ', '2']
        (pointed_start 0) = Outcome.ok (c2, none) ∧
      c2.parser.hiterror = true ∧ c2.parser.current.type = TokenType.TOKEN_NUMBER := by
  have hrun : ((advance next_token 5
      { pointed_start 0 with
        scanner := init_scanner ['1', ' ', '2']
        parser := { (pointed_start 0).parser with hiterror := false, panicking := false } }).bind
      (expression next_token lexeme_value 5)).map
        (fun c => (c.parser.current.type, c.parser.panicking))
      = Outcome.ok (TokenType.TOKEN_NUMBER, false) := by decide
  obtain ⟨c1, h1, h2⟩ := Outcome.map_ok hrun
  simp only [Prod.mk.injEq] at h2
  obtain ⟨c2, h3, -, h4, h5, -⟩ :=
    (consume_matches_or_reports next_token 5 TokenType.TOKEN_EOF [] (pointed_start 0)).2.2
      (expression next_token lexeme_value 5) 0 ['1', ' ', '2'] c1 h1
      (by rw [h2.1]; decide) (by rw [h2.2]; intro h; cases h)
  exact ⟨c2, h3, h4, by rw [h5, h2.1]⟩

/-! ## advance -/

theorem next_token_scans (s : Scanner) :
    ∃ token s2, next_token s = (token, s2) ∧ WellScanned s.current token s2 := by
  obtain ⟨token, s2, h1, h2⟩ := scan_token_defined s (s.current.length + 1)
    (Nat.lt_succ_self _)
  refine ⟨token, s2, ?_, h2⟩
  unfold next_token
  rw [h1]

theorem next_token_shorter (s : Scanner) :
    (next_token s).2.current.length ≤ s.current.length ∧
    ((next_token s).1.type = TokenType.TOKEN_ERROR →
      (next_token s).2.current.length < s.current.length) := by
  obtain ⟨token, s2, h1, h2⟩ := next_token_scans s
  rw [h1]
  obtain ⟨⟨consumed, hc⟩, hlt, -⟩ := h2
  refine ⟨?_, fun h => hlt (by rw [h]; decide)⟩
  have := congrArg List.length hc
  simp only [List.length_append] at this
  show s2.current.length ≤ s.current.length
  omega

theorem delivers_length {s s2 : Scanner} {skipped : List Token} {token : Token}
    (h : Delivers next_token s skipped token s2) :
    s2.current.length + skipped.length ≤ s.current.length ∧
    token.type ≠ TokenType.TOKEN_ERROR ∧
    ∀ e ∈ skipped, e.type = TokenType.TOKEN_ERROR := by
  induction h with
  | proper s h =>
    exact ⟨by simpa using (next_token_shorter s).1, h,
      fun e he => absurd he (List.not_mem_nil _)⟩
  | skip s skipped token s2 h rest ih =>
    have := (next_token_shorter s).2 h
    refine ⟨by simp only [List.length_cons]; omega, ih.2.1, ?_⟩
    intro e he
    rcases List.mem_cons.1 he with h1 | h1
    · rw [h1]; exact h
    · exact ih.2.2 e h1

theorem advance_loop_delivers {Value : Type} (next : Scanner → Token × Scanner)
    (fuel : Nat) : ∀ (c c2 : Compiler Value),
    (c.parser.panicking = true → c.parser.hiterror = true) →
    advance_loop next fuel c = Outcome.ok c2 →
    ∃ skipped, Delivers next c.scanner skipped c2.parser.current c2.scanner ∧
      c2.parser.previous = c.parser.previous ∧
      (skipped ≠ [] → c2.parser.hiterror = true) ∧
      (c2.parser.panicking = true → c2.parser.hiterror = true) ∧
      (skipped = [] → c2.parser.hiterror = c.parser.hiterror ∧
        c2.parser.panicking = c.parser.panicking ∧ c2.stderr = c.stderr) := by
  induction fuel with
  | zero => intro c c2 _ h; simp [advance_loop] at h
  | succ n ih =>
    intro c c2 hinv h
    unfold advance_loop at h
    simp only at h
    split at h
    · rename_i hne
      simp only [Outcome.ok.injEq] at h
      subst h
      exact ⟨[], Delivers.proper c.scanner hne, rfl, fun h => absurd rfl h, hinv,
        fun _ => ⟨rfl, rfl, rfl⟩⟩
    · rename_i he
      have he2 : (next c.scanner).1.type = TokenType.TOKEN_ERROR := by
        by_contra hc
        exact he hc
      have hkeep : ∀ (x : Compiler Value) (t : Token) (m : List Char),
          (error_at x t m).parser.previous = x.parser.previous ∧
          (error_at x t m).scanner = x.scanner ∧
          ((x.parser.panicking = true → x.parser.hiterror = true) →
            (error_at x t m).parser.hiterror = true ∧
            (error_at x t m).parser.panicking = true) := by
        intro x t m
        by_cases hp : x.parser.panicking = true
        · rw [error_at_panicking x t m hp]
          exact ⟨rfl, rfl, fun hi => ⟨hi hp, hp⟩⟩
        · obtain ⟨printed, -, -, -, h1, h2, -, h3, h4, -⟩ :=
            error_at_reports x t m (by simpa using hp)
          exact ⟨h3, h4, fun _ => ⟨h2, h1⟩⟩
      unfold error_current_token at h
      obtain ⟨k1, k2, k3⟩ := hkeep
        ({ c with scanner := (next c.scanner).2,
                  parser := { c.parser with current := (next c.scanner).1 } })
        (next c.scanner).1 (next c.scanner).1.start
      obtain ⟨k4, k5⟩ := k3 hinv
      obtain ⟨skipped, d, p, -, i2, -⟩ := ih _ c2 (fun _ => k4) h
      rw [k2] at d
      refine ⟨(next c.scanner).1 :: skipped, Delivers.skip c.scanner skipped _ _ he2 d,
        p.trans k1, fun _ => ?_, i2, fun h0 => by cases h0⟩
      exact (advance_loop_suppressed next n h).1 k4

theorem advance_loop_terminates {Value : Type} (fuel : Nat) : ∀ (c : Compiler Value),
    c.scanner.current.length < fuel →
    ∃ c2, advance_loop next_token fuel c = Outcome.ok c2 := by
  induction fuel with
  | zero => intro c h; omega
  | succ n ih =>
    intro c h
    unfold advance_loop
    simp only
    split
    · exact ⟨_, rfl⟩
    · rename_i he
      have he2 : (next_token c.scanner).1.type = TokenType.TOKEN_ERROR := by
        by_contra hc
        exact he hc
      have hlt := (next_token_shorter c.scanner).2 he2
      apply ih
      unfold error_current_token error_at
      split
      · simp only
        omega
      · simp only
        omega

/-- C33: `advance` of the compiler on the scanner's tokens.  From every state of the
scanner and of the parser (in which a panicking parser has its had-error flag set, as in
every state that the program reaches), with fuel above the length of the text at the
cursor, `advance` returns; afterwards the previous token is the old current token, and
the current token is the first token that the scanner delivers which is no error token.
The error tokens delivered before it are skipped: each of them moved the cursor forward,
and if there was one the had-error flag is set; if there was none the flags and the
diagnostics are as before. -/
theorem advance_skips_error_tokens {Value : Type} (c : Compiler Value) (fuel : Nat)
    (hf : c.scanner.current.length < fuel)
    (hinv : c.parser.panicking = true → c.parser.hiterror = true) :
    ∃ skipped c2, advance next_token fuel c = Outcome.ok c2 ∧
      c2.parser.previous = c.parser.current ∧
      c2.parser.current.type ≠ TokenType.TOKEN_ERROR ∧
      Delivers next_token c.scanner skipped c2.parser.current c2.scanner ∧
      (∀ e ∈ skipped, e.type = TokenType.TOKEN_ERROR) ∧
      c2.scanner.current.length + skipped.length ≤ c.scanner.current.length ∧
      (skipped ≠ [] → c2.parser.hiterror = true) ∧
      (skipped = [] → c2.parser.hiterror = c.parser.hiterror ∧
        c2.parser.panicking = c.parser.panicking ∧ c2.stderr = c.stderr) ∧
      (c2.parser.panicking = true → c2.parser.hiterror = true) := by
  obtain ⟨c2, h⟩ := advance_loop_terminates fuel
    ({ c with parser := { c.parser with previous := c.parser.current } }) hf
  obtain ⟨skipped, d, p, e, i, u⟩ := advance_loop_delivers next_token fuel
    ({ c with parser := { c.parser with previous := c.parser.current } }) c2 hinv h
  obtain ⟨l1, l2, l3⟩ := delivers_length d
  exact ⟨skipped, c2, h, p, l2, d, l3, l1, e, u, i⟩

/-- A witness of `advance_skips_error_tokens`: at the text `#1` the error token for `#`
is skipped, the current token becomes the number `1` and the had-error flag is set. -/
theorem advance_skips_error_tokens_witness :
    ∃ (skipped : List Token) (c2 : Compiler Int),
      advance next_token 5 { program_start with scanner := init_scanner ['#', '1'] }
        = Outcome.ok c2 ∧
      c2.parser.previous = program_start.parser.current ∧
      c2.parser.current.type ≠ TokenType.TOKEN_ERROR ∧
      (skipped ≠ [] → c2.parser.hiterror = true) :=
  let ⟨skipped, c2, h1, h2, h3, _, _, _, h4, _⟩ := advance_skips_error_tokens
    ({ program_start with scanner := init_scanner ['#', '1'] } : Compiler Int) 5
    (by decide) (by decide)
  ⟨skipped, c2, h1, h2, h3, h4⟩

/-! ## Capacities as 32-bit integers -/

/-- C18 (the code departs from it): a compile that has reported failure is handed to the
machine.  `compile` has no `return` statement, so whatever state `c` it leaves, also one
with an error recorded (`c.parser.hiterror`), the call yields no value, and the test
`if (!compile(...))` of `interpret` follows the indeterminate value it reads instead:
read as true, `interpret` does not return `INTERPRETER_COMPILE_ERROR` but starts `run`
at offset 0 of the chunk, on the stack as it is; and whenever `interpret` does return
`INTERPRETER_COMPILE_ERROR`, it is because the value was read as false. -/
theorem interpret_runs_failed_compile {Value : Type} [Zero Value] [Add Value] [Sub Value]
    [Mul Value] [Div Value] (next_token : Scanner → Token × Scanner)
    (parse : Compiler Value → Outcome (Compiler Value))
    (fuel address : Nat) (source : List Char) (w : World Value) (c : Compiler Value)
    (compiled : Option Bool) (nugget : Nugget Value)
    (h : compile next_token parse fuel address source
      (set_chunk w.compiler address (some (init_nugget ⟨0, 0, [], [], ⟨0, 0, []⟩⟩)))
      = Outcome.ok (c, compiled))
    (hn : c.chunks address = some nugget) :
    compiled = none ∧
    (interpret next_token parse true fuel address source w).map (fun r => (r.1, r.2.1))
      = interpreted (run fuel { w.vm with nugget := nugget, iptr := 0 }) ∧
    (∀ w', interpret next_token parse true fuel address source w
      ≠ Outcome.ok (InterpretationResult.INTERPRETER_COMPILE_ERROR, none, w')) ∧
    (∀ (indeterminate : Bool) (printed : Option Value) (w' : World Value),
      interpret next_token parse indeterminate fuel address source w
        = Outcome.ok (InterpretationResult.INTERPRETER_COMPILE_ERROR, printed, w') →
      indeterminate = false) := by
  have hnone : compiled = none := by
    unfold compile at h
    obtain ⟨c1, -, h⟩ := Outcome.bind_ok h
    obtain ⟨c2, -, h⟩ := Outcome.bind_ok h
    obtain ⟨c3, -, h⟩ := Outcome.map_ok h
    exact (congrArg Prod.snd h).symm
  subst hnone
  have hran : (interpret next_token parse true fuel address source w).map
      (fun r => (r.1, r.2.1))
      = interpreted (run fuel { w.vm with nugget := nugget, iptr := 0 }) :=
    interpret_ran h rfl hn
  refine ⟨rfl, hran, ?_, ?_⟩
  · intro w' hi
    rw [hi] at hran
    cases hr : run fuel ({ w.vm with nugget := nugget, iptr := 0 } : VM Value) <;>
      rw [hr] at hran <;> simp [Outcome.map, interpreted] at hran
  · intro indeterminate printed w' hi
    cases indeterminate with
    | false => rfl
    | true =>
      rw [hi] at hran
      cases hr : run fuel ({ w.vm with nugget := nugget, iptr := 0 } : VM Value) with
      | returned result value vm' =>
        rw [hr] at hran
        simp only [Outcome.map, interpreted, Outcome.ok.injEq, Prod.mk.injEq] at hran
        have hok := (returns_only_at_RETURN fuel _ _ _ _ hr).1
        rw [← hran.1] at hok
        exact absurd hok (by decide)
      | undefined => rw [hr] at hran; simp [Outcome.map, interpreted] at hran
      | out_of_fuel => rw [hr] at hran; simp [Outcome.map, interpreted] at hran

/-- A witness of `interpret_runs_failed_compile`: on the source `) )` the compiler
records an error and prints one diagnostic; read as true, the missing value of `compile`
sends the empty chunk to `run`, whose first fetch is undefined. -/
theorem interpret_runs_failed_compile_witness :
    ∃ (c : Compiler Int) (nugget : Nugget Int),
      compile next_token (expression next_token lexeme_value 5) 5 0 [')', ' ', ')']
        (set_chunk program_start 0 (some (init_nugget ⟨0, 0, [], [], ⟨0, 0, []⟩⟩)))
        = Outcome.ok (c, none) ∧
      c.parser.hiterror = true ∧ c.stderr.length = 1 ∧ c.chunks 0 = some nugget ∧
      nugget.occupied = 0 ∧
      (interpret next_token (expression next_token lexeme_value 5) true 5 0 [')', ' ', ')']
        ⟨used_VM, program_start⟩).map (fun r => (r.1, r.2.1))
        = interpreted (run 5 { used_VM with nugget := nugget, iptr := 0 }) ∧
      ∀ w', interpret next_token (expression next_token lexeme_value 5) true 5 0
        [')', ' ', ')'] ⟨used_VM, program_start⟩
        ≠ Outcome.ok (InterpretationResult.INTERPRETER_COMPILE_ERROR, none, w') :=
  have hdef : (compile next_token (expression next_token lexeme_value 5) 5 0 [')', ' ', ')']
      (set_chunk program_start 0 (some (init_nugget ⟨0, 0, [], [], ⟨0, 0, []⟩⟩)))).map
      (fun p => (p.1.parser.hiterror, p.1.stderr.length,
        (p.1.chunks 0).map fun nugget => nugget.occupied))
      = Outcome.ok (true, 1, some 0) := by decide
  match hv : compile next_token (expression next_token lexeme_value 5) 5 0 [')', ' ', ')']
      (set_chunk program_start 0 (some (init_nugget ⟨0, 0, [], [], ⟨0, 0, []⟩⟩))), hdef with
  | Outcome.ok (c, compiled), hd =>
    have hd2 : c.parser.hiterror = true ∧ c.stderr.length = 1 ∧
        (c.chunks 0).map (fun nugget => nugget.occupied) = some 0 := by
      simpa [Outcome.map] using hd
    match hn : c.chunks 0, hd2.2.2 with
    | some nugget, ho =>
      let ⟨h1, h2, h3, _⟩ := interpret_runs_failed_compile next_token
        (expression next_token lexeme_value 5) 5 0 [')', ' ', ')']
        ⟨used_VM, program_start⟩ c compiled nugget hv hn
      ⟨c, nugget, by rw [h1], hd2.1, hd2.2.1, hn, by simpa using ho, h2, h3⟩

end Cypsa
